import Mathlib

/-!
Verification of the raylet `TaskDependencyManager`
(src/ray/raylet/task_dependency_manager.cc).

The component is a single-threaded in-memory index tracking, for each
locally queued task and each blocked worker, the remote objects it waits
on, and driving an object-transport / reconstruction collaborator pair
through `Pull` / `CancelPull` / `ListenAndMaybeReconstruct` / `Cancel`
calls.  We embed the state as association lists (the C++ uses unordered
maps and sets; list order refines the unspecified iteration order), embed
each public operation as an executable function, model `RAY_CHECK`
failures (and undefined end-iterator dereferences) as `Option.none`, and
record the outgoing collaborator calls in a trace.
-/

namespace RayTDM

/-- Identifier of a task (opaque in the source; `Nat` here). -/
abbrev TaskID := Nat

/-- Identifier of a worker process. -/
abbrev WorkerID := Nat

/-- Object identifier.  In the source an `ObjectID` structurally carries
the `TaskID` of the task that creates it, recovered by `ObjectID::TaskId()`;
we make that projection a field. -/
structure ObjectID where
  creator : TaskID
  index : Nat
deriving DecidableEq, Repr

/-- Embeds `ObjectID::TaskId()`. -/
def ObjectID.taskId (o : ObjectID) : TaskID := o.creator

/-- Embeds `rpc::Address`; only the `worker_id` field is inspected by this
component (`GetOwnerAddress` tests `worker_id().empty()`). -/
structure Address where
  worker_id : String
deriving DecidableEq, Repr

/-- Embeds `rpc::ObjectReference`: an object id plus the owner address to
cache for later pulls. -/
structure ObjectReference where
  object_id : ObjectID
  owner_address : Address
deriving DecidableEq, Repr

/-- Embeds `TaskDependencyManager::ObjectDependencies` (declared in the
header): cached owner address plus the dependent task and worker sets. -/
structure ObjectDependencies where
  owner_address : Address
  dependent_tasks : List TaskID
  dependent_workers : List WorkerID
deriving DecidableEq, Repr

/-- Embeds `ObjectDependencies::Empty()`: both dependent sets are empty. -/
def ObjectDependencies.Empty (d : ObjectDependencies) : Bool :=
  d.dependent_tasks.isEmpty && d.dependent_workers.isEmpty

/-- Embeds the `ObjectDependencies(const rpc::ObjectReference &)`
constructor: capture the reference's owner address, empty dependent sets. -/
def freshDeps (ref : ObjectReference) : ObjectDependencies :=
  ⟨ref.owner_address, [], []⟩

/-- Embeds `TaskDependencyManager::TaskDependencies`: the declared get
dependencies and the count of those not currently local. -/
structure TaskDependencies where
  get_dependencies : List ObjectID
  num_missing_get_dependencies : Int
deriving DecidableEq, Repr

/-- Embeds the slice of `Task` that `TaskPending` inspects:
`GetTaskSpecification().TaskId()`, `GetTaskSpecification().IsActorCreationTask()`
and whether `OnDispatch()` is a non-null callback. -/
structure Task where
  task_id : TaskID
  is_actor_creation_task : Bool
  has_on_dispatch : Bool
deriving DecidableEq, Repr

/-- Filter at the top of `TaskPending`: only actor-creation tasks being
restarted (no dispatch callback) are tracked. -/
def Task.tracked (tk : Task) : Bool :=
  tk.is_actor_creation_task && !tk.has_on_dispatch

/-- Outgoing collaborator calls (object manager and reconstruction
policy). -/
inductive Call where
  | pull (o : ObjectID) (a : Address)
  | cancelPull (o : ObjectID)
  | listen (o : ObjectID) (a : Address)
  | cancelListen (o : ObjectID)
deriving DecidableEq, Repr

/-- State of the `TaskDependencyManager`: the six indices.  Unordered maps
become association lists, unordered sets become lists. -/
structure TDM where
  local_objects : List ObjectID
  task_dependencies : List (TaskID × TaskDependencies)
  worker_dependencies : List (WorkerID × List ObjectID)
  required_tasks : List (TaskID × List (ObjectID × ObjectDependencies))
  pending_tasks : List TaskID
  required_objects : List ObjectID
deriving DecidableEq, Repr

/-- State of a freshly constructed manager: everything empty. -/
def emptyTDM : TDM := ⟨[], [], [], [], [], []⟩

section AssocList

variable {K V : Type} [DecidableEq K]

/-- Lookup in an association list (first matching key). -/
def alGet : List (K × V) → K → Option V
  | [], _ => none
  | (k', v) :: rest, k => if k' = k then some v else alGet rest k

/-- Remove every entry with the given key. -/
def alErase (l : List (K × V)) (k : K) : List (K × V) :=
  l.filter (fun p => p.1 ≠ k)

/-- Bind a key to a value (removing any previous binding). -/
def alSet (l : List (K × V)) (k : K) (v : V) : List (K × V) :=
  (k, v) :: alErase l k

theorem alGet_set_self (l : List (K × V)) (k : K) (v : V) :
    alGet (alSet l k v) k = some v := by
  simp [alSet, alGet]

theorem alGet_erase (l : List (K × V)) (k k' : K) :
    alGet (alErase l k) k' = if k' = k then none else alGet l k' := by
  induction l with
  | nil => simp [alErase, alGet]
  | cons p rest ih =>
    obtain ⟨a, b⟩ := p
    by_cases hak : a = k
    · subst hak
      have h1 : alErase ((a, b) :: rest) a = alErase rest a := by
        simp [alErase]
      rw [h1, ih]
      by_cases hk : k' = a
      · simp [hk]
      · simp [hk, alGet, Ne.symm hk]
    · have h1 : alErase ((a, b) :: rest) k = (a, b) :: alErase rest k := by
        simp [alErase, hak]
      rw [h1]
      by_cases hak' : a = k'
      · have hk : ¬ k' = k := by
          rw [← hak']; exact fun h => hak h
        simp [alGet, hak', hk]
      · simp [alGet, hak', ih]

theorem alGet_erase_self (l : List (K × V)) (k : K) :
    alGet (alErase l k) k = none := by
  simp [alGet_erase]

theorem alGet_erase_ne (l : List (K × V)) (k k' : K) (h : k' ≠ k) :
    alGet (alErase l k) k' = alGet l k' := by
  simp [alGet_erase, h]

theorem alGet_set_ne (l : List (K × V)) (k k' : K) (v : V) (h : k' ≠ k) :
    alGet (alSet l k v) k' = alGet l k' := by
  simp [alSet, alGet, Ne.symm h, alGet_erase_ne l k k' h]

theorem alGet_set (l : List (K × V)) (k k' : K) (v : V) :
    alGet (alSet l k v) k' = if k' = k then some v else alGet l k' := by
  by_cases h : k' = k
  · subst h; simp [alGet_set_self]
  · simp [h, alGet_set_ne l k k' v h]

end AssocList

/-- Guarded set insertion on a list: no-op when already present. -/
def sInsert {A : Type} [DecidableEq A] (l : List A) (a : A) : List A :=
  if a ∈ l then l else a :: l

theorem mem_sInsert {A : Type} [DecidableEq A] (l : List A) (a b : A) :
    b ∈ sInsert l a ↔ b = a ∨ b ∈ l := by
  by_cases h : a ∈ l
  · simp [sInsert, h]
    intro hb; subst hb; exact h
  · simp [sInsert, h]

theorem nodup_sInsert {A : Type} [DecidableEq A] (l : List A) (a : A)
    (h : l.Nodup) : (sInsert l a).Nodup := by
  by_cases ha : a ∈ l <;> simp [sInsert, ha, h]

/-- The required-tasks index type: creating task id to object id to
`ObjectDependencies`. -/
abbrev RTIndex := List (TaskID × List (ObjectID × ObjectDependencies))

/-- Write-back of an object's record into the two-level required-tasks
index: `some d'` replaces the record, `none` deletes it, deleting the
outer entry when its inner map becomes empty (the source's empty-entry
cleanup). -/
def rtUpdate (rt : RTIndex) (oid : ObjectID) (od : Option ObjectDependencies) :
    RTIndex :=
  match od with
  | some d' => alSet rt oid.taskId (alSet ((alGet rt oid.taskId).getD []) oid d')
  | none =>
    if (alErase ((alGet rt oid.taskId).getD []) oid).isEmpty then
      alErase rt oid.taskId
    else alSet rt oid.taskId (alErase ((alGet rt oid.taskId).getD []) oid)

/-- Embeds `CheckObjectLocal`. -/
def CheckObjectLocal (s : TDM) (o : ObjectID) : Bool :=
  decide (o ∈ s.local_objects)

/-- Embeds `CheckObjectRequired`: `some a` when the object is required
(present in the required-tasks index, not local, creator not pending) with
`a` the cached owner address; `none` otherwise.  The C++ returns a bool
and writes the address through an out parameter. -/
def CheckObjectRequired (s : TDM) (o : ObjectID) : Option Address :=
  match alGet s.required_tasks o.taskId with
  | none => none
  | some inner =>
    match alGet inner o with
    | none => none
    | some d =>
      if o ∈ s.local_objects then none
      else if o.taskId ∈ s.pending_tasks then none
      else some d.owner_address

/-- Combined lookup through both levels of the required-tasks index. -/
def indexGet (s : TDM) (o : ObjectID) : Option ObjectDependencies :=
  (alGet s.required_tasks o.taskId).bind (fun inner => alGet inner o)

/-- Keystone predicate of the spec (§4.1): the object is in the
required-tasks index, is not local, and its creator is not pending. -/
def objectIsRequired (s : TDM) (o : ObjectID) : Bool :=
  (CheckObjectRequired s o).isSome

/-- Embeds `HandleRemoteDependencyRequired`: open a pull (and a
reconstruction listen) when the object is required and has no pull open. -/
def HandleRemoteDependencyRequired (s : TDM) (o : ObjectID) : TDM × List Call :=
  match CheckObjectRequired s o with
  | some a =>
    if o ∈ s.required_objects then (s, [])
    else ({ s with required_objects := o :: s.required_objects },
          [Call.pull o a, Call.listen o a])
  | none => (s, [])

/-- Embeds `HandleRemoteDependencyCanceled`: close the pull when the
object is no longer required but has one open. -/
def HandleRemoteDependencyCanceled (s : TDM) (o : ObjectID) : TDM × List Call :=
  match CheckObjectRequired s o with
  | some _ => (s, [])
  | none =>
    if o ∈ s.required_objects then
      ({ s with required_objects := s.required_objects.filter (· ≠ o) },
       [Call.cancelPull o, Call.cancelListen o])
    else (s, [])

/-- Iterate `HandleRemoteDependencyRequired` over a list of objects,
accumulating the outgoing calls. -/
def requireAll (s : TDM) : List ObjectID → TDM × List Call
  | [] => (s, [])
  | o :: rest =>
    let p := HandleRemoteDependencyRequired s o
    let q := requireAll p.1 rest
    (q.1, p.2 ++ q.2)

/-- Iterate `HandleRemoteDependencyCanceled` over a list of objects. -/
def cancelAll (s : TDM) : List ObjectID → TDM × List Call
  | [] => (s, [])
  | o :: rest =>
    let p := HandleRemoteDependencyCanceled s o
    let q := cancelAll p.1 rest
    (q.1, p.2 ++ q.2)

/-- Body of the recording loop of `SubscribeGetDependencies` for one
reference: if newly inserted into the task's get dependencies, bump the
missing counter when non-local and add the task to the reverse index
(creating the `ObjectDependencies` from this reference when absent). -/
def recordGetDep (task_id : TaskID) (s : TDM) (entry : TaskDependencies)
    (ref : ObjectReference) : TaskDependencies × TDM :=
  let oid := ref.object_id
  if oid ∈ entry.get_dependencies then (entry, s)
  else
    let entry' : TaskDependencies :=
      ⟨oid :: entry.get_dependencies,
       entry.num_missing_get_dependencies +
         (if oid ∈ s.local_objects then 0 else 1)⟩
    let inner := (alGet s.required_tasks oid.taskId).getD []
    let d := (alGet inner oid).getD (freshDeps ref)
    let d' := { d with dependent_tasks := sInsert d.dependent_tasks task_id }
    (entry',
     { s with required_tasks :=
         alSet s.required_tasks oid.taskId (alSet inner oid d') })

/-- Recording loop of `SubscribeGetDependencies` over all references. -/
def recordGetDeps (task_id : TaskID) (entry : TaskDependencies) (s : TDM) :
    List ObjectReference → TaskDependencies × TDM
  | [] => (entry, s)
  | ref :: rest =>
    let p := recordGetDep task_id s entry ref
    recordGetDeps task_id p.1 p.2 rest

/-- State of `SubscribeGetDependencies` after the recording loop and the
write-back of the task entry, before the `HandleRemoteDependencyRequired`
pass. -/
def subGetMid (s : TDM) (task_id : TaskID) (refs : List ObjectReference) : TDM :=
  { (recordGetDeps task_id ((alGet s.task_dependencies task_id).getD ⟨[], 0⟩) s refs).2 with
    task_dependencies :=
      alSet (recordGetDeps task_id ((alGet s.task_dependencies task_id).getD ⟨[], 0⟩) s refs).2.task_dependencies
        task_id
        (recordGetDeps task_id ((alGet s.task_dependencies task_id).getD ⟨[], 0⟩) s refs).1 }

/-- Embeds `SubscribeGetDependencies`.  Returns the `bool` result (all
dependencies local), the outgoing calls, and the new state. -/
def SubscribeGetDependencies (s : TDM) (task_id : TaskID)
    (refs : List ObjectReference) : Bool × List Call × TDM :=
  ((recordGetDeps task_id ((alGet s.task_dependencies task_id).getD ⟨[], 0⟩) s refs).1.num_missing_get_dependencies == 0,
   (requireAll (subGetMid s task_id refs) (refs.map (·.object_id))).2,
   (requireAll (subGetMid s task_id refs) (refs.map (·.object_id))).1)

/-- Body of the recording loop of `SubscribeWaitDependencies` for one
reference: local objects are skipped entirely; otherwise mirror the get
case with the dependent-workers set. -/
def recordWaitDep (worker_id : WorkerID) (s : TDM) (wentry : List ObjectID)
    (ref : ObjectReference) : List ObjectID × TDM :=
  let oid := ref.object_id
  if oid ∈ s.local_objects then (wentry, s)
  else if oid ∈ wentry then (wentry, s)
  else
    let inner := (alGet s.required_tasks oid.taskId).getD []
    let d := (alGet inner oid).getD (freshDeps ref)
    let d' := { d with dependent_workers := sInsert d.dependent_workers worker_id }
    (oid :: wentry,
     { s with required_tasks :=
         alSet s.required_tasks oid.taskId (alSet inner oid d') })

/-- Recording loop of `SubscribeWaitDependencies`. -/
def recordWaitDeps (worker_id : WorkerID) (wentry : List ObjectID) (s : TDM) :
    List ObjectReference → List ObjectID × TDM
  | [] => (wentry, s)
  | ref :: rest =>
    let p := recordWaitDep worker_id s wentry ref
    recordWaitDeps worker_id p.1 p.2 rest

/-- State of `SubscribeWaitDependencies` after the recording loop and the
write-back of the worker entry. -/
def subWaitMid (s : TDM) (worker_id : WorkerID) (refs : List ObjectReference) : TDM :=
  { (recordWaitDeps worker_id ((alGet s.worker_dependencies worker_id).getD []) s refs).2 with
    worker_dependencies :=
      alSet (recordWaitDeps worker_id ((alGet s.worker_dependencies worker_id).getD []) s refs).2.worker_dependencies
        worker_id
        (recordWaitDeps worker_id ((alGet s.worker_dependencies worker_id).getD []) s refs).1 }

/-- Embeds `SubscribeWaitDependencies`. -/
def SubscribeWaitDependencies (s : TDM) (worker_id : WorkerID)
    (refs : List ObjectReference) : List Call × TDM :=
  ((requireAll (subWaitMid s worker_id refs) (refs.map (·.object_id))).2,
   (requireAll (subWaitMid s worker_id refs) (refs.map (·.object_id))).1)

/-- Removal of one unsubscribed get dependency from the reverse index
(`UnsubscribeGetDependencies` loop body).  `none` models a crash: the C++
dereferences the result of an outer `find` unchecked and `RAY_CHECK`s both
the inner `find` and that the erase removed something. -/
def removeTaskDep (task_id : TaskID) (s : TDM) (oid : ObjectID) : Option TDM :=
  match alGet s.required_tasks oid.taskId with
  | none => none
  | some inner =>
    match alGet inner oid with
    | none => none
    | some d =>
      if task_id ∈ d.dependent_tasks then
        some { s with
          required_tasks :=
            rtUpdate s.required_tasks oid
              (if ({ d with
                  dependent_tasks := d.dependent_tasks.filter (· ≠ task_id) }
                 : ObjectDependencies).Empty
               then none
               else some { d with
                  dependent_tasks := d.dependent_tasks.filter (· ≠ task_id) }) }
      else none

/-- Loop of `UnsubscribeGetDependencies` over the removed dependencies. -/
def removeTaskDeps (task_id : TaskID) (s : TDM) : List ObjectID → Option TDM
  | [] => some s
  | o :: rest =>
    match removeTaskDep task_id s o with
    | none => none
    | some s' => removeTaskDeps task_id s' rest

/-- Embeds `UnsubscribeGetDependencies`. -/
def UnsubscribeGetDependencies (s : TDM) (task_id : TaskID) :
    Option (Bool × List Call × TDM) :=
  match alGet s.task_dependencies task_id with
  | none => some (false, [], s)
  | some entry =>
    let s1 := { s with task_dependencies := alErase s.task_dependencies task_id }
    match removeTaskDeps task_id s1 entry.get_dependencies with
    | none => none
    | some s2 =>
      let q := cancelAll s2 entry.get_dependencies
      some (true, q.2, q.1)

/-- Removal of one worker wait dependency from the reverse index
(`UnsubscribeWaitDependencies` loop body); crashes mirror the get case. -/
def removeWorkerDep (worker_id : WorkerID) (s : TDM) (oid : ObjectID) : Option TDM :=
  match alGet s.required_tasks oid.taskId with
  | none => none
  | some inner =>
    match alGet inner oid with
    | none => none
    | some d =>
      if worker_id ∈ d.dependent_workers then
        some { s with
          required_tasks :=
            rtUpdate s.required_tasks oid
              (if ({ d with
                  dependent_workers := d.dependent_workers.filter (· ≠ worker_id) }
                 : ObjectDependencies).Empty
               then none
               else some { d with
                  dependent_workers := d.dependent_workers.filter (· ≠ worker_id) }) }
      else none

/-- Loop of `UnsubscribeWaitDependencies`. -/
def removeWorkerDeps (worker_id : WorkerID) (s : TDM) : List ObjectID → Option TDM
  | [] => some s
  | o :: rest =>
    match removeWorkerDep worker_id s o with
    | none => none
    | some s' => removeWorkerDeps worker_id s' rest

/-- Embeds `UnsubscribeWaitDependencies`. -/
def UnsubscribeWaitDependencies (s : TDM) (worker_id : WorkerID) :
    Option (List Call × TDM) :=
  match alGet s.worker_dependencies worker_id with
  | none => some ([], s)
  | some wentry =>
    let s1 := { s with worker_dependencies := alErase s.worker_dependencies worker_id }
    match removeWorkerDeps worker_id s1 wentry with
    | none => none
    | some s2 =>
      let q := cancelAll s2 wentry
      some (q.2, q.1)

/-- Decrement loop of `HandleObjectLocal` over the dependent tasks.
`task_dependencies_[t]` default-constructs an entry when absent, exactly
as the C++ `operator[]` does. -/
def decrementTasks (s : TDM) (ready : List TaskID) :
    List TaskID → List TaskID × TDM
  | [] => (ready, s)
  | t :: rest =>
    let te := (alGet s.task_dependencies t).getD ⟨[], 0⟩
    let te' : TaskDependencies :=
      ⟨te.get_dependencies, te.num_missing_get_dependencies - 1⟩
    let ready' := if te'.num_missing_get_dependencies = 0 then ready ++ [t] else ready
    decrementTasks
      { s with task_dependencies := alSet s.task_dependencies t te' } ready' rest

/-- Worker-wait erase loop of `HandleObjectLocal`; `none` models the
`RAY_CHECK(worker_dependencies_[worker_id].erase(object_id) > 0)`. -/
def eraseWorkerWaits (o : ObjectID) (s : TDM) : List WorkerID → Option TDM
  | [] => some s
  | w :: rest =>
    let wd := (alGet s.worker_dependencies w).getD []
    if o ∈ wd then
      eraseWorkerWaits o
        { s with worker_dependencies :=
            alSet s.worker_dependencies w (wd.filter (· ≠ o)) } rest
    else none

/-- Embeds `HandleObjectLocal`; `none` is the `RAY_CHECK(inserted.second)`
on a duplicate insertion (or a worker-wait check failure). -/
def HandleObjectLocal (s : TDM) (o : ObjectID) :
    Option (List TaskID × List Call × TDM) :=
  if o ∈ s.local_objects then none
  else
    let s0 := { s with local_objects := o :: s.local_objects }
    match alGet s0.required_tasks o.taskId with
    | none =>
      let q := HandleRemoteDependencyCanceled s0 o
      some ([], q.2, q.1)
    | some inner =>
      match alGet inner o with
      | none =>
        let q := HandleRemoteDependencyCanceled s0 o
        some ([], q.2, q.1)
      | some d =>
        let p := decrementTasks s0 [] d.dependent_tasks
        match eraseWorkerWaits o p.2 d.dependent_workers with
        | none => none
        | some s2 =>
          let s3 := { s2 with
            required_tasks :=
              rtUpdate s2.required_tasks o
                (if ({ d with
                    dependent_workers := ([] : List WorkerID) }
                   : ObjectDependencies).Empty
                 then none
                 else some { d with
                    dependent_workers := ([] : List WorkerID) }) }
          let q := HandleRemoteDependencyCanceled s3 o
          some (p.1, q.2, q.1)

/-- Increment loop of `HandleObjectMissing`: a dependent task whose
counter was zero is appended to the waiting list before the increment. -/
def incrementTasks (s : TDM) (waiting : List TaskID) :
    List TaskID → List TaskID × TDM
  | [] => (waiting, s)
  | t :: rest =>
    let te := (alGet s.task_dependencies t).getD ⟨[], 0⟩
    let waiting' := if te.num_missing_get_dependencies = 0 then waiting ++ [t] else waiting
    let te' : TaskDependencies :=
      ⟨te.get_dependencies, te.num_missing_get_dependencies + 1⟩
    incrementTasks
      { s with task_dependencies := alSet s.task_dependencies t te' } waiting' rest

/-- Embeds `HandleObjectMissing`; `none` is the `RAY_CHECK(erased == 1)`
when the object was not local. -/
def HandleObjectMissing (s : TDM) (o : ObjectID) :
    Option (List TaskID × List Call × TDM) :=
  if o ∈ s.local_objects then
    let s0 := { s with local_objects := s.local_objects.filter (· ≠ o) }
    let p :=
      match alGet s0.required_tasks o.taskId with
      | none => (([] : List TaskID), s0)
      | some inner =>
        match alGet inner o with
        | none => (([] : List TaskID), s0)
        | some d => incrementTasks s0 [] d.dependent_tasks
    let q := HandleRemoteDependencyRequired p.2 o
    some (p.1, q.2, q.1)
  else none

/-- Embeds `TaskPending`: only tracked tasks (actor-creation restarts) are
recorded; on a genuine transition every object created by the task loses
its pull. -/
def TaskPending (s : TDM) (tk : Task) : List Call × TDM :=
  if tk.tracked then
    if tk.task_id ∈ s.pending_tasks then ([], s)
    else
      let s1 := { s with pending_tasks := tk.task_id :: s.pending_tasks }
      match alGet s1.required_tasks tk.task_id with
      | none => ([], s1)
      | some inner =>
        let q := cancelAll s1 (inner.map (·.1))
        (q.2, q.1)
  else ([], s)

/-- Embeds `TaskCanceled`: a no-op on a non-pending task; otherwise every
object created by the task may regain its pull. -/
def TaskCanceled (s : TDM) (task_id : TaskID) : List Call × TDM :=
  if task_id ∈ s.pending_tasks then
    let s1 := { s with pending_tasks := s.pending_tasks.filter (· ≠ task_id) }
    match alGet s1.required_tasks task_id with
    | none => ([], s1)
    | some inner =>
      let q := requireAll s1 (inner.map (·.1))
      (q.2, q.1)
  else ([], s)

/-- Collection loop of `RemoveTasksAndRelatedObjects`: gather each purged
task's get dependencies (first-seen order, duplicates skipped), drop its
task-dependency record and its pending-set membership. -/
def collectPurge (s : TDM) (req : List ObjectID) :
    List TaskID → List ObjectID × TDM
  | [] => (req, s)
  | t :: rest =>
    let req' :=
      match alGet s.task_dependencies t with
      | some te => te.get_dependencies.foldl
          (fun r o => if o ∈ r then r else r ++ [o]) req
      | none => req
    collectPurge
      { s with task_dependencies := alErase s.task_dependencies t,
               pending_tasks := s.pending_tasks.filter (· ≠ t) } req' rest

/-- Cancellation loop of `RemoveTasksAndRelatedObjects`: erase the whole
required-tasks entry keyed by each collected object's creator, then close
its pull. -/
def purgeObjects (s : TDM) (calls : List Call) :
    List ObjectID → TDM × List Call
  | [] => (s, calls)
  | o :: rest =>
    let s1 := { s with required_tasks := alErase s.required_tasks o.taskId }
    let q := HandleRemoteDependencyCanceled s1 o
    purgeObjects q.1 (calls ++ q.2) rest

/-- Embeds `RemoveTasksAndRelatedObjects`; `none` is the final
`RAY_CHECK` that no purged task id survives as a required-tasks key. -/
def RemoveTasksAndRelatedObjects (s : TDM) (task_ids : List TaskID) :
    Option (List Call × TDM) :=
  let p := collectPurge s [] task_ids
  let q := purgeObjects p.2 [] p.1
  if task_ids.all (fun t => (alGet q.1.required_tasks t).isNone)
  then some (q.2, q.1) else none

/-- Embeds `GetOwnerAddress`: the `Bool` is the C++ return value and the
`Option Address` records whether (and with what) the out parameter was
written. -/
def GetOwnerAddress (s : TDM) (o : ObjectID) : Bool × Option Address :=
  match alGet s.required_tasks o.taskId with
  | none => (false, none)
  | some inner =>
    match alGet inner o with
    | none => (false, none)
    | some d => (!d.owner_address.worker_id.isEmpty, some d.owner_address)

/-- Public operations, for quantifying over call sequences. -/
inductive Op where
  | subGet (t : TaskID) (refs : List ObjectReference)
  | subWait (w : WorkerID) (refs : List ObjectReference)
  | unsubGet (t : TaskID)
  | unsubWait (w : WorkerID)
  | objLocal (o : ObjectID)
  | objMissing (o : ObjectID)
  | taskPend (tk : Task)
  | taskCancel (t : TaskID)
  | removeTasks (ts : List TaskID)
deriving DecidableEq, Repr

/-- One public operation on the state; `none` when the operation aborts
the process. -/
def step (s : TDM) : Op → Option TDM
  | .subGet t refs => some (SubscribeGetDependencies s t refs).2.2
  | .subWait w refs => some (SubscribeWaitDependencies s w refs).2
  | .unsubGet t => (UnsubscribeGetDependencies s t).map (·.2.2)
  | .unsubWait w => (UnsubscribeWaitDependencies s w).map (·.2)
  | .objLocal o => (HandleObjectLocal s o).map (·.2.2)
  | .objMissing o => (HandleObjectMissing s o).map (·.2.2)
  | .taskPend tk => some (TaskPending s tk).2
  | .taskCancel t => some (TaskCanceled s t).2
  | .removeTasks ts => (RemoveTasksAndRelatedObjects s ts).map (·.2)

/-- Run a sequence of public operations from a given state. -/
def runFrom (s : TDM) : List Op → Option TDM
  | [] => some s
  | op :: ops =>
    match step s op with
    | none => none
    | some s' => runFrom s' ops

/-- Run a sequence of public operations from the empty state. -/
def run (ops : List Op) : Option TDM := runFrom emptyTDM ops

/-- States reachable by some sequence of public operations from the empty
state, with every operation returning (no fatal check fires). -/
def Reachable (s : TDM) : Prop := ∃ ops, run ops = some s

/-- Caller contract of `RemoveTasksAndRelatedObjects` (spec §9, "Bulk
removal's creator-keyed purge"): the purge erases every required-tasks
entry keyed by the creator of a collected object, so it is only correct
when every subscriber to every object in those entries is itself being
purged — every dependent task is in `task_ids` and no worker depends on
them. -/
def removeContract (s : TDM) (task_ids : List TaskID) : Bool :=
  task_ids.all fun t =>
    match alGet s.task_dependencies t with
    | none => true
    | some te =>
      te.get_dependencies.all fun o =>
        match alGet s.required_tasks o.taskId with
        | none => true
        | some inner =>
          inner.all fun p =>
            p.2.dependent_workers.isEmpty &&
              p.2.dependent_tasks.all (fun t' => t' ∈ task_ids)

/-- An operation respects the caller contracts: only
`RemoveTasksAndRelatedObjects` has one. -/
def stepOK (s : TDM) : Op → Bool
  | .removeTasks ts => removeContract s ts
  | _ => true

/-- The sequence runs to completion from `s` and every operation respects
its caller contract when invoked. -/
def goodRun (s : TDM) : List Op → Bool
  | [] => true
  | op :: ops =>
    stepOK s op &&
      match step s op with
      | none => false
      | some s' => goodRun s' ops

/-- Effect of removing one task from an object's reverse-index record
(empty records are deleted), as an `Option` transform. -/
def dropTask (t : TaskID) (od : Option ObjectDependencies) : Option ObjectDependencies :=
  match od with
  | none => none
  | some d =>
    if (ObjectDependencies.Empty
        { d with dependent_tasks := d.dependent_tasks.filter (· ≠ t) }) then none
    else some { d with dependent_tasks := d.dependent_tasks.filter (· ≠ t) }

/-- Effect of removing one worker from an object's reverse-index record. -/
def dropWorker (w : WorkerID) (od : Option ObjectDependencies) : Option ObjectDependencies :=
  match od with
  | none => none
  | some d =>
    if (ObjectDependencies.Empty
        { d with dependent_workers := d.dependent_workers.filter (· ≠ w) }) then none
    else some { d with dependent_workers := d.dependent_workers.filter (· ≠ w) }

/-- Well-formedness facts that hold in every state reachable by completed
operations from the empty state, with no assumption on
`RemoveTasksAndRelatedObjects` callers: the reverse index points only at
subscribed tasks and recorded worker waits and holds no duplicates, the
active-pull set avoids local objects, and every indexed, non-local object
with a non-pending creator has an open pull. -/
structure WFlite (s : TDM) : Prop where
  creatorOK : ∀ c inner o d, alGet s.required_tasks c = some inner →
    alGet inner o = some d → o.taskId = c
  depTasksOK : ∀ o d, indexGet s o = some d → ∀ t ∈ d.dependent_tasks,
    ∃ te, alGet s.task_dependencies t = some te ∧ o ∈ te.get_dependencies
  depWorkersOK : ∀ o d, indexGet s o = some d → ∀ w ∈ d.dependent_workers,
    ∃ wd, alGet s.worker_dependencies w = some wd ∧ o ∈ wd
  depTasksNodup : ∀ o d, indexGet s o = some d → d.dependent_tasks.Nodup
  depWorkersNodup : ∀ o d, indexGet s o = some d → d.dependent_workers.Nodup
  getDepsNodup : ∀ t te, alGet s.task_dependencies t = some te →
    te.get_dependencies.Nodup
  wdNodup : ∀ w wd, alGet s.worker_dependencies w = some wd → wd.Nodup
  disjointLocal : ∀ o, o ∈ s.required_objects → o ∉ s.local_objects
  reqComplete : ∀ o d, indexGet s o = some d → o ∉ s.local_objects →
    o.taskId ∉ s.pending_tasks → o ∈ s.required_objects

/-- Full well-formedness: holds in every state reachable by completed
operations whose `RemoveTasksAndRelatedObjects` calls respect the caller
contract.  Adds the exact missing counters (invariant I3), the forward
directions of invariant I1, and the exact active-pull characterization
(invariant I4 with `WFlite`). -/
structure WFx (s : TDM) : Prop where
  lite : WFlite s
  missingCount : ∀ t te, alGet s.task_dependencies t = some te →
    te.num_missing_get_dependencies =
      ((te.get_dependencies.filter (fun o => o ∉ s.local_objects)).length : Int)
  getDepsIndexed : ∀ t te, alGet s.task_dependencies t = some te →
    ∀ o ∈ te.get_dependencies, ∃ d, indexGet s o = some d ∧ t ∈ d.dependent_tasks
  wdIndexed : ∀ w wd, alGet s.worker_dependencies w = some wd →
    ∀ o ∈ wd, ∃ d, indexGet s o = some d ∧ w ∈ d.dependent_workers
  reqIndexed : ∀ o, o ∈ s.required_objects → (indexGet s o).isSome = true
  reqPend : ∀ o, o ∈ s.required_objects → o.taskId ∉ s.pending_tasks
  noEmpty : ∀ o d, indexGet s o = some d →
    d.dependent_tasks ≠ [] ∨ d.dependent_workers ≠ []

theorem objectIsRequired_iff (s : TDM) (o : ObjectID) :
    objectIsRequired s o = true ↔
      (indexGet s o).isSome = true ∧ o ∉ s.local_objects ∧
        o.taskId ∉ s.pending_tasks := by
  unfold objectIsRequired CheckObjectRequired indexGet
  cases h1 : alGet s.required_tasks o.taskId with
  | none => simp
  | some inner =>
    cases h2 : alGet inner o with
    | none => simp [h2]
    | some d =>
      by_cases hl : o ∈ s.local_objects <;>
        by_cases hp : o.taskId ∈ s.pending_tasks <;> simp [h2, hl, hp]

theorem checkRequired_congr (s s' : TDM) (o : ObjectID)
    (h1 : s'.required_tasks = s.required_tasks)
    (h2 : s'.local_objects = s.local_objects)
    (h3 : s'.pending_tasks = s.pending_tasks) :
    CheckObjectRequired s' o = CheckObjectRequired s o := by
  unfold CheckObjectRequired
  rw [h1, h2, h3]

theorem required_frame (s : TDM) (o : ObjectID) :
    (HandleRemoteDependencyRequired s o).1.local_objects = s.local_objects ∧
    (HandleRemoteDependencyRequired s o).1.task_dependencies = s.task_dependencies ∧
    (HandleRemoteDependencyRequired s o).1.worker_dependencies = s.worker_dependencies ∧
    (HandleRemoteDependencyRequired s o).1.required_tasks = s.required_tasks ∧
    (HandleRemoteDependencyRequired s o).1.pending_tasks = s.pending_tasks := by
  unfold HandleRemoteDependencyRequired
  cases CheckObjectRequired s o with
  | none => exact ⟨rfl, rfl, rfl, rfl, rfl⟩
  | some a => by_cases h : o ∈ s.required_objects <;> simp [h]

theorem canceled_frame (s : TDM) (o : ObjectID) :
    (HandleRemoteDependencyCanceled s o).1.local_objects = s.local_objects ∧
    (HandleRemoteDependencyCanceled s o).1.task_dependencies = s.task_dependencies ∧
    (HandleRemoteDependencyCanceled s o).1.worker_dependencies = s.worker_dependencies ∧
    (HandleRemoteDependencyCanceled s o).1.required_tasks = s.required_tasks ∧
    (HandleRemoteDependencyCanceled s o).1.pending_tasks = s.pending_tasks := by
  unfold HandleRemoteDependencyCanceled
  cases CheckObjectRequired s o with
  | some a => exact ⟨rfl, rfl, rfl, rfl, rfl⟩
  | none => by_cases h : o ∈ s.required_objects <;> simp [h]

theorem mem_required (s : TDM) (o o' : ObjectID) :
    o' ∈ (HandleRemoteDependencyRequired s o).1.required_objects ↔
      o' ∈ s.required_objects ∨ (o' = o ∧ objectIsRequired s o = true) := by
  unfold HandleRemoteDependencyRequired objectIsRequired
  cases CheckObjectRequired s o with
  | none => simp
  | some a =>
    by_cases h : o ∈ s.required_objects
    · simp only [if_pos h, Option.isSome_some, and_true]
      constructor
      · exact fun hm => Or.inl hm
      · rintro (hm | he)
        · exact hm
        · rw [he]; exact h
    · simp only [if_neg h, List.mem_cons, Option.isSome_some, and_true]
      exact or_comm

theorem mem_canceled (s : TDM) (o o' : ObjectID) :
    o' ∈ (HandleRemoteDependencyCanceled s o).1.required_objects ↔
      o' ∈ s.required_objects ∧ (o' ≠ o ∨ objectIsRequired s o = true) := by
  unfold HandleRemoteDependencyCanceled objectIsRequired
  cases CheckObjectRequired s o with
  | some a =>
    simp only [Option.isSome_some]
    constructor
    · exact fun hm => ⟨hm, Or.inr (by simp)⟩
    · exact fun hm => hm.1
  | none =>
    simp only [Option.isSome_none]
    by_cases h : o ∈ s.required_objects
    · simp only [if_pos h, List.mem_filter, decide_eq_true_eq]
      constructor
      · rintro ⟨hm, hne⟩
        exact ⟨hm, Or.inl hne⟩
      · rintro ⟨hm, hne | hfalse⟩
        · exact ⟨hm, hne⟩
        · exact absurd hfalse (by simp)
    · simp only [if_neg h]
      constructor
      · intro hm
        refine ⟨hm, Or.inl ?_⟩
        intro he
        rw [he] at hm
        exact h hm
      · exact fun hm => hm.1

theorem requireAll_frame (s : TDM) (os : List ObjectID) :
    (requireAll s os).1.local_objects = s.local_objects ∧
    (requireAll s os).1.task_dependencies = s.task_dependencies ∧
    (requireAll s os).1.worker_dependencies = s.worker_dependencies ∧
    (requireAll s os).1.required_tasks = s.required_tasks ∧
    (requireAll s os).1.pending_tasks = s.pending_tasks := by
  induction os generalizing s with
  | nil => exact ⟨rfl, rfl, rfl, rfl, rfl⟩
  | cons o rest ih =>
    have h1 := required_frame s o
    have h2 := ih (HandleRemoteDependencyRequired s o).1
    unfold requireAll
    exact ⟨h2.1.trans h1.1, h2.2.1.trans h1.2.1, h2.2.2.1.trans h1.2.2.1,
           h2.2.2.2.1.trans h1.2.2.2.1, h2.2.2.2.2.trans h1.2.2.2.2⟩

theorem cancelAll_frame (s : TDM) (os : List ObjectID) :
    (cancelAll s os).1.local_objects = s.local_objects ∧
    (cancelAll s os).1.task_dependencies = s.task_dependencies ∧
    (cancelAll s os).1.worker_dependencies = s.worker_dependencies ∧
    (cancelAll s os).1.required_tasks = s.required_tasks ∧
    (cancelAll s os).1.pending_tasks = s.pending_tasks := by
  induction os generalizing s with
  | nil => exact ⟨rfl, rfl, rfl, rfl, rfl⟩
  | cons o rest ih =>
    have h1 := canceled_frame s o
    have h2 := ih (HandleRemoteDependencyCanceled s o).1
    unfold cancelAll
    exact ⟨h2.1.trans h1.1, h2.2.1.trans h1.2.1, h2.2.2.1.trans h1.2.2.1,
           h2.2.2.2.1.trans h1.2.2.2.1, h2.2.2.2.2.trans h1.2.2.2.2⟩

theorem checkRequired_required (s : TDM) (o o' : ObjectID) :
    CheckObjectRequired (HandleRemoteDependencyRequired s o).1 o' =
      CheckObjectRequired s o' := by
  have h := required_frame s o
  exact checkRequired_congr s _ o' h.2.2.2.1 h.1 h.2.2.2.2

theorem checkRequired_canceled (s : TDM) (o o' : ObjectID) :
    CheckObjectRequired (HandleRemoteDependencyCanceled s o).1 o' =
      CheckObjectRequired s o' := by
  have h := canceled_frame s o
  exact checkRequired_congr s _ o' h.2.2.2.1 h.1 h.2.2.2.2

theorem mem_requireAll (s : TDM) (os : List ObjectID) (o' : ObjectID) :
    o' ∈ (requireAll s os).1.required_objects ↔
      o' ∈ s.required_objects ∨ (o' ∈ os ∧ objectIsRequired s o' = true) := by
  induction os generalizing s with
  | nil => simp [requireAll]
  | cons o rest ih =>
    unfold requireAll
    rw [ih, mem_required]
    have hreq : objectIsRequired (HandleRemoteDependencyRequired s o).1 o' =
        objectIsRequired s o' := by
      unfold objectIsRequired
      rw [checkRequired_required]
    rw [hreq]
    constructor
    · rintro (((h | ⟨he, hr⟩) | ⟨hm, hr⟩))
      · exact Or.inl h
      · exact Or.inr ⟨by rw [he]; exact List.mem_cons_self o rest,
          by rw [he]; exact hr⟩
      · exact Or.inr ⟨List.mem_cons_of_mem _ hm, hr⟩
    · rintro (h | ⟨hm, hr⟩)
      · exact Or.inl (Or.inl h)
      · rcases List.mem_cons.mp hm with he | hm'
        · exact Or.inl (Or.inr ⟨he, by rw [← he]; exact hr⟩)
        · exact Or.inr ⟨hm', hr⟩

theorem mem_cancelAll (s : TDM) (os : List ObjectID) (o' : ObjectID) :
    o' ∈ (cancelAll s os).1.required_objects ↔
      o' ∈ s.required_objects ∧ (o' ∉ os ∨ objectIsRequired s o' = true) := by
  induction os generalizing s with
  | nil => simp [cancelAll]
  | cons o rest ih =>
    unfold cancelAll
    rw [ih, mem_canceled]
    have hreq : objectIsRequired (HandleRemoteDependencyCanceled s o).1 o' =
        objectIsRequired s o' := by
      unfold objectIsRequired
      rw [checkRequired_canceled]
    rw [hreq]
    constructor
    · rintro ⟨⟨hm, hne⟩, hrest⟩
      refine ⟨hm, ?_⟩
      rcases hrest with hnr | hr
      · rcases hne with hne | hr
        · exact Or.inl (by simp [hne, hnr])
        · by_cases he : o' = o
          · exact Or.inr (by rw [he]; exact hr)
          · exact Or.inl (by simp [he, hnr])
      · exact Or.inr hr
    · rintro ⟨hm, hrest⟩
      rcases hrest with hnr | hr
      · simp at hnr
        exact ⟨⟨hm, Or.inl hnr.1⟩, Or.inl hnr.2⟩
      · refine ⟨⟨hm, ?_⟩, Or.inr hr⟩
        by_cases he : o' = o
        · exact Or.inr (by rw [← he]; exact hr)
        · exact Or.inl he

/-- C9: an unsubscribe of a non-subscribed task returns `false` with the
state unchanged and no outgoing calls; an unsubscribe of an unknown
worker and a `TaskCanceled` of a non-pending task likewise return
silently with the state unchanged and no outgoing calls. -/
theorem benign_noops (s : TDM) (t : TaskID) (w : WorkerID) (t' : TaskID)
    (h1 : alGet s.task_dependencies t = none)
    (h2 : alGet s.worker_dependencies w = none)
    (h3 : t' ∉ s.pending_tasks) :
    UnsubscribeGetDependencies s t = some (false, [], s) ∧
    UnsubscribeWaitDependencies s w = some ([], s) ∧
    TaskCanceled s t' = ([], s) := by
  refine ⟨?_, ?_, ?_⟩
  · unfold UnsubscribeGetDependencies
    rw [h1]
  · unfold UnsubscribeWaitDependencies
    rw [h2]
  · unfold TaskCanceled
    simp [h3]

/-- C9 witness at a concrete state. -/
theorem benign_noops_witness :
    UnsubscribeGetDependencies emptyTDM 5 = some (false, [], emptyTDM) ∧
    UnsubscribeWaitDependencies emptyTDM 7 = some ([], emptyTDM) ∧
    TaskCanceled emptyTDM 9 = ([], emptyTDM) :=
  benign_noops emptyTDM 5 7 9 (by decide) (by decide) (by decide)

/-- C10: `GetOwnerAddress` returns `false` without writing the out
parameter when the object has no required-tasks entry; writes the cached
address but still returns `false` when the entry exists with an empty
cached worker id; and returns `true` exactly when the entry exists and
the cached worker id is non-empty. -/
theorem getOwnerAddress_cases (s : TDM) (o : ObjectID) :
    (indexGet s o = none → GetOwnerAddress s o = (false, none)) ∧
    (∀ d, indexGet s o = some d →
      GetOwnerAddress s o =
        (!d.owner_address.worker_id.isEmpty, some d.owner_address)) ∧
    ((GetOwnerAddress s o).1 = true ↔
      ∃ d, indexGet s o = some d ∧ d.owner_address.worker_id.isEmpty = false) := by
  unfold GetOwnerAddress indexGet
  cases h1 : alGet s.required_tasks o.taskId with
  | none => simp
  | some inner =>
    cases h2 : alGet inner o with
    | none => simp [h2]
    | some d =>
      refine ⟨by simp [h2], ?_, ?_⟩
      · intro d' hd
        simp only [Option.some_bind, h2] at hd ⊢
        injection hd with hd'
        subst hd'
        rfl
      · cases h3 : d.owner_address.worker_id.isEmpty <;> simp [h2, h3]

/-- C10 witness: a state whose index holds an address with a non-empty
worker id. -/
theorem getOwnerAddress_cases_witness :
    GetOwnerAddress
      ⟨[], [], [], [(0, [(⟨0, 0⟩, ⟨⟨"w"⟩, [1], []⟩)])], [], []⟩ ⟨0, 0⟩ =
      (true, some ⟨"w"⟩) := by
  have h := (getOwnerAddress_cases
    ⟨[], [], [], [(0, [(⟨0, 0⟩, ⟨⟨"w"⟩, [1], []⟩)])], [], []⟩ ⟨0, 0⟩).2.1
    ⟨⟨"w"⟩, [1], []⟩ (by rfl)
  simpa using h

theorem sInsert_idem {A : Type} [DecidableEq A] (l : List A) (a : A) :
    sInsert (sInsert l a) a = sInsert l a := by
  by_cases h : a ∈ l
  · simp [sInsert, h]
  · simp [sInsert, h]

theorem indexGet_congr (s s' : TDM) (o : ObjectID)
    (h : s'.required_tasks = s.required_tasks) :
    indexGet s' o = indexGet s o := by
  unfold indexGet
  rw [h]

theorem indexGet_requireAll (s : TDM) (os : List ObjectID) (o : ObjectID) :
    indexGet (requireAll s os).1 o = indexGet s o :=
  indexGet_congr s _ o (requireAll_frame s os).2.2.2.1

theorem indexGet_cancelAll (s : TDM) (os : List ObjectID) (o : ObjectID) :
    indexGet (cancelAll s os).1 o = indexGet s o :=
  indexGet_congr s _ o (cancelAll_frame s os).2.2.2.1

theorem indexGet_canceled (s : TDM) (o o' : ObjectID) :
    indexGet (HandleRemoteDependencyCanceled s o).1 o' = indexGet s o' :=
  indexGet_congr s _ o' (canceled_frame s o).2.2.2.1

theorem indexGet_required (s : TDM) (o o' : ObjectID) :
    indexGet (HandleRemoteDependencyRequired s o).1 o' = indexGet s o' :=
  indexGet_congr s _ o' (required_frame s o).2.2.2.1

/-- Effect of one step of the `SubscribeGetDependencies` recording loop
on an existing reverse-index record: the owner address and the dependent
workers are untouched, and the dependent tasks at most gain the
subscribing task. -/
theorem recordGetDep_index (task_id : TaskID) (s : TDM)
    (entry : TaskDependencies) (ref : ObjectReference) (o : ObjectID)
    (d : ObjectDependencies) (h : indexGet s o = some d) :
    ∃ d', indexGet (recordGetDep task_id s entry ref).2 o = some d' ∧
      d'.owner_address = d.owner_address ∧
      d'.dependent_workers = d.dependent_workers ∧
      (d'.dependent_tasks = d.dependent_tasks ∨
        d'.dependent_tasks = sInsert d.dependent_tasks task_id) := by
  unfold recordGetDep
  by_cases hmem : ref.object_id ∈ entry.get_dependencies
  · exact ⟨d, by simp [hmem, h], rfl, rfl, Or.inl rfl⟩
  · simp only [if_neg hmem]
    unfold indexGet at h ⊢
    by_cases hc : o.taskId = ref.object_id.taskId
    · rw [hc, alGet_set_self]
      cases h1 : alGet s.required_tasks ref.object_id.taskId with
      | none =>
        rw [hc, h1] at h
        exact absurd h (by simp)
      | some inner =>
        rw [hc, h1] at h
        simp only [Option.getD_some, Option.some_bind] at h ⊢
        by_cases ho : o = ref.object_id
        · rw [← ho, alGet_set_self]
          rw [ho] at h
          rw [← ho] at h
          refine ⟨_, rfl, ?_⟩
          simp [h]
        · rw [alGet_set_ne _ _ _ _ ho]
          exact ⟨d, h, rfl, rfl, Or.inl rfl⟩
    · rw [alGet_set_ne _ _ _ _ hc]
      exact ⟨d, h, rfl, rfl, Or.inl rfl⟩

/-- Iterated version of `recordGetDep_index` over the whole loop. -/
theorem recordGetDeps_index (task_id : TaskID) (refs : List ObjectReference)
    (entry : TaskDependencies) (s : TDM) (o : ObjectID)
    (d : ObjectDependencies) (h : indexGet s o = some d) :
    ∃ d', indexGet (recordGetDeps task_id entry s refs).2 o = some d' ∧
      d'.owner_address = d.owner_address ∧
      d'.dependent_workers = d.dependent_workers ∧
      (d'.dependent_tasks = d.dependent_tasks ∨
        d'.dependent_tasks = sInsert d.dependent_tasks task_id) := by
  induction refs generalizing entry s d with
  | nil => exact ⟨d, h, rfl, rfl, Or.inl rfl⟩
  | cons ref rest ih =>
    obtain ⟨d1, hd1, how, hww, hdt⟩ := recordGetDep_index task_id s entry ref o d h
    obtain ⟨d2, hd2, how2, hww2, hdt2⟩ :=
      ih (recordGetDep task_id s entry ref).1 (recordGetDep task_id s entry ref).2 d1 hd1
    refine ⟨d2, hd2, how2.trans how, hww2.trans hww, ?_⟩
    rcases hdt2 with h2 | h2 <;> rcases hdt with h1 | h1
    · exact Or.inl (h2.trans h1)
    · exact Or.inr (h2.trans h1)
    · exact Or.inr (by rw [h2, h1])
    · exact Or.inr (by rw [h2, h1, sInsert_idem])

/-- Effect of one step of the `SubscribeWaitDependencies` recording loop
on an existing reverse-index record. -/
theorem recordWaitDep_index (worker_id : WorkerID) (s : TDM)
    (wentry : List ObjectID) (ref : ObjectReference) (o : ObjectID)
    (d : ObjectDependencies) (h : indexGet s o = some d) :
    ∃ d', indexGet (recordWaitDep worker_id s wentry ref).2 o = some d' ∧
      d'.owner_address = d.owner_address ∧
      d'.dependent_tasks = d.dependent_tasks ∧
      (d'.dependent_workers = d.dependent_workers ∨
        d'.dependent_workers = sInsert d.dependent_workers worker_id) := by
  unfold recordWaitDep
  by_cases hl : ref.object_id ∈ s.local_objects
  · exact ⟨d, by simp [hl, h], rfl, rfl, Or.inl rfl⟩
  · by_cases hmem : ref.object_id ∈ wentry
    · exact ⟨d, by simp [hl, hmem, h], rfl, rfl, Or.inl rfl⟩
    · simp only [if_neg hl, if_neg hmem]
      unfold indexGet at h ⊢
      by_cases hc : o.taskId = ref.object_id.taskId
      · rw [hc, alGet_set_self]
        cases h1 : alGet s.required_tasks ref.object_id.taskId with
        | none =>
          rw [hc, h1] at h
          exact absurd h (by simp)
        | some inner =>
          rw [hc, h1] at h
          simp only [Option.getD_some, Option.some_bind] at h ⊢
          by_cases ho : o = ref.object_id
          · rw [← ho, alGet_set_self]
            rw [ho] at h
            rw [← ho] at h
            refine ⟨_, rfl, ?_⟩
            simp [h]
          · rw [alGet_set_ne _ _ _ _ ho]
            exact ⟨d, h, rfl, rfl, Or.inl rfl⟩
      · rw [alGet_set_ne _ _ _ _ hc]
        exact ⟨d, h, rfl, rfl, Or.inl rfl⟩

/-- Iterated version of `recordWaitDep_index`. -/
theorem recordWaitDeps_index (worker_id : WorkerID) (refs : List ObjectReference)
    (wentry : List ObjectID) (s : TDM) (o : ObjectID)
    (d : ObjectDependencies) (h : indexGet s o = some d) :
    ∃ d', indexGet (recordWaitDeps worker_id wentry s refs).2 o = some d' ∧
      d'.owner_address = d.owner_address ∧
      d'.dependent_tasks = d.dependent_tasks ∧
      (d'.dependent_workers = d.dependent_workers ∨
        d'.dependent_workers = sInsert d.dependent_workers worker_id) := by
  induction refs generalizing wentry s d with
  | nil => exact ⟨d, h, rfl, rfl, Or.inl rfl⟩
  | cons ref rest ih =>
    obtain ⟨d1, hd1, how, hdt, hdw⟩ := recordWaitDep_index worker_id s wentry ref o d h
    obtain ⟨d2, hd2, how2, hdt2, hdw2⟩ :=
      ih (recordWaitDep worker_id s wentry ref).1 (recordWaitDep worker_id s wentry ref).2 d1 hd1
    refine ⟨d2, hd2, how2.trans how, hdt2.trans hdt, ?_⟩
    rcases hdw2 with h2 | h2 <;> rcases hdw with h1 | h1
    · exact Or.inl (h2.trans h1)
    · exact Or.inr (h2.trans h1)
    · exact Or.inr (by rw [h2, h1])
    · exact Or.inr (by rw [h2, h1, sInsert_idem])

/-- C7: a later `SubscribeGetDependencies` or `SubscribeWaitDependencies`
never overwrites the owner address cached in an existing
`ObjectDependencies` record — the address captured by the subscription
that created the record persists. -/
theorem owner_address_stable (s : TDM) (t : TaskID) (w : WorkerID)
    (refs : List ObjectReference) (o : ObjectID) (d : ObjectDependencies)
    (h : indexGet s o = some d) :
    (∃ d', indexGet (SubscribeGetDependencies s t refs).2.2 o = some d' ∧
       d'.owner_address = d.owner_address) ∧
    (∃ d', indexGet (SubscribeWaitDependencies s w refs).2 o = some d' ∧
       d'.owner_address = d.owner_address) := by
  constructor
  · obtain ⟨d', hd', how, _⟩ := recordGetDeps_index t refs
      ((alGet s.task_dependencies t).getD ⟨[], 0⟩) s o d h
    refine ⟨d', ?_, how⟩
    have h1 : indexGet (SubscribeGetDependencies s t refs).2.2 o =
        indexGet (recordGetDeps t
          ((alGet s.task_dependencies t).getD ⟨[], 0⟩) s refs).2 o := by
      unfold SubscribeGetDependencies
      rw [indexGet_requireAll]
      rfl
    rw [h1]
    exact hd'
  · obtain ⟨d', hd', how, _⟩ := recordWaitDeps_index w refs
      ((alGet s.worker_dependencies w).getD []) s o d h
    refine ⟨d', ?_, how⟩
    have h1 : indexGet (SubscribeWaitDependencies s w refs).2 o =
        indexGet (recordWaitDeps w
          ((alGet s.worker_dependencies w).getD []) s refs).2 o := by
      unfold SubscribeWaitDependencies
      rw [indexGet_requireAll]
      rfl
    rw [h1]
    exact hd'

/-- C7 witness: an existing record for object `(0,0)` with owner `"w"`
keeps that owner across both kinds of subscription carrying owner `"x"`. -/
theorem owner_address_stable_witness :
    (∃ d', indexGet (SubscribeGetDependencies
        ⟨[], [], [], [(0, [(⟨0, 0⟩, ⟨⟨"w"⟩, [1], []⟩)])], [], []⟩ 2
        [⟨⟨0, 0⟩, ⟨"x"⟩⟩]).2.2 ⟨0, 0⟩ = some d' ∧
       d'.owner_address = Address.mk "w") ∧
    (∃ d', indexGet (SubscribeWaitDependencies
        ⟨[], [], [], [(0, [(⟨0, 0⟩, ⟨⟨"w"⟩, [1], []⟩)])], [], []⟩ 3
        [⟨⟨0, 0⟩, ⟨"x"⟩⟩]).2 ⟨0, 0⟩ = some d' ∧
       d'.owner_address = Address.mk "w") :=
  owner_address_stable ⟨[], [], [], [(0, [(⟨0, 0⟩, ⟨⟨"w"⟩, [1], []⟩)])], [], []⟩
    2 3 [⟨⟨0, 0⟩, ⟨"x"⟩⟩] ⟨0, 0⟩ ⟨⟨"w"⟩, [1], []⟩ (by rfl)

theorem recordGetDep_skip (t : TaskID) (s : TDM) (entry : TaskDependencies)
    (ref : ObjectReference) (h : ref.object_id ∈ entry.get_dependencies) :
    recordGetDep t s entry ref = (entry, s) := by
  unfold recordGetDep
  simp [h]

theorem recordGetDep_getDeps_mem (t : TaskID) (s : TDM)
    (entry : TaskDependencies) (ref : ObjectReference) (o : ObjectID) :
    o ∈ (recordGetDep t s entry ref).1.get_dependencies ↔
      o = ref.object_id ∨ o ∈ entry.get_dependencies := by
  unfold recordGetDep
  by_cases h : ref.object_id ∈ entry.get_dependencies
  · simp only [if_pos h]
    constructor
    · exact fun hm => Or.inr hm
    · rintro (he | hm)
      · rw [he]; exact h
      · exact hm
  · simp only [if_neg h]
    exact List.mem_cons

theorem recordGetDeps_getDeps_mem (t : TaskID) (refs : List ObjectReference)
    (entry : TaskDependencies) (s : TDM) (o : ObjectID) :
    o ∈ (recordGetDeps t entry s refs).1.get_dependencies ↔
      o ∈ entry.get_dependencies ∨ o ∈ refs.map (·.object_id) := by
  induction refs generalizing entry s with
  | nil => simp [recordGetDeps]
  | cons ref rest ih =>
    unfold recordGetDeps
    rw [ih, recordGetDep_getDeps_mem]
    simp only [List.map_cons, List.mem_cons]
    tauto

theorem recordGetDeps_cons (t : TaskID) (entry : TaskDependencies)
    (s : TDM) (ref : ObjectReference) (rest : List ObjectReference) :
    recordGetDeps t entry s (ref :: rest) =
      recordGetDeps t (recordGetDep t s entry ref).1
        (recordGetDep t s entry ref).2 rest := rfl

theorem recordGetDeps_append (t : TaskID) (entry : TaskDependencies)
    (s : TDM) (l1 l2 : List ObjectReference) :
    recordGetDeps t entry s (l1 ++ l2) =
      recordGetDeps t (recordGetDeps t entry s l1).1
        (recordGetDeps t entry s l1).2 l2 := by
  induction l1 generalizing entry s with
  | nil => rfl
  | cons ref rest ih =>
    simp only [List.cons_append, recordGetDeps_cons]
    exact ih _ _

theorem requireAll_cons (s : TDM) (o : ObjectID) (rest : List ObjectID) :
    requireAll s (o :: rest) =
      ((requireAll (HandleRemoteDependencyRequired s o).1 rest).1,
       (HandleRemoteDependencyRequired s o).2 ++
         (requireAll (HandleRemoteDependencyRequired s o).1 rest).2) := rfl

theorem requireAll_append (s : TDM) (l1 l2 : List ObjectID) :
    requireAll s (l1 ++ l2) =
      ((requireAll (requireAll s l1).1 l2).1,
       (requireAll s l1).2 ++ (requireAll (requireAll s l1).1 l2).2) := by
  induction l1 generalizing s with
  | nil => simp [requireAll]
  | cons o rest ih =>
    simp only [List.cons_append, requireAll_cons]
    rw [ih]
    simp [List.append_assoc]

theorem checkRequired_requireAll (s : TDM) (os : List ObjectID) (o : ObjectID) :
    CheckObjectRequired (requireAll s os).1 o = CheckObjectRequired s o := by
  have h := requireAll_frame s os
  exact checkRequired_congr s _ o h.2.2.2.1 h.1 h.2.2.2.2

theorem requireEnd_noop (s : TDM) (o : ObjectID)
    (h : objectIsRequired s o = true → o ∈ s.required_objects) :
    HandleRemoteDependencyRequired s o = (s, []) := by
  unfold HandleRemoteDependencyRequired
  cases hc : CheckObjectRequired s o with
  | none => rfl
  | some a =>
    have hm : o ∈ s.required_objects := by
      apply h
      unfold objectIsRequired
      rw [hc]
      rfl
    simp [hm]

/-- C4: `SubscribeGetDependencies` returns `true` exactly when the
subscribed task's missing counter is zero after the operation, and a
reference whose object id already occurs earlier in the call is collapsed
silently — appending it changes neither the return value, nor the
outgoing calls, nor the state. -/
theorem subscribeGet_return_and_dup (s : TDM) (t : TaskID)
    (refs : List ObjectReference) (ref : ObjectReference) :
    (∃ te, alGet (SubscribeGetDependencies s t refs).2.2.task_dependencies t = some te ∧
       ((SubscribeGetDependencies s t refs).1 = true ↔
         te.num_missing_get_dependencies = 0)) ∧
    (ref.object_id ∈ refs.map (·.object_id) →
      SubscribeGetDependencies s t (refs ++ [ref]) =
        SubscribeGetDependencies s t refs) := by
  constructor
  · refine ⟨(recordGetDeps t ((alGet s.task_dependencies t).getD ⟨[], 0⟩) s refs).1,
      ?_, ?_⟩
    · show alGet (requireAll (subGetMid s t refs)
        (refs.map (·.object_id))).1.task_dependencies t = _
      rw [(requireAll_frame _ _).2.1]
      exact alGet_set_self _ _ _
    · show ((recordGetDeps t ((alGet s.task_dependencies t).getD ⟨[], 0⟩) s
        refs).1.num_missing_get_dependencies == 0) = true ↔ _
      simp
  · intro hdup
    have hmem : ref.object_id ∈
        (recordGetDeps t ((alGet s.task_dependencies t).getD ⟨[], 0⟩) s refs).1.get_dependencies :=
      (recordGetDeps_getDeps_mem t refs _ s ref.object_id).mpr (Or.inr hdup)
    have hp : recordGetDeps t ((alGet s.task_dependencies t).getD ⟨[], 0⟩) s (refs ++ [ref]) =
        recordGetDeps t ((alGet s.task_dependencies t).getD ⟨[], 0⟩) s refs := by
      rw [recordGetDeps_append, recordGetDeps_cons, recordGetDep_skip _ _ _ _ hmem]
      rfl
    have hmid : subGetMid s t (refs ++ [ref]) = subGetMid s t refs := by
      unfold subGetMid
      rw [hp]
    have hra : requireAll (subGetMid s t refs) ((refs ++ [ref]).map (·.object_id)) =
        requireAll (subGetMid s t refs) (refs.map (·.object_id)) := by
      rw [List.map_append, requireAll_append]
      have hnoop : HandleRemoteDependencyRequired
          (requireAll (subGetMid s t refs) (refs.map (·.object_id))).1 ref.object_id =
          ((requireAll (subGetMid s t refs) (refs.map (·.object_id))).1, []) := by
        apply requireEnd_noop
        intro hreq
        rw [mem_requireAll]
        refine Or.inr ⟨hdup, ?_⟩
        unfold objectIsRequired at hreq ⊢
        rw [checkRequired_requireAll] at hreq
        exact hreq
      simp only [List.map_cons, List.map_nil, requireAll_cons, hnoop]
      simp [requireAll]
    unfold SubscribeGetDependencies
    rw [hp, hmid, hra]

/-- C4 witness: subscribing task 1 to the single remote object `(0,0)`
returns `false` (counter 1), and repeating the reference in the same call
changes nothing. -/
theorem subscribeGet_return_and_dup_witness :
    (∃ te, alGet (SubscribeGetDependencies emptyTDM 1
        [⟨⟨0, 0⟩, ⟨"a"⟩⟩]).2.2.task_dependencies 1 = some te ∧
       ((SubscribeGetDependencies emptyTDM 1 [⟨⟨0, 0⟩, ⟨"a"⟩⟩]).1 = true ↔
         te.num_missing_get_dependencies = 0)) ∧
    SubscribeGetDependencies emptyTDM 1 ([⟨⟨0, 0⟩, ⟨"a"⟩⟩] ++ [⟨⟨0, 0⟩, ⟨"b"⟩⟩]) =
      SubscribeGetDependencies emptyTDM 1 [⟨⟨0, 0⟩, ⟨"a"⟩⟩] := by
  have h := subscribeGet_return_and_dup emptyTDM 1 [⟨⟨0, 0⟩, ⟨"a"⟩⟩] ⟨⟨0, 0⟩, ⟨"b"⟩⟩
  exact ⟨h.1, h.2 (by decide)⟩

/-- C1 counterexample: after `SubscribeGetDependencies(1, [O(0,0)@a])`,
`SubscribeGetDependencies(2, [O(0,1)@a])` and
`RemoveTasksAndRelatedObjects([1])` (which all return), object `(0,1)` is
still in the active-pull set although `objectIsRequired` no longer holds
for it — the creator-keyed purge erased its index entry without closing
its pull. -/
theorem inv4_counterexample :
    run [Op.subGet 1 [⟨⟨0, 0⟩, ⟨"a"⟩⟩], Op.subGet 2 [⟨⟨0, 1⟩, ⟨"a"⟩⟩],
         Op.removeTasks [1]] =
      some ⟨[], [(2, ⟨[⟨0, 1⟩], 1⟩)], [], [], [], [⟨0, 1⟩]⟩ ∧
    (⟨0, 1⟩ : ObjectID) ∈
      (⟨[], [(2, ⟨[⟨0, 1⟩], 1⟩)], [], [], [], [⟨0, 1⟩]⟩ : TDM).required_objects ∧
    objectIsRequired ⟨[], [(2, ⟨[⟨0, 1⟩], 1⟩)], [], [], [], [⟨0, 1⟩]⟩ ⟨0, 1⟩ =
      false := by
  decide

/-- C2 counterexample: after `SubscribeGetDependencies(1, [O(0,0)@a])`,
`SubscribeGetDependencies(2, [O(0,0)@a])`, `RemoveTasksAndRelatedObjects([1])`
and `HandleObjectLocal(O(0,0))` (which all return), task 2 is still
subscribed with counter 1 but none of its get dependencies is missing. -/
theorem missing_count_counterexample :
    run [Op.subGet 1 [⟨⟨0, 0⟩, ⟨"a"⟩⟩], Op.subGet 2 [⟨⟨0, 0⟩, ⟨"a"⟩⟩],
         Op.removeTasks [1], Op.objLocal ⟨0, 0⟩] =
      some ⟨[⟨0, 0⟩], [(2, ⟨[⟨0, 0⟩], 1⟩)], [], [], [], []⟩ ∧
    alGet (⟨[⟨0, 0⟩], [(2, ⟨[⟨0, 0⟩], 1⟩)], [], [], [], []⟩ : TDM).task_dependencies 2 =
      some ⟨[⟨0, 0⟩], 1⟩ ∧
    (([⟨0, 0⟩] : List ObjectID).filter
      (fun o => o ∉ (⟨[⟨0, 0⟩], [(2, ⟨[⟨0, 0⟩], 1⟩)], [], [], [], []⟩ : TDM).local_objects)).length = 0 := by
  decide

/-- C6 counterexample: in the reachable state where task 0 is already
pending (tracked actor-restart task), `TaskPending` then `TaskCanceled`
does not restore the active-pull set: it was empty before the pair and
holds object `(0,0)` afterwards. -/
theorem pend_cancel_counterexample :
    run [Op.subGet 1 [⟨⟨0, 0⟩, ⟨"a"⟩⟩], Op.taskPend ⟨0, true, false⟩] =
      some ⟨[], [(1, ⟨[⟨0, 0⟩], 1⟩)], [],
            [(0, [(⟨0, 0⟩, ⟨⟨"a"⟩, [1], []⟩)])], [0], []⟩ ∧
    Task.tracked ⟨0, true, false⟩ = true ∧
    (⟨[], [(1, ⟨[⟨0, 0⟩], 1⟩)], [],
      [(0, [(⟨0, 0⟩, ⟨⟨"a"⟩, [1], []⟩)])], [0], []⟩ : TDM).required_objects = [] ∧
    (TaskCanceled
      (TaskPending ⟨[], [(1, ⟨[⟨0, 0⟩], 1⟩)], [],
        [(0, [(⟨0, 0⟩, ⟨⟨"a"⟩, [1], []⟩)])], [0], []⟩ ⟨0, true, false⟩).2
      0).2.required_objects = [⟨0, 0⟩] := by
  decide

theorem recordGetDep_frame (t : TaskID) (s : TDM) (entry : TaskDependencies)
    (ref : ObjectReference) :
    (recordGetDep t s entry ref).2.local_objects = s.local_objects ∧
    (recordGetDep t s entry ref).2.task_dependencies = s.task_dependencies ∧
    (recordGetDep t s entry ref).2.worker_dependencies = s.worker_dependencies ∧
    (recordGetDep t s entry ref).2.pending_tasks = s.pending_tasks ∧
    (recordGetDep t s entry ref).2.required_objects = s.required_objects := by
  unfold recordGetDep
  by_cases h : ref.object_id ∈ entry.get_dependencies <;> simp [h]

theorem recordGetDeps_frame (t : TaskID) (refs : List ObjectReference)
    (entry : TaskDependencies) (s : TDM) :
    (recordGetDeps t entry s refs).2.local_objects = s.local_objects ∧
    (recordGetDeps t entry s refs).2.task_dependencies = s.task_dependencies ∧
    (recordGetDeps t entry s refs).2.worker_dependencies = s.worker_dependencies ∧
    (recordGetDeps t entry s refs).2.pending_tasks = s.pending_tasks ∧
    (recordGetDeps t entry s refs).2.required_objects = s.required_objects := by
  induction refs generalizing entry s with
  | nil => exact ⟨rfl, rfl, rfl, rfl, rfl⟩
  | cons ref rest ih =>
    have h1 := recordGetDep_frame t s entry ref
    have h2 := ih (recordGetDep t s entry ref).1 (recordGetDep t s entry ref).2
    rw [recordGetDeps_cons]
    exact ⟨h2.1.trans h1.1, h2.2.1.trans h1.2.1, h2.2.2.1.trans h1.2.2.1,
           h2.2.2.2.1.trans h1.2.2.2.1, h2.2.2.2.2.trans h1.2.2.2.2⟩

theorem recordGetDep_entry (t : TaskID) (s : TDM) (entry : TaskDependencies)
    (ref : ObjectReference) :
    (recordGetDep t s entry ref).1 =
      if ref.object_id ∈ entry.get_dependencies then entry
      else ⟨ref.object_id :: entry.get_dependencies,
            entry.num_missing_get_dependencies +
              (if ref.object_id ∈ s.local_objects then 0 else 1)⟩ := by
  unfold recordGetDep
  by_cases h : ref.object_id ∈ entry.get_dependencies <;> simp [h]

theorem recordGetDep_index_rev (t : TaskID) (s : TDM) (entry : TaskDependencies)
    (ref : ObjectReference) (o : ObjectID) (d' : ObjectDependencies)
    (h : indexGet (recordGetDep t s entry ref).2 o = some d') :
    indexGet s o = some d' ∨
    (o = ref.object_id ∧ ref.object_id ∉ entry.get_dependencies ∧
      d' = { ((indexGet s o).getD (freshDeps ref)) with
             dependent_tasks :=
               sInsert ((indexGet s o).getD (freshDeps ref)).dependent_tasks t }) := by
  unfold recordGetDep at h
  by_cases hmem : ref.object_id ∈ entry.get_dependencies
  · rw [if_pos hmem] at h
    exact Or.inl h
  · rw [if_neg hmem] at h
    unfold indexGet at h ⊢
    by_cases hc : o.taskId = ref.object_id.taskId
    · rw [hc] at h ⊢
      rw [alGet_set_self] at h
      simp only [Option.some_bind] at h
      by_cases ho : o = ref.object_id
      · rw [← ho] at h
        rw [alGet_set_self] at h
        injection h with h
        refine Or.inr ⟨ho, hmem, ?_⟩
        rw [← h]
        have hbind : alGet ((alGet s.required_tasks o.taskId).getD []) o =
            (alGet s.required_tasks o.taskId).bind (fun inner => alGet inner o) := by
          cases alGet s.required_tasks o.taskId <;> simp [alGet]
        rw [hbind, hc]
      · rw [alGet_set_ne _ _ _ _ ho] at h
        cases h1 : alGet s.required_tasks ref.object_id.taskId with
        | none =>
          rw [h1] at h
          simp [alGet] at h
        | some i =>
          rw [h1] at h
          simp only [Option.getD_some] at h
          simp only [Option.some_bind]
          exact Or.inl h
    · rw [alGet_set_ne _ _ _ _ hc] at h
      exact Or.inl h

theorem recordWaitDep_frame (w : WorkerID) (s : TDM) (wentry : List ObjectID)
    (ref : ObjectReference) :
    (recordWaitDep w s wentry ref).2.local_objects = s.local_objects ∧
    (recordWaitDep w s wentry ref).2.task_dependencies = s.task_dependencies ∧
    (recordWaitDep w s wentry ref).2.worker_dependencies = s.worker_dependencies ∧
    (recordWaitDep w s wentry ref).2.pending_tasks = s.pending_tasks ∧
    (recordWaitDep w s wentry ref).2.required_objects = s.required_objects := by
  unfold recordWaitDep
  by_cases h1 : ref.object_id ∈ s.local_objects
  · simp [h1]
  · by_cases h2 : ref.object_id ∈ wentry <;> simp [h1, h2]

theorem recordWaitDeps_cons (w : WorkerID) (wentry : List ObjectID) (s : TDM)
    (ref : ObjectReference) (rest : List ObjectReference) :
    recordWaitDeps w wentry s (ref :: rest) =
      recordWaitDeps w (recordWaitDep w s wentry ref).1
        (recordWaitDep w s wentry ref).2 rest := rfl

theorem recordWaitDeps_frame (w : WorkerID) (refs : List ObjectReference)
    (wentry : List ObjectID) (s : TDM) :
    (recordWaitDeps w wentry s refs).2.local_objects = s.local_objects ∧
    (recordWaitDeps w wentry s refs).2.task_dependencies = s.task_dependencies ∧
    (recordWaitDeps w wentry s refs).2.worker_dependencies = s.worker_dependencies ∧
    (recordWaitDeps w wentry s refs).2.pending_tasks = s.pending_tasks ∧
    (recordWaitDeps w wentry s refs).2.required_objects = s.required_objects := by
  induction refs generalizing wentry s with
  | nil => exact ⟨rfl, rfl, rfl, rfl, rfl⟩
  | cons ref rest ih =>
    have h1 := recordWaitDep_frame w s wentry ref
    have h2 := ih (recordWaitDep w s wentry ref).1 (recordWaitDep w s wentry ref).2
    rw [recordWaitDeps_cons]
    exact ⟨h2.1.trans h1.1, h2.2.1.trans h1.2.1, h2.2.2.1.trans h1.2.2.1,
           h2.2.2.2.1.trans h1.2.2.2.1, h2.2.2.2.2.trans h1.2.2.2.2⟩

theorem recordWaitDep_wentry (w : WorkerID) (s : TDM) (wentry : List ObjectID)
    (ref : ObjectReference) :
    (recordWaitDep w s wentry ref).1 =
      if ref.object_id ∈ s.local_objects then wentry
      else if ref.object_id ∈ wentry then wentry
      else ref.object_id :: wentry := by
  unfold recordWaitDep
  by_cases h1 : ref.object_id ∈ s.local_objects
  · simp [h1]
  · by_cases h2 : ref.object_id ∈ wentry <;> simp [h1, h2]

theorem recordWaitDep_index_rev (w : WorkerID) (s : TDM) (wentry : List ObjectID)
    (ref : ObjectReference) (o : ObjectID) (d' : ObjectDependencies)
    (h : indexGet (recordWaitDep w s wentry ref).2 o = some d') :
    indexGet s o = some d' ∨
    (o = ref.object_id ∧ ref.object_id ∉ s.local_objects ∧
      ref.object_id ∉ wentry ∧
      d' = { ((indexGet s o).getD (freshDeps ref)) with
             dependent_workers :=
               sInsert ((indexGet s o).getD (freshDeps ref)).dependent_workers w }) := by
  unfold recordWaitDep at h
  by_cases hl : ref.object_id ∈ s.local_objects
  · rw [if_pos hl] at h
    exact Or.inl h
  · rw [if_neg hl] at h
    by_cases hmem : ref.object_id ∈ wentry
    · rw [if_pos hmem] at h
      exact Or.inl h
    · rw [if_neg hmem] at h
      unfold indexGet at h ⊢
      by_cases hc : o.taskId = ref.object_id.taskId
      · rw [hc] at h ⊢
        rw [alGet_set_self] at h
        simp only [Option.some_bind] at h
        by_cases ho : o = ref.object_id
        · rw [← ho] at h
          rw [alGet_set_self] at h
          injection h with h
          refine Or.inr ⟨ho, hl, hmem, ?_⟩
          rw [← h]
          have hbind : alGet ((alGet s.required_tasks o.taskId).getD []) o =
              (alGet s.required_tasks o.taskId).bind (fun inner => alGet inner o) := by
            cases alGet s.required_tasks o.taskId <;> simp [alGet]
          rw [hbind, hc]
        · rw [alGet_set_ne _ _ _ _ ho] at h
          cases h1 : alGet s.required_tasks ref.object_id.taskId with
          | none =>
            rw [h1] at h
            simp [alGet] at h
          | some i =>
            rw [h1] at h
            simp only [Option.getD_some] at h
            simp only [Option.some_bind]
            exact Or.inl h
      · rw [alGet_set_ne _ _ _ _ hc] at h
        exact Or.inl h

theorem recordGetDeps_tasksNodup (t : TaskID) (refs : List ObjectReference)
    (entry : TaskDependencies) (s : TDM)
    (h : ∀ o d, indexGet s o = some d → d.dependent_tasks.Nodup) :
    ∀ o d', indexGet (recordGetDeps t entry s refs).2 o = some d' →
      d'.dependent_tasks.Nodup := by
  induction refs generalizing entry s with
  | nil => exact h
  | cons ref rest ih =>
    rw [recordGetDeps_cons]
    apply ih
    intro o d' hd
    rcases recordGetDep_index_rev t s entry ref o d' hd with h1 | ⟨_, _, h1⟩
    · exact h o d' h1
    · rw [h1]
      apply nodup_sInsert
      cases hio : indexGet s o with
      | none => simp [hio, freshDeps]
      | some d => simpa [hio] using h o d hio

theorem recordGetDeps_workersNodup (t : TaskID) (refs : List ObjectReference)
    (entry : TaskDependencies) (s : TDM)
    (h : ∀ o d, indexGet s o = some d → d.dependent_workers.Nodup) :
    ∀ o d', indexGet (recordGetDeps t entry s refs).2 o = some d' →
      d'.dependent_workers.Nodup := by
  induction refs generalizing entry s with
  | nil => exact h
  | cons ref rest ih =>
    rw [recordGetDeps_cons]
    apply ih
    intro o d' hd
    rcases recordGetDep_index_rev t s entry ref o d' hd with h1 | ⟨_, _, h1⟩
    · exact h o d' h1
    · rw [h1]
      cases hio : indexGet s o with
      | none => simp [hio, freshDeps]
      | some d => simpa [hio] using h o d hio

theorem recordGetDeps_depWorkers (t : TaskID) (refs : List ObjectReference)
    (entry : TaskDependencies) (s : TDM)
    (h : ∀ o d, indexGet s o = some d → ∀ w ∈ d.dependent_workers,
      ∃ wd, alGet s.worker_dependencies w = some wd ∧ o ∈ wd) :
    ∀ o d', indexGet (recordGetDeps t entry s refs).2 o = some d' →
      ∀ w ∈ d'.dependent_workers,
        ∃ wd, alGet (recordGetDeps t entry s refs).2.worker_dependencies w = some wd ∧
          o ∈ wd := by
  induction refs generalizing entry s with
  | nil => exact h
  | cons ref rest ih =>
    rw [recordGetDeps_cons]
    apply ih
    intro o d' hd
    have hwd : (recordGetDep t s entry ref).2.worker_dependencies =
        s.worker_dependencies := (recordGetDep_frame t s entry ref).2.2.1
    rw [hwd]
    rcases recordGetDep_index_rev t s entry ref o d' hd with h1 | ⟨_, _, h1⟩
    · exact h o d' h1
    · rw [h1]
      cases hio : indexGet s o with
      | none => simp [hio, freshDeps]
      | some d =>
        intro w hw
        simp only [hio, Option.getD_some] at hw
        exact h o d hio w hw

theorem recordGetDeps_creator (t : TaskID) (refs : List ObjectReference)
    (entry : TaskDependencies) (s : TDM)
    (h : ∀ c inner o d, alGet s.required_tasks c = some inner →
      alGet inner o = some d → o.taskId = c) :
    ∀ c inner o d,
      alGet (recordGetDeps t entry s refs).2.required_tasks c = some inner →
      alGet inner o = some d → o.taskId = c := by
  induction refs generalizing entry s with
  | nil => exact h
  | cons ref rest ih =>
    rw [recordGetDeps_cons]
    apply ih
    intro c inner o d hc hi
    unfold recordGetDep at hc
    by_cases hmem : ref.object_id ∈ entry.get_dependencies
    · rw [if_pos hmem] at hc
      exact h c inner o d hc hi
    · rw [if_neg hmem] at hc
      by_cases hck : c = ref.object_id.taskId
      · rw [hck] at hc ⊢
        rw [alGet_set_self] at hc
        injection hc with hc
        rw [← hc] at hi
        by_cases hoo : o = ref.object_id
        · rw [hoo]
        · rw [alGet_set_ne _ _ _ _ hoo] at hi
          cases h1 : alGet s.required_tasks ref.object_id.taskId with
          | none =>
            rw [h1] at hi
            simp [alGet] at hi
          | some i =>
            rw [h1] at hi
            simp only [Option.getD_some] at hi
            exact h _ i o d h1 hi
      · rw [alGet_set_ne _ _ _ _ hck] at hc
        exact h c inner o d hc hi

theorem recordGetDeps_index_some (t : TaskID) (refs : List ObjectReference)
    (entry : TaskDependencies) (s : TDM) (o : ObjectID)
    (h : (indexGet (recordGetDeps t entry s refs).2 o).isSome = true) :
    (indexGet s o).isSome = true ∨ o ∈ refs.map (·.object_id) := by
  induction refs generalizing entry s with
  | nil => exact Or.inl h
  | cons ref rest ih =>
    rw [recordGetDeps_cons] at h
    rcases ih _ _ h with h1 | h1
    · cases hd : indexGet (recordGetDep t s entry ref).2 o with
      | none => rw [hd] at h1; exact absurd h1 (by simp)
      | some d' =>
        rcases recordGetDep_index_rev t s entry ref o d' hd with h2 | ⟨he, _, _⟩
        · exact Or.inl (by simp [h2])
        · exact Or.inr (by simp [he])
    · exact Or.inr (by simp [h1])

theorem recordGetDeps_entry_nodup (t : TaskID) (refs : List ObjectReference)
    (entry : TaskDependencies) (s : TDM) (h : entry.get_dependencies.Nodup) :
    (recordGetDeps t entry s refs).1.get_dependencies.Nodup := by
  induction refs generalizing entry s with
  | nil => exact h
  | cons ref rest ih =>
    rw [recordGetDeps_cons]
    apply ih
    rw [recordGetDep_entry]
    by_cases hmem : ref.object_id ∈ entry.get_dependencies
    · simpa [hmem] using h
    · simp only [if_neg hmem]
      exact List.nodup_cons.mpr ⟨hmem, h⟩

theorem recordGetDeps_depTasks (t : TaskID) (refs : List ObjectReference)
    (entry : TaskDependencies) (s : TDM)
    (h : ∀ o d, indexGet s o = some d → ∀ t' ∈ d.dependent_tasks,
      (t' = t ∧ o ∈ entry.get_dependencies) ∨
      (t' ≠ t ∧ ∃ te, alGet s.task_dependencies t' = some te ∧
        o ∈ te.get_dependencies)) :
    ∀ o d', indexGet (recordGetDeps t entry s refs).2 o = some d' →
      ∀ t' ∈ d'.dependent_tasks,
        (t' = t ∧ o ∈ (recordGetDeps t entry s refs).1.get_dependencies) ∨
        (t' ≠ t ∧ ∃ te,
          alGet (recordGetDeps t entry s refs).2.task_dependencies t' = some te ∧
          o ∈ te.get_dependencies) := by
  induction refs generalizing entry s with
  | nil => exact h
  | cons ref rest ih =>
    rw [recordGetDeps_cons]
    apply ih
    intro o d' hd t' ht'
    have htd : (recordGetDep t s entry ref).2.task_dependencies =
        s.task_dependencies := (recordGetDep_frame t s entry ref).2.1
    rw [htd]
    have hgrow : ∀ o₀, o₀ ∈ entry.get_dependencies →
        o₀ ∈ (recordGetDep t s entry ref).1.get_dependencies := by
      intro o₀ h₀
      rw [recordGetDep_getDeps_mem]
      exact Or.inr h₀
    rcases recordGetDep_index_rev t s entry ref o d' hd with h1 | ⟨he, hnm, h1⟩
    · rcases h o d' h1 t' ht' with ⟨he, hm⟩ | hother
      · exact Or.inl ⟨he, hgrow o hm⟩
      · exact Or.inr hother
    · rw [h1] at ht'
      simp only at ht'
      rw [mem_sInsert] at ht'
      rcases ht' with he' | ht'
      · refine Or.inl ⟨he', ?_⟩
        rw [recordGetDep_getDeps_mem]
        exact Or.inl he
      · cases hio : indexGet s o with
        | none =>
          rw [hio] at ht'
          simp [freshDeps] at ht'
        | some d =>
          rw [hio] at ht'
          simp only [Option.getD_some] at ht'
          rcases h o d hio t' ht' with ⟨he', hm⟩ | hother
          · exact Or.inl ⟨he', hgrow o hm⟩
          · exact Or.inr hother

theorem recordWaitDeps_workersNodup (w : WorkerID) (refs : List ObjectReference)
    (wentry : List ObjectID) (s : TDM)
    (h : ∀ o d, indexGet s o = some d → d.dependent_workers.Nodup) :
    ∀ o d', indexGet (recordWaitDeps w wentry s refs).2 o = some d' →
      d'.dependent_workers.Nodup := by
  induction refs generalizing wentry s with
  | nil => exact h
  | cons ref rest ih =>
    rw [recordWaitDeps_cons]
    apply ih
    intro o d' hd
    rcases recordWaitDep_index_rev w s wentry ref o d' hd with h1 | ⟨_, _, _, h1⟩
    · exact h o d' h1
    · rw [h1]
      apply nodup_sInsert
      cases hio : indexGet s o with
      | none => simp [hio, freshDeps]
      | some d => simpa [hio] using h o d hio

theorem recordWaitDeps_tasksNodup (w : WorkerID) (refs : List ObjectReference)
    (wentry : List ObjectID) (s : TDM)
    (h : ∀ o d, indexGet s o = some d → d.dependent_tasks.Nodup) :
    ∀ o d', indexGet (recordWaitDeps w wentry s refs).2 o = some d' →
      d'.dependent_tasks.Nodup := by
  induction refs generalizing wentry s with
  | nil => exact h
  | cons ref rest ih =>
    rw [recordWaitDeps_cons]
    apply ih
    intro o d' hd
    rcases recordWaitDep_index_rev w s wentry ref o d' hd with h1 | ⟨_, _, _, h1⟩
    · exact h o d' h1
    · rw [h1]
      cases hio : indexGet s o with
      | none => simp [hio, freshDeps]
      | some d => simpa [hio] using h o d hio

theorem recordWaitDeps_depTasks (w : WorkerID) (refs : List ObjectReference)
    (wentry : List ObjectID) (s : TDM)
    (h : ∀ o d, indexGet s o = some d → ∀ t ∈ d.dependent_tasks,
      ∃ te, alGet s.task_dependencies t = some te ∧ o ∈ te.get_dependencies) :
    ∀ o d', indexGet (recordWaitDeps w wentry s refs).2 o = some d' →
      ∀ t ∈ d'.dependent_tasks,
        ∃ te, alGet (recordWaitDeps w wentry s refs).2.task_dependencies t = some te ∧
          o ∈ te.get_dependencies := by
  induction refs generalizing wentry s with
  | nil => exact h
  | cons ref rest ih =>
    rw [recordWaitDeps_cons]
    apply ih
    intro o d' hd
    have htd : (recordWaitDep w s wentry ref).2.task_dependencies =
        s.task_dependencies := (recordWaitDep_frame w s wentry ref).2.1
    rw [htd]
    rcases recordWaitDep_index_rev w s wentry ref o d' hd with h1 | ⟨_, _, _, h1⟩
    · exact h o d' h1
    · rw [h1]
      cases hio : indexGet s o with
      | none => simp [hio, freshDeps]
      | some d =>
        intro t ht
        simp only [hio, Option.getD_some] at ht
        exact h o d hio t ht

theorem recordWaitDeps_creator (w : WorkerID) (refs : List ObjectReference)
    (wentry : List ObjectID) (s : TDM)
    (h : ∀ c inner o d, alGet s.required_tasks c = some inner →
      alGet inner o = some d → o.taskId = c) :
    ∀ c inner o d,
      alGet (recordWaitDeps w wentry s refs).2.required_tasks c = some inner →
      alGet inner o = some d → o.taskId = c := by
  induction refs generalizing wentry s with
  | nil => exact h
  | cons ref rest ih =>
    rw [recordWaitDeps_cons]
    apply ih
    intro c inner o d hc hi
    unfold recordWaitDep at hc
    by_cases hl : ref.object_id ∈ s.local_objects
    · rw [if_pos hl] at hc
      exact h c inner o d hc hi
    · rw [if_neg hl] at hc
      by_cases hmem : ref.object_id ∈ wentry
      · rw [if_pos hmem] at hc
        exact h c inner o d hc hi
      · rw [if_neg hmem] at hc
        by_cases hck : c = ref.object_id.taskId
        · rw [hck] at hc ⊢
          rw [alGet_set_self] at hc
          injection hc with hc
          rw [← hc] at hi
          by_cases hoo : o = ref.object_id
          · rw [hoo]
          · rw [alGet_set_ne _ _ _ _ hoo] at hi
            cases h1 : alGet s.required_tasks ref.object_id.taskId with
            | none =>
              rw [h1] at hi
              simp [alGet] at hi
            | some i =>
              rw [h1] at hi
              simp only [Option.getD_some] at hi
              exact h _ i o d h1 hi
        · rw [alGet_set_ne _ _ _ _ hck] at hc
          exact h c inner o d hc hi

theorem recordWaitDeps_index_some (w : WorkerID) (refs : List ObjectReference)
    (wentry : List ObjectID) (s : TDM) (o : ObjectID)
    (h : (indexGet (recordWaitDeps w wentry s refs).2 o).isSome = true) :
    (indexGet s o).isSome = true ∨ o ∈ refs.map (·.object_id) := by
  induction refs generalizing wentry s with
  | nil => exact Or.inl h
  | cons ref rest ih =>
    rw [recordWaitDeps_cons] at h
    rcases ih _ _ h with h1 | h1
    · cases hd : indexGet (recordWaitDep w s wentry ref).2 o with
      | none => rw [hd] at h1; exact absurd h1 (by simp)
      | some d' =>
        rcases recordWaitDep_index_rev w s wentry ref o d' hd with h2 | ⟨he, _, _, _⟩
        · exact Or.inl (by simp [h2])
        · exact Or.inr (by simp [he])
    · exact Or.inr (by simp [h1])

theorem recordWaitDeps_wentry_nodup (w : WorkerID) (refs : List ObjectReference)
    (wentry : List ObjectID) (s : TDM) (h : wentry.Nodup) :
    (recordWaitDeps w wentry s refs).1.Nodup := by
  induction refs generalizing wentry s with
  | nil => exact h
  | cons ref rest ih =>
    rw [recordWaitDeps_cons]
    apply ih
    rw [recordWaitDep_wentry]
    by_cases h1 : ref.object_id ∈ s.local_objects
    · simpa [h1] using h
    · by_cases h2 : ref.object_id ∈ wentry
      · simpa [h1, h2] using h
      · simp only [if_neg h1, if_neg h2]
        exact List.nodup_cons.mpr ⟨h2, h⟩

theorem recordWaitDeps_wentry_mem (w : WorkerID) (refs : List ObjectReference)
    (wentry : List ObjectID) (s : TDM) (o : ObjectID) :
    o ∈ (recordWaitDeps w wentry s refs).1 ↔
      o ∈ wentry ∨ (o ∈ refs.map (·.object_id) ∧ o ∉ s.local_objects) := by
  induction refs generalizing wentry s with
  | nil => simp [recordWaitDeps]
  | cons ref rest ih =>
    rw [recordWaitDeps_cons, ih]
    have hloc : (recordWaitDep w s wentry ref).2.local_objects = s.local_objects :=
      (recordWaitDep_frame w s wentry ref).1
    rw [hloc, recordWaitDep_wentry]
    by_cases h1 : ref.object_id ∈ s.local_objects
    · simp only [if_pos h1, List.map_cons, List.mem_cons]
      constructor
      · rintro (hm | ⟨hm, hnl⟩)
        · exact Or.inl hm
        · exact Or.inr ⟨Or.inr hm, hnl⟩
      · rintro (hm | ⟨he | hm, hnl⟩)
        · exact Or.inl hm
        · rw [he] at hnl
          exact absurd h1 hnl
        · exact Or.inr ⟨hm, hnl⟩
    · by_cases h2 : ref.object_id ∈ wentry
      · simp only [if_neg h1, if_pos h2, List.map_cons, List.mem_cons]
        constructor
        · rintro (hm | ⟨hm, hnl⟩)
          · exact Or.inl hm
          · exact Or.inr ⟨Or.inr hm, hnl⟩
        · rintro (hm | ⟨he | hm, hnl⟩)
          · exact Or.inl hm
          · rw [he]
            exact Or.inl h2
          · exact Or.inr ⟨hm, hnl⟩
      · simp only [if_neg h1, if_neg h2, List.map_cons, List.mem_cons]
        constructor
        · rintro (⟨he | hm⟩ | ⟨hm, hnl⟩)
          · rw [he]
            exact Or.inr ⟨Or.inl rfl, h1⟩
          · exact Or.inl hm
          · exact Or.inr ⟨Or.inr hm, hnl⟩
        · rintro (hm | ⟨he | hm, hnl⟩)
          · exact Or.inl (Or.inr hm)
          · exact Or.inl (Or.inl he)
          · exact Or.inr ⟨hm, hnl⟩

theorem recordWaitDeps_depWorkers (w : WorkerID) (refs : List ObjectReference)
    (wentry : List ObjectID) (s : TDM)
    (h : ∀ o d, indexGet s o = some d → ∀ w' ∈ d.dependent_workers,
      (w' = w ∧ o ∈ wentry) ∨
      (w' ≠ w ∧ ∃ wd, alGet s.worker_dependencies w' = some wd ∧ o ∈ wd)) :
    ∀ o d', indexGet (recordWaitDeps w wentry s refs).2 o = some d' →
      ∀ w' ∈ d'.dependent_workers,
        (w' = w ∧ o ∈ (recordWaitDeps w wentry s refs).1) ∨
        (w' ≠ w ∧ ∃ wd,
          alGet (recordWaitDeps w wentry s refs).2.worker_dependencies w' = some wd ∧
          o ∈ wd) := by
  induction refs generalizing wentry s with
  | nil => exact h
  | cons ref rest ih =>
    rw [recordWaitDeps_cons]
    apply ih
    intro o d' hd w' hw'
    have hwd : (recordWaitDep w s wentry ref).2.worker_dependencies =
        s.worker_dependencies := (recordWaitDep_frame w s wentry ref).2.2.1
    rw [hwd]
    have hgrow : ∀ o₀, o₀ ∈ wentry → o₀ ∈ (recordWaitDep w s wentry ref).1 := by
      intro o₀ h₀
      rw [recordWaitDep_wentry]
      by_cases h1 : ref.object_id ∈ s.local_objects
      · simpa [h1] using h₀
      · by_cases h2 : ref.object_id ∈ wentry
        · simpa [h1, h2] using h₀
        · simp only [if_neg h1, if_neg h2]
          exact List.mem_cons_of_mem _ h₀
    rcases recordWaitDep_index_rev w s wentry ref o d' hd with h1 | ⟨he, hl, hnm, h1⟩
    · rcases h o d' h1 w' hw' with ⟨he', hm⟩ | hother
      · exact Or.inl ⟨he', hgrow o hm⟩
      · exact Or.inr hother
    · rw [h1] at hw'
      simp only at hw'
      rw [mem_sInsert] at hw'
      rcases hw' with he' | hw'
      · refine Or.inl ⟨he', ?_⟩
        rw [recordWaitDep_wentry]
        rw [if_neg hl, if_neg hnm]
        rw [he]
        exact List.mem_cons_self _ _
      · cases hio : indexGet s o with
        | none =>
          rw [hio] at hw'
          simp [freshDeps] at hw'
        | some d =>
          rw [hio] at hw'
          simp only [Option.getD_some] at hw'
          rcases h o d hio w' hw' with ⟨he', hm⟩ | hother
          · exact Or.inl ⟨he', hgrow o hm⟩
          · exact Or.inr hother

theorem subGet_state (s : TDM) (t : TaskID) (refs : List ObjectReference) :
    (SubscribeGetDependencies s t refs).2.2.local_objects = s.local_objects ∧
    (SubscribeGetDependencies s t refs).2.2.pending_tasks = s.pending_tasks ∧
    (SubscribeGetDependencies s t refs).2.2.worker_dependencies = s.worker_dependencies ∧
    (SubscribeGetDependencies s t refs).2.2.required_tasks =
      (recordGetDeps t ((alGet s.task_dependencies t).getD ⟨[], 0⟩) s refs).2.required_tasks ∧
    (SubscribeGetDependencies s t refs).2.2.task_dependencies =
      alSet s.task_dependencies t
        (recordGetDeps t ((alGet s.task_dependencies t).getD ⟨[], 0⟩) s refs).1 := by
  have hf := requireAll_frame (subGetMid s t refs) (refs.map (·.object_id))
  have hr := recordGetDeps_frame t refs ((alGet s.task_dependencies t).getD ⟨[], 0⟩) s
  refine ⟨hf.1.trans hr.1, hf.2.2.2.2.trans hr.2.2.2.1,
    hf.2.2.1.trans hr.2.2.1, hf.2.2.2.1, hf.2.1.trans ?_⟩
  show alSet (recordGetDeps t ((alGet s.task_dependencies t).getD ⟨[], 0⟩) s refs).2.task_dependencies t _ = _
  rw [hr.2.1]

theorem subGet_req_mem (s : TDM) (t : TaskID) (refs : List ObjectReference)
    (o : ObjectID) :
    o ∈ (SubscribeGetDependencies s t refs).2.2.required_objects ↔
      o ∈ s.required_objects ∨ (o ∈ refs.map (·.object_id) ∧
        objectIsRequired (subGetMid s t refs) o = true) := by
  have hr := recordGetDeps_frame t refs ((alGet s.task_dependencies t).getD ⟨[], 0⟩) s
  have hm : (subGetMid s t refs).required_objects = s.required_objects := hr.2.2.2.2
  show o ∈ (requireAll (subGetMid s t refs) (refs.map (·.object_id))).1.required_objects ↔ _
  rw [mem_requireAll, hm]

/-- The `SubscribeGetDependencies` operation preserves `WFlite`. -/
theorem subscribeGet_lite (s : TDM) (t : TaskID) (refs : List ObjectReference)
    (W : WFlite s) : WFlite (SubscribeGetDependencies s t refs).2.2 := by
  obtain ⟨hloc, hpend, hwd, hrt, htd⟩ := subGet_state s t refs
  have hidx : ∀ o, indexGet (SubscribeGetDependencies s t refs).2.2 o =
      indexGet (recordGetDeps t ((alGet s.task_dependencies t).getD ⟨[], 0⟩) s refs).2 o :=
    fun o => indexGet_congr _ _ o hrt
  have hfr := recordGetDeps_frame t refs ((alGet s.task_dependencies t).getD ⟨[], 0⟩) s
  have he0nodup : ((alGet s.task_dependencies t).getD
      (⟨[], 0⟩ : TaskDependencies)).get_dependencies.Nodup := by
    cases hte : alGet s.task_dependencies t with
    | none => simp
    | some te => simpa using W.getDepsNodup t te hte
  refine ⟨?_, ?_, ?_, ?_, ?_, ?_, ?_, ?_, ?_⟩
  · intro c inner o d hc hi
    rw [hrt] at hc
    exact recordGetDeps_creator t refs _ s W.creatorOK c inner o d hc hi
  · intro o d hio t' ht'
    rw [hidx o] at hio
    have hpre : ∀ o₀ d₀, indexGet s o₀ = some d₀ → ∀ t₀ ∈ d₀.dependent_tasks,
        (t₀ = t ∧ o₀ ∈ ((alGet s.task_dependencies t).getD
          (⟨[], 0⟩ : TaskDependencies)).get_dependencies) ∨
        (t₀ ≠ t ∧ ∃ te, alGet s.task_dependencies t₀ = some te ∧
          o₀ ∈ te.get_dependencies) := by
      intro o₀ d₀ h₀ t₀ ht₀
      by_cases he : t₀ = t
      · obtain ⟨te, hte, hmem⟩ := W.depTasksOK o₀ d₀ h₀ t₀ ht₀
        rw [he] at hte
        refine Or.inl ⟨he, ?_⟩
        rw [hte]
        simpa using hmem
      · exact Or.inr ⟨he, W.depTasksOK o₀ d₀ h₀ t₀ ht₀⟩
    rcases recordGetDeps_depTasks t refs _ s hpre o d hio t' ht' with ⟨he, hm⟩ | ⟨hne, te, hte, hm⟩
    · refine ⟨_, ?_, hm⟩
      rw [he, htd]
      exact alGet_set_self _ _ _
    · refine ⟨te, ?_, hm⟩
      rw [htd, alGet_set_ne _ _ _ _ hne]
      rw [hfr.2.1] at hte
      exact hte
  · intro o d hio w hw
    rw [hidx o] at hio
    obtain ⟨wd, hwd', hm⟩ :=
      recordGetDeps_depWorkers t refs _ s W.depWorkersOK o d hio w hw
    refine ⟨wd, ?_, hm⟩
    rw [hwd, ← hfr.2.2.1]
    exact hwd'
  · intro o d hio
    rw [hidx o] at hio
    exact recordGetDeps_tasksNodup t refs _ s W.depTasksNodup o d hio
  · intro o d hio
    rw [hidx o] at hio
    exact recordGetDeps_workersNodup t refs _ s W.depWorkersNodup o d hio
  · intro t' te hte
    rw [htd, alGet_set] at hte
    by_cases he : t' = t
    · rw [if_pos he] at hte
      injection hte with hte
      rw [← hte]
      exact recordGetDeps_entry_nodup t refs _ s he0nodup
    · rw [if_neg he] at hte
      exact W.getDepsNodup t' te hte
  · intro w wd hw
    rw [hwd] at hw
    exact W.wdNodup w wd hw
  · intro o hm
    rw [hloc]
    rcases (subGet_req_mem s t refs o).mp hm with h1 | ⟨_, h1⟩
    · exact W.disjointLocal o h1
    · have h2 := ((objectIsRequired_iff _ o).mp h1).2.1
      have hml : (subGetMid s t refs).local_objects = s.local_objects := hfr.1
      rw [hml] at h2
      exact h2
  · intro o d hio hl hp
    rw [hidx o] at hio
    rw [hloc] at hl
    rw [hpend] at hp
    rcases recordGetDeps_index_some t refs _ s o (by rw [hio]; rfl) with h1 | h1
    · cases h0 : indexGet s o with
      | none => rw [h0] at h1; exact absurd h1 (by simp)
      | some d0 =>
        rw [subGet_req_mem]
        exact Or.inl (W.reqComplete o d0 h0 hl hp)
    · rw [subGet_req_mem]
      refine Or.inr ⟨h1, ?_⟩
      rw [objectIsRequired_iff]
      refine ⟨?_, ?_, ?_⟩
      · have : indexGet (subGetMid s t refs) o =
            indexGet (recordGetDeps t ((alGet s.task_dependencies t).getD ⟨[], 0⟩) s refs).2 o :=
          indexGet_congr _ _ o rfl
        rw [this, hio]
        rfl
      · have hml : (subGetMid s t refs).local_objects = s.local_objects := hfr.1
        rw [hml]
        exact hl
      · have hmp : (subGetMid s t refs).pending_tasks = s.pending_tasks := hfr.2.2.2.1
        rw [hmp]
        exact hp

theorem subWait_state (s : TDM) (w : WorkerID) (refs : List ObjectReference) :
    (SubscribeWaitDependencies s w refs).2.local_objects = s.local_objects ∧
    (SubscribeWaitDependencies s w refs).2.pending_tasks = s.pending_tasks ∧
    (SubscribeWaitDependencies s w refs).2.task_dependencies = s.task_dependencies ∧
    (SubscribeWaitDependencies s w refs).2.required_tasks =
      (recordWaitDeps w ((alGet s.worker_dependencies w).getD []) s refs).2.required_tasks ∧
    (SubscribeWaitDependencies s w refs).2.worker_dependencies =
      alSet s.worker_dependencies w
        (recordWaitDeps w ((alGet s.worker_dependencies w).getD []) s refs).1 := by
  have hf := requireAll_frame (subWaitMid s w refs) (refs.map (·.object_id))
  have hr := recordWaitDeps_frame w refs ((alGet s.worker_dependencies w).getD []) s
  refine ⟨hf.1.trans hr.1, hf.2.2.2.2.trans hr.2.2.2.1,
    hf.2.1.trans hr.2.1, hf.2.2.2.1, hf.2.2.1.trans ?_⟩
  show alSet (recordWaitDeps w ((alGet s.worker_dependencies w).getD []) s refs).2.worker_dependencies w _ = _
  rw [hr.2.2.1]

theorem subWait_req_mem (s : TDM) (w : WorkerID) (refs : List ObjectReference)
    (o : ObjectID) :
    o ∈ (SubscribeWaitDependencies s w refs).2.required_objects ↔
      o ∈ s.required_objects ∨ (o ∈ refs.map (·.object_id) ∧
        objectIsRequired (subWaitMid s w refs) o = true) := by
  have hr := recordWaitDeps_frame w refs ((alGet s.worker_dependencies w).getD []) s
  have hm : (subWaitMid s w refs).required_objects = s.required_objects := hr.2.2.2.2
  show o ∈ (requireAll (subWaitMid s w refs) (refs.map (·.object_id))).1.required_objects ↔ _
  rw [mem_requireAll, hm]

/-- The `SubscribeWaitDependencies` operation preserves `WFlite`. -/
theorem subscribeWait_lite (s : TDM) (w : WorkerID) (refs : List ObjectReference)
    (W : WFlite s) : WFlite (SubscribeWaitDependencies s w refs).2 := by
  obtain ⟨hloc, hpend, htd, hrt, hwd⟩ := subWait_state s w refs
  have hidx : ∀ o, indexGet (SubscribeWaitDependencies s w refs).2 o =
      indexGet (recordWaitDeps w ((alGet s.worker_dependencies w).getD []) s refs).2 o :=
    fun o => indexGet_congr _ _ o hrt
  have hfr := recordWaitDeps_frame w refs ((alGet s.worker_dependencies w).getD []) s
  have hw0nodup : ((alGet s.worker_dependencies w).getD ([] : List ObjectID)).Nodup := by
    cases hwe : alGet s.worker_dependencies w with
    | none => simp
    | some wd => simpa using W.wdNodup w wd hwe
  refine ⟨?_, ?_, ?_, ?_, ?_, ?_, ?_, ?_, ?_⟩
  · intro c inner o d hc hi
    rw [hrt] at hc
    exact recordWaitDeps_creator w refs _ s W.creatorOK c inner o d hc hi
  · intro o d hio t ht
    rw [hidx o] at hio
    obtain ⟨te, hte, hm⟩ :=
      recordWaitDeps_depTasks w refs _ s W.depTasksOK o d hio t ht
    refine ⟨te, ?_, hm⟩
    rw [htd, ← hfr.2.1]
    exact hte
  · intro o d hio w' hw'
    rw [hidx o] at hio
    have hpre : ∀ o₀ d₀, indexGet s o₀ = some d₀ → ∀ w₀ ∈ d₀.dependent_workers,
        (w₀ = w ∧ o₀ ∈ ((alGet s.worker_dependencies w).getD ([] : List ObjectID))) ∨
        (w₀ ≠ w ∧ ∃ wd, alGet s.worker_dependencies w₀ = some wd ∧ o₀ ∈ wd) := by
      intro o₀ d₀ h₀ w₀ hw₀
      by_cases he : w₀ = w
      · obtain ⟨wd, hwd', hmem⟩ := W.depWorkersOK o₀ d₀ h₀ w₀ hw₀
        rw [he] at hwd'
        refine Or.inl ⟨he, ?_⟩
        rw [hwd']
        simpa using hmem
      · exact Or.inr ⟨he, W.depWorkersOK o₀ d₀ h₀ w₀ hw₀⟩
    rcases recordWaitDeps_depWorkers w refs _ s hpre o d hio w' hw' with ⟨he, hm⟩ | ⟨hne, wd, hwd', hm⟩
    · refine ⟨_, ?_, hm⟩
      rw [he, hwd]
      exact alGet_set_self _ _ _
    · refine ⟨wd, ?_, hm⟩
      rw [hwd, alGet_set_ne _ _ _ _ hne]
      rw [hfr.2.2.1] at hwd'
      exact hwd'
  · intro o d hio
    rw [hidx o] at hio
    exact recordWaitDeps_tasksNodup w refs _ s W.depTasksNodup o d hio
  · intro o d hio
    rw [hidx o] at hio
    exact recordWaitDeps_workersNodup w refs _ s W.depWorkersNodup o d hio
  · intro t te hte
    rw [htd] at hte
    exact W.getDepsNodup t te hte
  · intro w' wd hw'
    rw [hwd, alGet_set] at hw'
    by_cases he : w' = w
    · rw [if_pos he] at hw'
      injection hw' with hw'
      rw [← hw']
      exact recordWaitDeps_wentry_nodup w refs _ s hw0nodup
    · rw [if_neg he] at hw'
      exact W.wdNodup w' wd hw'
  · intro o hm
    rw [hloc]
    rcases (subWait_req_mem s w refs o).mp hm with h1 | ⟨_, h1⟩
    · exact W.disjointLocal o h1
    · have h2 := ((objectIsRequired_iff _ o).mp h1).2.1
      have hml : (subWaitMid s w refs).local_objects = s.local_objects := hfr.1
      rw [hml] at h2
      exact h2
  · intro o d hio hl hp
    rw [hidx o] at hio
    rw [hloc] at hl
    rw [hpend] at hp
    rcases recordWaitDeps_index_some w refs _ s o (by rw [hio]; rfl) with h1 | h1
    · cases h0 : indexGet s o with
      | none => rw [h0] at h1; exact absurd h1 (by simp)
      | some d0 =>
        rw [subWait_req_mem]
        exact Or.inl (W.reqComplete o d0 h0 hl hp)
    · rw [subWait_req_mem]
      refine Or.inr ⟨h1, ?_⟩
      rw [objectIsRequired_iff]
      refine ⟨?_, ?_, ?_⟩
      · have hcongr : indexGet (subWaitMid s w refs) o =
            indexGet (recordWaitDeps w ((alGet s.worker_dependencies w).getD []) s refs).2 o :=
          indexGet_congr _ _ o rfl
        rw [hcongr, hio]
        rfl
      · have hml : (subWaitMid s w refs).local_objects = s.local_objects := hfr.1
        rw [hml]
        exact hl
      · have hmp : (subWaitMid s w refs).pending_tasks = s.pending_tasks := hfr.2.2.2.1
        rw [hmp]
        exact hp

theorem alGet_of_erase_nil {K V : Type} [DecidableEq K] (l : List (K × V))
    (k k' : K) (h : alErase l k = []) (hne : k' ≠ k) : alGet l k' = none := by
  induction l with
  | nil => rfl
  | cons p rest ih =>
    obtain ⟨a, b⟩ := p
    by_cases ha : a = k
    · subst ha
      have h' : alErase rest a = [] := by simpa [alErase] using h
      have hak : ¬ a = k' := fun hh => hne (by rw [hh])
      rw [show alGet ((a, b) :: rest) k' = alGet rest k' by simp [alGet, hak]]
      exact ih h'
    · exfalso
      have : alErase ((a, b) :: rest) k = (a, b) :: alErase rest k := by
        simp [alErase, ha]
      rw [this] at h
      exact List.cons_ne_nil _ _ h

theorem indexGet_rtUpdate (s : TDM) (oid : ObjectID)
    (od : Option ObjectDependencies) (o : ObjectID) :
    indexGet { s with required_tasks := rtUpdate s.required_tasks oid od } o =
      if o = oid then od else indexGet s o := by
  unfold indexGet rtUpdate
  cases od with
  | some d' =>
    simp only
    by_cases ho : o = oid
    · subst ho
      rw [if_pos rfl, alGet_set_self]
      simp only [Option.some_bind]
      rw [alGet_set_self]
    · rw [if_neg ho]
      by_cases hk : o.taskId = oid.taskId
      · rw [hk, alGet_set_self]
        simp only [Option.some_bind]
        rw [alGet_set_ne _ _ _ _ ho]
        cases h1 : alGet s.required_tasks oid.taskId with
        | none => simp [alGet]
        | some i => simp
      · rw [alGet_set_ne _ _ _ _ hk]
  | none =>
    simp only
    by_cases hie : (alErase ((alGet s.required_tasks oid.taskId).getD []) oid).isEmpty = true
    · rw [if_pos hie]
      by_cases ho : o = oid
      · subst ho
        rw [if_pos rfl, alGet_erase_self]
        rfl
      · rw [if_neg ho]
        by_cases hk : o.taskId = oid.taskId
        · rw [hk, alGet_erase_self]
          cases h1 : alGet s.required_tasks oid.taskId with
          | none => rfl
          | some i =>
            simp only [Option.some_bind, Option.none_bind]
            rw [h1] at hie
            simp only [Option.getD_some] at hie
            rw [List.isEmpty_iff] at hie
            exact (alGet_of_erase_nil i oid o hie ho).symm
        · rw [alGet_erase_ne _ _ _ hk]
    · rw [if_neg hie]
      by_cases ho : o = oid
      · subst ho
        rw [if_pos rfl, alGet_set_self]
        simp only [Option.some_bind]
        rw [alGet_erase_self]
      · rw [if_neg ho]
        by_cases hk : o.taskId = oid.taskId
        · rw [hk, alGet_set_self]
          simp only [Option.some_bind]
          rw [alGet_erase_ne _ _ _ ho]
          cases h1 : alGet s.required_tasks oid.taskId with
          | none => simp [alGet]
          | some i => simp
        · rw [alGet_set_ne _ _ _ _ hk]

theorem rtUpdate_creator (rt : RTIndex) (oid : ObjectID)
    (od : Option ObjectDependencies)
    (h : ∀ c inner o d, alGet rt c = some inner → alGet inner o = some d →
      o.taskId = c) :
    ∀ c inner o d, alGet (rtUpdate rt oid od) c = some inner →
      alGet inner o = some d → o.taskId = c := by
  intro c inner o d hc hi
  unfold rtUpdate at hc
  cases od with
  | some d' =>
    by_cases hck : c = oid.taskId
    · rw [hck] at hc ⊢
      rw [alGet_set_self] at hc
      injection hc with hc
      rw [← hc] at hi
      by_cases hoo : o = oid
      · rw [hoo]
      · rw [alGet_set_ne _ _ _ _ hoo] at hi
        cases h1 : alGet rt oid.taskId with
        | none =>
          rw [h1] at hi
          simp [alGet] at hi
        | some i =>
          rw [h1] at hi
          simp only [Option.getD_some] at hi
          exact h _ i o d h1 hi
    · rw [alGet_set_ne _ _ _ _ hck] at hc
      exact h c inner o d hc hi
  | none =>
    by_cases hie : (alErase ((alGet rt oid.taskId).getD []) oid).isEmpty = true
    · rw [if_pos hie] at hc
      rw [alGet_erase] at hc
      by_cases hck : c = oid.taskId
      · rw [if_pos hck] at hc
        exact absurd hc (by simp)
      · rw [if_neg hck] at hc
        exact h c inner o d hc hi
    · rw [if_neg hie] at hc
      by_cases hck : c = oid.taskId
      · rw [hck] at hc ⊢
        rw [alGet_set_self] at hc
        injection hc with hc
        rw [← hc] at hi
        by_cases hoo : o = oid
        · rw [hoo] at hi
          rw [alGet_erase_self] at hi
          exact absurd hi (by simp)
        · rw [alGet_erase_ne _ _ _ hoo] at hi
          cases h1 : alGet rt oid.taskId with
          | none =>
            rw [h1] at hi
            simp [alGet] at hi
          | some i =>
            rw [h1] at hi
            simp only [Option.getD_some] at hi
            exact h _ i o d h1 hi
      · rw [alGet_set_ne _ _ _ _ hck] at hc
        exact h c inner o d hc hi

theorem removeTaskDep_state (t : TaskID) (s : TDM) (oid : ObjectID) (s' : TDM)
    (h : removeTaskDep t s oid = some s') :
    s'.local_objects = s.local_objects ∧
    s'.task_dependencies = s.task_dependencies ∧
    s'.worker_dependencies = s.worker_dependencies ∧
    s'.pending_tasks = s.pending_tasks ∧
    s'.required_objects = s.required_objects ∧
    (∀ o, indexGet s' o =
      if o = oid then dropTask t (indexGet s oid) else indexGet s o) ∧
    (∃ d, indexGet s oid = some d ∧ t ∈ d.dependent_tasks) ∧
    s'.required_tasks = rtUpdate s.required_tasks oid (dropTask t (indexGet s oid)) := by
  unfold removeTaskDep at h
  cases h1 : alGet s.required_tasks oid.taskId with
  | none =>
    rw [h1] at h
    exact absurd h (by simp)
  | some inner =>
    simp only [h1] at h
    cases h2 : alGet inner oid with
    | none =>
      rw [h2] at h
      exact absurd h (by simp)
    | some d =>
      simp only [h2] at h
      by_cases h3 : t ∈ d.dependent_tasks
      · rw [if_pos h3] at h
        injection h with h
        have hidx : indexGet s oid = some d := by
          unfold indexGet
          rw [h1]
          simpa using h2
        have hdrop : dropTask t (indexGet s oid) =
            (if ({ d with
                dependent_tasks := d.dependent_tasks.filter (· ≠ t) }
               : ObjectDependencies).Empty
             then none
             else some { d with
                dependent_tasks := d.dependent_tasks.filter (· ≠ t) }) := by
          rw [hidx]
          rfl
        refine ⟨?_, ?_, ?_, ?_, ?_, ?_, ⟨d, hidx, h3⟩, ?_⟩
        · rw [← h]
        · rw [← h]
        · rw [← h]
        · rw [← h]
        · rw [← h]
        · intro o
          rw [← h, hdrop]
          exact indexGet_rtUpdate s oid _ o
        · rw [← h, hdrop]
      · rw [if_neg h3] at h
        exact absurd h (by simp)

theorem removeTaskDeps_state (t : TaskID) (l : List ObjectID) (s s' : TDM)
    (h : removeTaskDeps t s l = some s') (hnd : l.Nodup) :
    s'.local_objects = s.local_objects ∧
    s'.task_dependencies = s.task_dependencies ∧
    s'.worker_dependencies = s.worker_dependencies ∧
    s'.pending_tasks = s.pending_tasks ∧
    s'.required_objects = s.required_objects ∧
    (∀ o, indexGet s' o =
      if o ∈ l then dropTask t (indexGet s o) else indexGet s o) := by
  induction l generalizing s with
  | nil =>
    unfold removeTaskDeps at h
    injection h with h
    rw [← h]
    exact ⟨rfl, rfl, rfl, rfl, rfl, fun o => by simp⟩
  | cons o0 rest ih =>
    unfold removeTaskDeps at h
    cases hstep : removeTaskDep t s o0 with
    | none =>
      rw [hstep] at h
      exact absurd h (by simp)
    | some s1 =>
      rw [hstep] at h
      obtain ⟨f1, f2, f3, f4, f5, hpt, _, _⟩ := removeTaskDep_state t s o0 s1 hstep
      obtain ⟨g1, g2, g3, g4, g5, hgt⟩ := ih s1 h (List.nodup_cons.mp hnd).2
      have ho0 : o0 ∉ rest := (List.nodup_cons.mp hnd).1
      refine ⟨g1.trans f1, g2.trans f2, g3.trans f3, g4.trans f4, g5.trans f5, ?_⟩
      intro o
      rw [hgt o]
      by_cases hmem : o ∈ rest
      · have hne : o ≠ o0 := fun he => ho0 (he ▸ hmem)
        rw [if_pos hmem, if_pos (List.mem_cons_of_mem _ hmem), hpt o, if_neg hne]
      · rw [if_neg hmem]
        by_cases he : o = o0
        · rw [if_pos (by rw [he]; exact List.mem_cons_self _ _), hpt o, if_pos he, he]
        · rw [if_neg (by simp [he, hmem]), hpt o, if_neg he]

theorem removeWorkerDep_state (w : WorkerID) (s : TDM) (oid : ObjectID) (s' : TDM)
    (h : removeWorkerDep w s oid = some s') :
    s'.local_objects = s.local_objects ∧
    s'.task_dependencies = s.task_dependencies ∧
    s'.worker_dependencies = s.worker_dependencies ∧
    s'.pending_tasks = s.pending_tasks ∧
    s'.required_objects = s.required_objects ∧
    (∀ o, indexGet s' o =
      if o = oid then dropWorker w (indexGet s oid) else indexGet s o) ∧
    (∃ d, indexGet s oid = some d ∧ w ∈ d.dependent_workers) ∧
    s'.required_tasks = rtUpdate s.required_tasks oid (dropWorker w (indexGet s oid)) := by
  unfold removeWorkerDep at h
  cases h1 : alGet s.required_tasks oid.taskId with
  | none =>
    rw [h1] at h
    exact absurd h (by simp)
  | some inner =>
    simp only [h1] at h
    cases h2 : alGet inner oid with
    | none =>
      rw [h2] at h
      exact absurd h (by simp)
    | some d =>
      simp only [h2] at h
      by_cases h3 : w ∈ d.dependent_workers
      · rw [if_pos h3] at h
        injection h with h
        have hidx : indexGet s oid = some d := by
          unfold indexGet
          rw [h1]
          simpa using h2
        have hdrop : dropWorker w (indexGet s oid) =
            (if ({ d with
                dependent_workers := d.dependent_workers.filter (· ≠ w) }
               : ObjectDependencies).Empty
             then none
             else some { d with
                dependent_workers := d.dependent_workers.filter (· ≠ w) }) := by
          rw [hidx]
          rfl
        refine ⟨?_, ?_, ?_, ?_, ?_, ?_, ⟨d, hidx, h3⟩, ?_⟩
        · rw [← h]
        · rw [← h]
        · rw [← h]
        · rw [← h]
        · rw [← h]
        · intro o
          rw [← h, hdrop]
          exact indexGet_rtUpdate s oid _ o
        · rw [← h, hdrop]
      · rw [if_neg h3] at h
        exact absurd h (by simp)

theorem removeWorkerDeps_state (w : WorkerID) (l : List ObjectID) (s s' : TDM)
    (h : removeWorkerDeps w s l = some s') (hnd : l.Nodup) :
    s'.local_objects = s.local_objects ∧
    s'.task_dependencies = s.task_dependencies ∧
    s'.worker_dependencies = s.worker_dependencies ∧
    s'.pending_tasks = s.pending_tasks ∧
    s'.required_objects = s.required_objects ∧
    (∀ o, indexGet s' o =
      if o ∈ l then dropWorker w (indexGet s o) else indexGet s o) := by
  induction l generalizing s with
  | nil =>
    unfold removeWorkerDeps at h
    injection h with h
    rw [← h]
    exact ⟨rfl, rfl, rfl, rfl, rfl, fun o => by simp⟩
  | cons o0 rest ih =>
    unfold removeWorkerDeps at h
    cases hstep : removeWorkerDep w s o0 with
    | none =>
      rw [hstep] at h
      exact absurd h (by simp)
    | some s1 =>
      rw [hstep] at h
      obtain ⟨f1, f2, f3, f4, f5, hpt, _, _⟩ := removeWorkerDep_state w s o0 s1 hstep
      obtain ⟨g1, g2, g3, g4, g5, hgt⟩ := ih s1 h (List.nodup_cons.mp hnd).2
      have ho0 : o0 ∉ rest := (List.nodup_cons.mp hnd).1
      refine ⟨g1.trans f1, g2.trans f2, g3.trans f3, g4.trans f4, g5.trans f5, ?_⟩
      intro o
      rw [hgt o]
      by_cases hmem : o ∈ rest
      · have hne : o ≠ o0 := fun he => ho0 (he ▸ hmem)
        rw [if_pos hmem, if_pos (List.mem_cons_of_mem _ hmem), hpt o, if_neg hne]
      · rw [if_neg hmem]
        by_cases he : o = o0
        · rw [if_pos (by rw [he]; exact List.mem_cons_self _ _), hpt o, if_pos he, he]
        · rw [if_neg (by simp [he, hmem]), hpt o, if_neg he]

theorem dropTask_some (t : TaskID) (od : Option ObjectDependencies)
    (d : ObjectDependencies) (h : dropTask t od = some d) :
    ∃ d0, od = some d0 ∧
      d.dependent_tasks = d0.dependent_tasks.filter (· ≠ t) ∧
      d.dependent_workers = d0.dependent_workers ∧
      d.owner_address = d0.owner_address := by
  cases od with
  | none => exact absurd h (by simp [dropTask])
  | some d0 =>
    simp only [dropTask] at h
    by_cases he : (ObjectDependencies.Empty
        { d0 with dependent_tasks := d0.dependent_tasks.filter (· ≠ t) }) = true
    · rw [if_pos he] at h
      exact absurd h (by simp)
    · rw [if_neg he] at h
      injection h with h
      exact ⟨d0, rfl, by rw [← h], by rw [← h], by rw [← h]⟩

theorem dropWorker_some (w : WorkerID) (od : Option ObjectDependencies)
    (d : ObjectDependencies) (h : dropWorker w od = some d) :
    ∃ d0, od = some d0 ∧
      d.dependent_workers = d0.dependent_workers.filter (· ≠ w) ∧
      d.dependent_tasks = d0.dependent_tasks ∧
      d.owner_address = d0.owner_address := by
  cases od with
  | none => exact absurd h (by simp [dropWorker])
  | some d0 =>
    simp only [dropWorker] at h
    by_cases he : (ObjectDependencies.Empty
        { d0 with dependent_workers := d0.dependent_workers.filter (· ≠ w) }) = true
    · rw [if_pos he] at h
      exact absurd h (by simp)
    · rw [if_neg he] at h
      injection h with h
      exact ⟨d0, rfl, by rw [← h], by rw [← h], by rw [← h]⟩

theorem removeTaskDeps_creator (t : TaskID) (l : List ObjectID) (s s' : TDM)
    (h : removeTaskDeps t s l = some s')
    (hc : ∀ c inner o d, alGet s.required_tasks c = some inner →
      alGet inner o = some d → o.taskId = c) :
    ∀ c inner o d, alGet s'.required_tasks c = some inner →
      alGet inner o = some d → o.taskId = c := by
  induction l generalizing s with
  | nil =>
    unfold removeTaskDeps at h
    injection h with h
    rw [← h]
    exact hc
  | cons o0 rest ih =>
    unfold removeTaskDeps at h
    cases hstep : removeTaskDep t s o0 with
    | none =>
      rw [hstep] at h
      exact absurd h (by simp)
    | some s1 =>
      rw [hstep] at h
      obtain ⟨_, _, _, _, _, _, _, hrt⟩ := removeTaskDep_state t s o0 s1 hstep
      apply ih s1 h
      rw [hrt]
      exact rtUpdate_creator s.required_tasks o0 _ hc

theorem removeWorkerDeps_creator (w : WorkerID) (l : List ObjectID) (s s' : TDM)
    (h : removeWorkerDeps w s l = some s')
    (hc : ∀ c inner o d, alGet s.required_tasks c = some inner →
      alGet inner o = some d → o.taskId = c) :
    ∀ c inner o d, alGet s'.required_tasks c = some inner →
      alGet inner o = some d → o.taskId = c := by
  induction l generalizing s with
  | nil =>
    unfold removeWorkerDeps at h
    injection h with h
    rw [← h]
    exact hc
  | cons o0 rest ih =>
    unfold removeWorkerDeps at h
    cases hstep : removeWorkerDep w s o0 with
    | none =>
      rw [hstep] at h
      exact absurd h (by simp)
    | some s1 =>
      rw [hstep] at h
      obtain ⟨_, _, _, _, _, _, _, hrt⟩ := removeWorkerDep_state w s o0 s1 hstep
      apply ih s1 h
      rw [hrt]
      exact rtUpdate_creator s.required_tasks o0 _ hc

/-- `UnsubscribeGetDependencies` preserves `WFlite` whenever it returns. -/
theorem unsubscribeGet_lite (s : TDM) (t : TaskID) (r : Bool × List Call × TDM)
    (W : WFlite s) (h : UnsubscribeGetDependencies s t = some r) :
    WFlite r.2.2 := by
  unfold UnsubscribeGetDependencies at h
  cases h0 : alGet s.task_dependencies t with
  | none =>
    rw [h0] at h
    injection h with h
    rw [← h]
    exact W
  | some entry =>
    simp only [h0] at h
    cases h2 : removeTaskDeps t
        { s with task_dependencies := alErase s.task_dependencies t }
        entry.get_dependencies with
    | none =>
      rw [h2] at h
      exact absurd h (by simp)
    | some s2 =>
      simp only [h2] at h
      injection h with h
      rw [← h]
      have hnd : entry.get_dependencies.Nodup := W.getDepsNodup t entry h0
      obtain ⟨f1, f2, f3, f4, f5, hpt⟩ := removeTaskDeps_state t _ _ s2 h2 hnd
      have hidx2 : ∀ o, indexGet s2 o =
          if o ∈ entry.get_dependencies then dropTask t (indexGet s o)
          else indexGet s o := by
        intro o
        rw [hpt o]
        have : indexGet { s with task_dependencies := alErase s.task_dependencies t } o =
            indexGet s o := indexGet_congr _ _ o rfl
        rw [this]
      have hcf := cancelAll_frame s2 entry.get_dependencies
      have hidxf : ∀ o, indexGet (cancelAll s2 entry.get_dependencies).1 o =
          indexGet s2 o := fun o => indexGet_congr _ _ o hcf.2.2.2.1
      have hmemf : ∀ o, o ∈ (cancelAll s2 entry.get_dependencies).1.required_objects ↔
          o ∈ s.required_objects ∧
            (o ∉ entry.get_dependencies ∨ objectIsRequired s2 o = true) := by
        intro o
        rw [mem_cancelAll, f5]
      refine ⟨?_, ?_, ?_, ?_, ?_, ?_, ?_, ?_, ?_⟩
      · intro c inner o d hc hi
        rw [hcf.2.2.2.1] at hc
        exact removeTaskDeps_creator t _ _ s2 h2 W.creatorOK c inner o d hc hi
      · intro o d hio t' ht'
        rw [hidxf o, hidx2 o] at hio
        rw [hcf.2.1, f2]
        by_cases hmem : o ∈ entry.get_dependencies
        · rw [if_pos hmem] at hio
          obtain ⟨d0, hd0, hdt, _, _⟩ := dropTask_some t _ d hio
          rw [hdt] at ht'
          rw [List.mem_filter] at ht'
          obtain ⟨ht0, hne⟩ := ht'
          simp only [decide_eq_true_eq] at hne
          obtain ⟨te, hte, hmo⟩ := W.depTasksOK o d0 hd0 t' ht0
          refine ⟨te, ?_, hmo⟩
          rw [alGet_erase_ne _ _ _ hne]
          exact hte
        · rw [if_neg hmem] at hio
          obtain ⟨te, hte, hmo⟩ := W.depTasksOK o d hio t' ht'
          have hne : t' ≠ t := by
            intro he
            rw [he, h0] at hte
            injection hte with hte
            rw [hte] at hmem
            exact hmem hmo
          refine ⟨te, ?_, hmo⟩
          rw [alGet_erase_ne _ _ _ hne]
          exact hte
      · intro o d hio w hw
        rw [hidxf o, hidx2 o] at hio
        rw [hcf.2.2.1, f3]
        by_cases hmem : o ∈ entry.get_dependencies
        · rw [if_pos hmem] at hio
          obtain ⟨d0, hd0, _, hdw, _⟩ := dropTask_some t _ d hio
          rw [hdw] at hw
          exact W.depWorkersOK o d0 hd0 w hw
        · rw [if_neg hmem] at hio
          exact W.depWorkersOK o d hio w hw
      · intro o d hio
        rw [hidxf o, hidx2 o] at hio
        by_cases hmem : o ∈ entry.get_dependencies
        · rw [if_pos hmem] at hio
          obtain ⟨d0, hd0, hdt, _, _⟩ := dropTask_some t _ d hio
          rw [hdt]
          exact (W.depTasksNodup o d0 hd0).filter _
        · rw [if_neg hmem] at hio
          exact W.depTasksNodup o d hio
      · intro o d hio
        rw [hidxf o, hidx2 o] at hio
        by_cases hmem : o ∈ entry.get_dependencies
        · rw [if_pos hmem] at hio
          obtain ⟨d0, hd0, _, hdw, _⟩ := dropTask_some t _ d hio
          rw [hdw]
          exact W.depWorkersNodup o d0 hd0
        · rw [if_neg hmem] at hio
          exact W.depWorkersNodup o d hio
      · intro t' te hte
        rw [hcf.2.1, f2] at hte
        rw [alGet_erase] at hte
        by_cases he : t' = t
        · rw [if_pos he] at hte
          exact absurd hte (by simp)
        · rw [if_neg he] at hte
          exact W.getDepsNodup t' te hte
      · intro w wd hw
        rw [hcf.2.2.1, f3] at hw
        exact W.wdNodup w wd hw
      · intro o hm
        rw [hmemf o] at hm
        rw [hcf.1, f1]
        exact W.disjointLocal o hm.1
      · intro o d hio hl hp
        rw [hidxf o] at hio
        rw [hcf.1, f1] at hl
        rw [hcf.2.2.2.2, f4] at hp
        rw [hmemf o]
        rw [hidx2 o] at hio
        by_cases hmem : o ∈ entry.get_dependencies
        · rw [if_pos hmem] at hio
          obtain ⟨d0, hd0, _, _, _⟩ := dropTask_some t _ d hio
          refine ⟨W.reqComplete o d0 hd0 hl hp, Or.inr ?_⟩
          rw [objectIsRequired_iff]
          refine ⟨?_, ?_, ?_⟩
          · rw [hidx2 o, if_pos hmem, hio]
            rfl
          · rw [f1]
            exact hl
          · rw [f4]
            exact hp
        · rw [if_neg hmem] at hio
          exact ⟨W.reqComplete o d hio hl hp, Or.inl hmem⟩

/-- `UnsubscribeWaitDependencies` preserves `WFlite` whenever it returns. -/
theorem unsubscribeWait_lite (s : TDM) (w : WorkerID) (r : List Call × TDM)
    (W : WFlite s) (h : UnsubscribeWaitDependencies s w = some r) :
    WFlite r.2 := by
  unfold UnsubscribeWaitDependencies at h
  cases h0 : alGet s.worker_dependencies w with
  | none =>
    rw [h0] at h
    injection h with h
    rw [← h]
    exact W
  | some wentry =>
    simp only [h0] at h
    cases h2 : removeWorkerDeps w
        { s with worker_dependencies := alErase s.worker_dependencies w }
        wentry with
    | none =>
      rw [h2] at h
      exact absurd h (by simp)
    | some s2 =>
      simp only [h2] at h
      injection h with h
      rw [← h]
      have hnd : wentry.Nodup := W.wdNodup w wentry h0
      obtain ⟨f1, f2, f3, f4, f5, hpt⟩ := removeWorkerDeps_state w _ _ s2 h2 hnd
      have hidx2 : ∀ o, indexGet s2 o =
          if o ∈ wentry then dropWorker w (indexGet s o)
          else indexGet s o := by
        intro o
        rw [hpt o]
        have hcongr : indexGet { s with worker_dependencies := alErase s.worker_dependencies w } o =
            indexGet s o := indexGet_congr _ _ o rfl
        rw [hcongr]
      have hcf := cancelAll_frame s2 wentry
      have hidxf : ∀ o, indexGet (cancelAll s2 wentry).1 o =
          indexGet s2 o := fun o => indexGet_congr _ _ o hcf.2.2.2.1
      have hmemf : ∀ o, o ∈ (cancelAll s2 wentry).1.required_objects ↔
          o ∈ s.required_objects ∧
            (o ∉ wentry ∨ objectIsRequired s2 o = true) := by
        intro o
        rw [mem_cancelAll, f5]
      refine ⟨?_, ?_, ?_, ?_, ?_, ?_, ?_, ?_, ?_⟩
      · intro c inner o d hc hi
        rw [hcf.2.2.2.1] at hc
        exact removeWorkerDeps_creator w _ _ s2 h2 W.creatorOK c inner o d hc hi
      · intro o d hio t ht
        rw [hidxf o, hidx2 o] at hio
        rw [hcf.2.1, f2]
        by_cases hmem : o ∈ wentry
        · rw [if_pos hmem] at hio
          obtain ⟨d0, hd0, _, hdt, _⟩ := dropWorker_some w _ d hio
          rw [hdt] at ht
          exact W.depTasksOK o d0 hd0 t ht
        · rw [if_neg hmem] at hio
          exact W.depTasksOK o d hio t ht
      · intro o d hio w' hw'
        rw [hidxf o, hidx2 o] at hio
        rw [hcf.2.2.1, f3]
        by_cases hmem : o ∈ wentry
        · rw [if_pos hmem] at hio
          obtain ⟨d0, hd0, hdw, _, _⟩ := dropWorker_some w _ d hio
          rw [hdw] at hw'
          rw [List.mem_filter] at hw'
          obtain ⟨hw0, hne⟩ := hw'
          simp only [decide_eq_true_eq] at hne
          obtain ⟨wd, hwd, hmo⟩ := W.depWorkersOK o d0 hd0 w' hw0
          refine ⟨wd, ?_, hmo⟩
          rw [alGet_erase_ne _ _ _ hne]
          exact hwd
        · rw [if_neg hmem] at hio
          obtain ⟨wd, hwd, hmo⟩ := W.depWorkersOK o d hio w' hw'
          have hne : w' ≠ w := by
            intro he
            rw [he, h0] at hwd
            injection hwd with hwd
            rw [hwd] at hmem
            exact hmem hmo
          refine ⟨wd, ?_, hmo⟩
          rw [alGet_erase_ne _ _ _ hne]
          exact hwd
      · intro o d hio
        rw [hidxf o, hidx2 o] at hio
        by_cases hmem : o ∈ wentry
        · rw [if_pos hmem] at hio
          obtain ⟨d0, hd0, _, hdt, _⟩ := dropWorker_some w _ d hio
          rw [hdt]
          exact W.depTasksNodup o d0 hd0
        · rw [if_neg hmem] at hio
          exact W.depTasksNodup o d hio
      · intro o d hio
        rw [hidxf o, hidx2 o] at hio
        by_cases hmem : o ∈ wentry
        · rw [if_pos hmem] at hio
          obtain ⟨d0, hd0, hdw, _, _⟩ := dropWorker_some w _ d hio
          rw [hdw]
          exact (W.depWorkersNodup o d0 hd0).filter _
        · rw [if_neg hmem] at hio
          exact W.depWorkersNodup o d hio
      · intro t te hte
        rw [hcf.2.1, f2] at hte
        exact W.getDepsNodup t te hte
      · intro w' wd hw'
        rw [hcf.2.2.1, f3] at hw'
        rw [alGet_erase] at hw'
        by_cases he : w' = w
        · rw [if_pos he] at hw'
          exact absurd hw' (by simp)
        · rw [if_neg he] at hw'
          exact W.wdNodup w' wd hw'
      · intro o hm
        rw [hmemf o] at hm
        rw [hcf.1, f1]
        exact W.disjointLocal o hm.1
      · intro o d hio hl hp
        rw [hidxf o] at hio
        rw [hcf.1, f1] at hl
        rw [hcf.2.2.2.2, f4] at hp
        rw [hmemf o]
        rw [hidx2 o] at hio
        by_cases hmem : o ∈ wentry
        · rw [if_pos hmem] at hio
          obtain ⟨d0, hd0, _, _, _⟩ := dropWorker_some w _ d hio
          refine ⟨W.reqComplete o d0 hd0 hl hp, Or.inr ?_⟩
          rw [objectIsRequired_iff]
          refine ⟨?_, ?_, ?_⟩
          · rw [hidx2 o, if_pos hmem, hio]
            rfl
          · rw [f1]
            exact hl
          · rw [f4]
            exact hp
        · rw [if_neg hmem] at hio
          exact ⟨W.reqComplete o d hio hl hp, Or.inl hmem⟩

theorem decrementTasks_cons (s : TDM) (ready : List TaskID) (t0 : TaskID)
    (rest : List TaskID) :
    decrementTasks s ready (t0 :: rest) =
      decrementTasks
        { s with
          task_dependencies :=
            alSet s.task_dependencies t0
              ⟨((alGet s.task_dependencies t0).getD ⟨[], 0⟩).get_dependencies,
                ((alGet s.task_dependencies t0).getD ⟨[], 0⟩).num_missing_get_dependencies - 1⟩ }
        (if ((alGet s.task_dependencies t0).getD ⟨[], 0⟩).num_missing_get_dependencies - 1 = 0
         then ready ++ [t0] else ready) rest := rfl

theorem decrementTasks_spec (l : List TaskID) (s : TDM) (ready : List TaskID)
    (hnd : l.Nodup) :
    (decrementTasks s ready l).2.local_objects = s.local_objects ∧
    (decrementTasks s ready l).2.worker_dependencies = s.worker_dependencies ∧
    (decrementTasks s ready l).2.required_tasks = s.required_tasks ∧
    (decrementTasks s ready l).2.pending_tasks = s.pending_tasks ∧
    (decrementTasks s ready l).2.required_objects = s.required_objects ∧
    (∀ t', alGet (decrementTasks s ready l).2.task_dependencies t' =
      if t' ∈ l then
        some ⟨((alGet s.task_dependencies t').getD ⟨[], 0⟩).get_dependencies,
              ((alGet s.task_dependencies t').getD ⟨[], 0⟩).num_missing_get_dependencies - 1⟩
      else alGet s.task_dependencies t') ∧
    (decrementTasks s ready l).1 = ready ++ l.filter (fun t' =>
      ((alGet s.task_dependencies t').getD ⟨[], 0⟩).num_missing_get_dependencies = 1) := by
  induction l generalizing s ready with
  | nil =>
    refine ⟨rfl, rfl, rfl, rfl, rfl, fun t' => by simp [decrementTasks],
      by simp [decrementTasks]⟩
  | cons t0 rest ih =>
    have hnd' := List.nodup_cons.mp hnd
    rw [decrementTasks_cons]
    obtain ⟨g1, g2, g3, g4, g5, hget, hready⟩ :=
      ih { s with
            task_dependencies :=
              alSet s.task_dependencies t0
                ⟨((alGet s.task_dependencies t0).getD ⟨[], 0⟩).get_dependencies,
                  ((alGet s.task_dependencies t0).getD ⟨[], 0⟩).num_missing_get_dependencies - 1⟩ }
        (if ((alGet s.task_dependencies t0).getD ⟨[], 0⟩).num_missing_get_dependencies - 1 = 0
         then ready ++ [t0] else ready) hnd'.2
    refine ⟨g1, g2, g3, g4, g5, ?_, ?_⟩
    · intro t'
      rw [hget t']
      by_cases hmem : t' ∈ rest
      · have hne : t' ≠ t0 := fun he => hnd'.1 (he ▸ hmem)
        rw [if_pos hmem, if_pos (List.mem_cons_of_mem _ hmem)]
        rw [alGet_set_ne _ _ _ _ hne]
      · rw [if_neg hmem]
        by_cases he : t' = t0
        · rw [if_pos (by rw [he]; exact List.mem_cons_self _ _)]
          rw [he, alGet_set_self]
        · rw [if_neg (by simp [he, hmem])]
          rw [alGet_set_ne _ _ _ _ he]
    · rw [hready]
      have hrest : rest.filter (fun t' =>
          ((alGet (alSet s.task_dependencies t0
            ⟨((alGet s.task_dependencies t0).getD ⟨[], 0⟩).get_dependencies,
              ((alGet s.task_dependencies t0).getD ⟨[], 0⟩).num_missing_get_dependencies - 1⟩)
            t').getD ⟨[], 0⟩).num_missing_get_dependencies = 1) =
          rest.filter (fun t' =>
            ((alGet s.task_dependencies t').getD ⟨[], 0⟩).num_missing_get_dependencies = 1) := by
        apply List.filter_congr
        intro t' hmem
        have hne : t' ≠ t0 := fun he => hnd'.1 (he ▸ hmem)
        rw [alGet_set_ne _ _ _ _ hne]
      rw [hrest]
      by_cases hz : ((alGet s.task_dependencies t0).getD
          (⟨[], 0⟩ : TaskDependencies)).num_missing_get_dependencies - 1 = 0
      · have hz1 : ((alGet s.task_dependencies t0).getD
            (⟨[], 0⟩ : TaskDependencies)).num_missing_get_dependencies = 1 := by omega
        rw [if_pos hz, List.filter_cons_of_pos (by simpa using hz1)]
        simp
      · have hz1 : ¬ ((alGet s.task_dependencies t0).getD
            (⟨[], 0⟩ : TaskDependencies)).num_missing_get_dependencies = 1 := by omega
        rw [if_neg hz, List.filter_cons_of_neg (by simpa using hz1)]

theorem incrementTasks_cons (s : TDM) (waiting : List TaskID) (t0 : TaskID)
    (rest : List TaskID) :
    incrementTasks s waiting (t0 :: rest) =
      incrementTasks
        { s with
          task_dependencies :=
            alSet s.task_dependencies t0
              ⟨((alGet s.task_dependencies t0).getD ⟨[], 0⟩).get_dependencies,
                ((alGet s.task_dependencies t0).getD ⟨[], 0⟩).num_missing_get_dependencies + 1⟩ }
        (if ((alGet s.task_dependencies t0).getD ⟨[], 0⟩).num_missing_get_dependencies = 0
         then waiting ++ [t0] else waiting) rest := rfl

theorem incrementTasks_spec (l : List TaskID) (s : TDM) (waiting : List TaskID)
    (hnd : l.Nodup) :
    (incrementTasks s waiting l).2.local_objects = s.local_objects ∧
    (incrementTasks s waiting l).2.worker_dependencies = s.worker_dependencies ∧
    (incrementTasks s waiting l).2.required_tasks = s.required_tasks ∧
    (incrementTasks s waiting l).2.pending_tasks = s.pending_tasks ∧
    (incrementTasks s waiting l).2.required_objects = s.required_objects ∧
    (∀ t', alGet (incrementTasks s waiting l).2.task_dependencies t' =
      if t' ∈ l then
        some ⟨((alGet s.task_dependencies t').getD ⟨[], 0⟩).get_dependencies,
              ((alGet s.task_dependencies t').getD ⟨[], 0⟩).num_missing_get_dependencies + 1⟩
      else alGet s.task_dependencies t') ∧
    (incrementTasks s waiting l).1 = waiting ++ l.filter (fun t' =>
      ((alGet s.task_dependencies t').getD ⟨[], 0⟩).num_missing_get_dependencies = 0) := by
  induction l generalizing s waiting with
  | nil =>
    refine ⟨rfl, rfl, rfl, rfl, rfl, fun t' => by simp [incrementTasks],
      by simp [incrementTasks]⟩
  | cons t0 rest ih =>
    have hnd' := List.nodup_cons.mp hnd
    rw [incrementTasks_cons]
    obtain ⟨g1, g2, g3, g4, g5, hget, hready⟩ :=
      ih { s with
            task_dependencies :=
              alSet s.task_dependencies t0
                ⟨((alGet s.task_dependencies t0).getD ⟨[], 0⟩).get_dependencies,
                  ((alGet s.task_dependencies t0).getD ⟨[], 0⟩).num_missing_get_dependencies + 1⟩ }
        (if ((alGet s.task_dependencies t0).getD ⟨[], 0⟩).num_missing_get_dependencies = 0
         then waiting ++ [t0] else waiting) hnd'.2
    refine ⟨g1, g2, g3, g4, g5, ?_, ?_⟩
    · intro t'
      rw [hget t']
      by_cases hmem : t' ∈ rest
      · have hne : t' ≠ t0 := fun he => hnd'.1 (he ▸ hmem)
        rw [if_pos hmem, if_pos (List.mem_cons_of_mem _ hmem)]
        rw [alGet_set_ne _ _ _ _ hne]
      · rw [if_neg hmem]
        by_cases he : t' = t0
        · rw [if_pos (by rw [he]; exact List.mem_cons_self _ _)]
          rw [he, alGet_set_self]
        · rw [if_neg (by simp [he, hmem])]
          rw [alGet_set_ne _ _ _ _ he]
    · rw [hready]
      have hrest : rest.filter (fun t' =>
          ((alGet (alSet s.task_dependencies t0
            ⟨((alGet s.task_dependencies t0).getD ⟨[], 0⟩).get_dependencies,
              ((alGet s.task_dependencies t0).getD ⟨[], 0⟩).num_missing_get_dependencies + 1⟩)
            t').getD ⟨[], 0⟩).num_missing_get_dependencies = 0) =
          rest.filter (fun t' =>
            ((alGet s.task_dependencies t').getD ⟨[], 0⟩).num_missing_get_dependencies = 0) := by
        apply List.filter_congr
        intro t' hmem
        have hne : t' ≠ t0 := fun he => hnd'.1 (he ▸ hmem)
        rw [alGet_set_ne _ _ _ _ hne]
      rw [hrest]
      by_cases hz : ((alGet s.task_dependencies t0).getD
          (⟨[], 0⟩ : TaskDependencies)).num_missing_get_dependencies = 0
      · rw [if_pos hz, List.filter_cons_of_pos (by simpa using hz)]
        simp
      · rw [if_neg hz, List.filter_cons_of_neg (by simpa using hz)]

theorem eraseWorkerWaits_state (o : ObjectID) (ws : List WorkerID) (s s' : TDM)
    (h : eraseWorkerWaits o s ws = some s') (hnd : ws.Nodup) :
    s'.local_objects = s.local_objects ∧
    s'.task_dependencies = s.task_dependencies ∧
    s'.required_tasks = s.required_tasks ∧
    s'.pending_tasks = s.pending_tasks ∧
    s'.required_objects = s.required_objects ∧
    (∀ w', alGet s'.worker_dependencies w' =
      if w' ∈ ws then
        some (((alGet s.worker_dependencies w').getD []).filter (· ≠ o))
      else alGet s.worker_dependencies w') := by
  induction ws generalizing s with
  | nil =>
    unfold eraseWorkerWaits at h
    injection h with h
    rw [← h]
    exact ⟨rfl, rfl, rfl, rfl, rfl, fun w' => by simp⟩
  | cons w0 rest ih =>
    have hnd' := List.nodup_cons.mp hnd
    unfold eraseWorkerWaits at h
    by_cases hm : o ∈ ((alGet s.worker_dependencies w0).getD [])
    · rw [if_pos hm] at h
      obtain ⟨g1, g2, g3, g4, g5, hget⟩ := ih _ h hnd'.2
      refine ⟨g1, g2, g3, g4, g5, ?_⟩
      intro w'
      rw [hget w']
      by_cases hmem : w' ∈ rest
      · have hne : w' ≠ w0 := fun he => hnd'.1 (he ▸ hmem)
        rw [if_pos hmem, if_pos (List.mem_cons_of_mem _ hmem)]
        rw [alGet_set_ne _ _ _ _ hne]
      · rw [if_neg hmem]
        by_cases he : w' = w0
        · rw [if_pos (by rw [he]; exact List.mem_cons_self _ _)]
          rw [he, alGet_set_self]
        · rw [if_neg (by simp [he, hmem])]
          rw [alGet_set_ne _ _ _ _ he]
    · rw [if_neg hm] at h
      exact absurd h (by simp)

theorem eraseWorkerWaits_isSome (o : ObjectID) (ws : List WorkerID) (s : TDM)
    (hnd : ws.Nodup)
    (h : ∀ w' ∈ ws, o ∈ ((alGet s.worker_dependencies w').getD [])) :
    (eraseWorkerWaits o s ws).isSome = true := by
  induction ws generalizing s with
  | nil => rfl
  | cons w0 rest ih =>
    have hnd' := List.nodup_cons.mp hnd
    unfold eraseWorkerWaits
    rw [if_pos (h w0 (List.mem_cons_self _ _))]
    apply ih _ hnd'.2
    intro w' hw'
    have hne : w' ≠ w0 := fun he => hnd'.1 (he ▸ hw')
    rw [alGet_set_ne _ _ _ _ hne]
    exact h w' (List.mem_cons_of_mem _ hw')

theorem handleObjectLocal_none (s : TDM) (o : ObjectID)
    (hnl : o ∉ s.local_objects) (hno : indexGet s o = none) :
    HandleObjectLocal s o =
      some ([],
        (HandleRemoteDependencyCanceled { s with local_objects := o :: s.local_objects } o).2,
        (HandleRemoteDependencyCanceled { s with local_objects := o :: s.local_objects } o).1) := by
  unfold HandleObjectLocal
  rw [if_neg hnl]
  unfold indexGet at hno
  cases h1 : alGet s.required_tasks o.taskId with
  | none => simp only [h1]
  | some inner =>
    rw [h1] at hno
    simp only [Option.some_bind] at hno
    simp only [h1, hno]

theorem handleObjectLocal_some (s : TDM) (o : ObjectID) (d : ObjectDependencies)
    (hnl : o ∉ s.local_objects) (hd : indexGet s o = some d) :
    HandleObjectLocal s o =
      (match eraseWorkerWaits o
          (decrementTasks { s with local_objects := o :: s.local_objects } []
            d.dependent_tasks).2 d.dependent_workers with
       | none => none
       | some s2 =>
         some ((decrementTasks { s with local_objects := o :: s.local_objects } []
             d.dependent_tasks).1,
           (HandleRemoteDependencyCanceled
             { s2 with
               required_tasks :=
                 rtUpdate s2.required_tasks o
                   (if ({ d with
                       dependent_workers := ([] : List WorkerID) }
                      : ObjectDependencies).Empty
                    then none
                    else some { d with
                       dependent_workers := ([] : List WorkerID) }) } o).2,
           (HandleRemoteDependencyCanceled
             { s2 with
               required_tasks :=
                 rtUpdate s2.required_tasks o
                   (if ({ d with
                       dependent_workers := ([] : List WorkerID) }
                      : ObjectDependencies).Empty
                    then none
                    else some { d with
                       dependent_workers := ([] : List WorkerID) }) } o).1)) := by
  unfold HandleObjectLocal
  rw [if_neg hnl]
  unfold indexGet at hd
  cases h1 : alGet s.required_tasks o.taskId with
  | none =>
    rw [h1] at hd
    exact absurd hd (by simp)
  | some inner =>
    rw [h1] at hd
    simp only [Option.some_bind] at hd
    simp only [h1, hd]

theorem handleObjectLocal_spec_none (s : TDM) (o : ObjectID)
    (hnl : o ∉ s.local_objects) (hno : indexGet s o = none) :
    ∃ r, HandleObjectLocal s o = some r ∧
      r.1 = [] ∧
      r.2.2.local_objects = o :: s.local_objects ∧
      r.2.2.pending_tasks = s.pending_tasks ∧
      r.2.2.task_dependencies = s.task_dependencies ∧
      r.2.2.worker_dependencies = s.worker_dependencies ∧
      r.2.2.required_tasks = s.required_tasks ∧
      (∀ o', o' ∈ r.2.2.required_objects ↔ o' ∈ s.required_objects ∧ o' ≠ o) := by
  have hcf := canceled_frame { s with local_objects := o :: s.local_objects } o
  refine ⟨_, handleObjectLocal_none s o hnl hno, rfl,
    hcf.1, hcf.2.2.2.2, hcf.2.1, hcf.2.2.1, hcf.2.2.2.1, ?_⟩
  have hreq : ¬ objectIsRequired { s with local_objects := o :: s.local_objects } o = true :=
    fun hc => ((objectIsRequired_iff _ _).mp hc).2.1 (List.mem_cons_self _ _)
  intro o'
  rw [mem_canceled]
  constructor
  · rintro ⟨hm, hne | hr⟩
    · exact ⟨hm, hne⟩
    · exact absurd hr hreq
  · rintro ⟨hm, hne⟩
    exact ⟨hm, Or.inl hne⟩

theorem handleObjectLocal_spec_some (s : TDM) (o : ObjectID)
    (d : ObjectDependencies) (W : WFlite s)
    (hnl : o ∉ s.local_objects) (hd : indexGet s o = some d) :
    ∃ r, HandleObjectLocal s o = some r ∧
      r.1 = d.dependent_tasks.filter (fun t' =>
        ((alGet s.task_dependencies t').getD ⟨[], 0⟩).num_missing_get_dependencies = 1) ∧
      r.2.2.local_objects = o :: s.local_objects ∧
      r.2.2.pending_tasks = s.pending_tasks ∧
      (∀ t', alGet r.2.2.task_dependencies t' =
        if t' ∈ d.dependent_tasks then
          some ⟨((alGet s.task_dependencies t').getD ⟨[], 0⟩).get_dependencies,
                ((alGet s.task_dependencies t').getD ⟨[], 0⟩).num_missing_get_dependencies - 1⟩
        else alGet s.task_dependencies t') ∧
      (∀ w', alGet r.2.2.worker_dependencies w' =
        if w' ∈ d.dependent_workers then
          some (((alGet s.worker_dependencies w').getD []).filter (· ≠ o))
        else alGet s.worker_dependencies w') ∧
      (∀ o', indexGet r.2.2 o' =
        if o' = o then
          (if d.dependent_tasks.isEmpty then none
           else some { d with dependent_workers := ([] : List WorkerID) })
        else indexGet s o') ∧
      (r.2.2.required_tasks = s.required_tasks ∨
        ∃ od, r.2.2.required_tasks = rtUpdate s.required_tasks o od) ∧
      (∀ o', o' ∈ r.2.2.required_objects ↔ o' ∈ s.required_objects ∧ o' ≠ o) := by
  have htnd := W.depTasksNodup o d hd
  have hwnd := W.depWorkersNodup o d hd
  have hdec := decrementTasks_spec d.dependent_tasks
    { s with local_objects := o :: s.local_objects } [] htnd
  have hs0td : ({ s with local_objects := o :: s.local_objects } : TDM).task_dependencies =
      s.task_dependencies := rfl
  have hs0wd : ({ s with local_objects := o :: s.local_objects } : TDM).worker_dependencies =
      s.worker_dependencies := rfl
  rw [hs0td] at hdec
  have hes : (eraseWorkerWaits o
      (decrementTasks { s with local_objects := o :: s.local_objects } []
        d.dependent_tasks).2 d.dependent_workers).isSome = true := by
    apply eraseWorkerWaits_isSome _ _ _ hwnd
    intro w' hw'
    obtain ⟨wd, hwd, hmo⟩ := W.depWorkersOK o d hd w' hw'
    rw [hdec.2.1, hs0wd, hwd]
    simpa using hmo
  obtain ⟨s2, hs2⟩ := Option.isSome_iff_exists.mp hes
  have her := eraseWorkerWaits_state o d.dependent_workers _ s2 hs2 hwnd
  have hrun := handleObjectLocal_some s o d hnl hd
  rw [hs2] at hrun
  refine ⟨_, hrun, ?_, ?_, ?_, ?_, ?_, ?_, ?_, ?_⟩
  · rw [hdec.2.2.2.2.2.2]
    simp
  · rw [(canceled_frame _ _).1]
    show s2.local_objects = _
    rw [her.1, hdec.1]
  · rw [(canceled_frame _ _).2.2.2.2]
    show s2.pending_tasks = _
    rw [her.2.2.2.1, hdec.2.2.2.1]
  · intro t'
    rw [(canceled_frame _ _).2.1]
    show alGet s2.task_dependencies t' = _
    rw [her.2.1]
    exact hdec.2.2.2.2.2.1 t'
  · intro w'
    rw [(canceled_frame _ _).2.2.1]
    show alGet s2.worker_dependencies w' = _
    rw [her.2.2.2.2.2 w', hdec.2.1, hs0wd]
  · intro o'
    have h3 : indexGet (HandleRemoteDependencyCanceled
        { s2 with
          required_tasks :=
            rtUpdate s2.required_tasks o
              (if ({ d with
                  dependent_workers := ([] : List WorkerID) }
                 : ObjectDependencies).Empty
               then none
               else some { d with
                  dependent_workers := ([] : List WorkerID) }) } o).1 o' =
        if o' = o then
          (if ({ d with
              dependent_workers := ([] : List WorkerID) }
             : ObjectDependencies).Empty
           then none
           else some { d with
              dependent_workers := ([] : List WorkerID) })
        else indexGet s2 o' := by
      rw [indexGet_canceled]
      exact indexGet_rtUpdate s2 o _ o'
    rw [h3]
    have hXe : (({ d with dependent_workers := ([] : List WorkerID) }
        : ObjectDependencies).Empty) = d.dependent_tasks.isEmpty := by
      simp [ObjectDependencies.Empty]
    have hs2i : ∀ o'', indexGet s2 o'' = indexGet s o'' := by
      intro o''
      rw [indexGet_congr _ _ o'' her.2.2.1, indexGet_congr _ _ o'' hdec.2.2.1]
      exact indexGet_congr _ _ o'' rfl
    by_cases he : o' = o
    · rw [if_pos he, if_pos he, hXe]
    · rw [if_neg he, if_neg he]
      exact hs2i o'
  · refine Or.inr ⟨(if ({ d with
        dependent_workers := ([] : List WorkerID) } : ObjectDependencies).Empty
      then none
      else some { d with
        dependent_workers := ([] : List WorkerID) }), ?_⟩
    rw [(canceled_frame _ _).2.2.2.1]
    show rtUpdate s2.required_tasks o _ = _
    have hs2rt : s2.required_tasks = s.required_tasks := by
      rw [her.2.2.1, hdec.2.2.1]
    rw [hs2rt]
  · intro o'
    rw [mem_canceled]
    have hloc3 : o ∈ ({ s2 with
        required_tasks :=
          rtUpdate s2.required_tasks o
            (if ({ d with
                dependent_workers := ([] : List WorkerID) }
               : ObjectDependencies).Empty
             then none
             else some { d with
                dependent_workers := ([] : List WorkerID) }) } : TDM).local_objects := by
      show o ∈ s2.local_objects
      rw [her.1, hdec.1]
      exact List.mem_cons_self _ _
    have hreq : ¬ objectIsRequired { s2 with
        required_tasks :=
          rtUpdate s2.required_tasks o
            (if ({ d with
                dependent_workers := ([] : List WorkerID) }
               : ObjectDependencies).Empty
             then none
             else some { d with
                dependent_workers := ([] : List WorkerID) }) } o = true :=
      fun hc => ((objectIsRequired_iff _ _).mp hc).2.1 hloc3
    have hmem3 : ∀ o'', o'' ∈ ({ s2 with
        required_tasks :=
          rtUpdate s2.required_tasks o
            (if ({ d with
                dependent_workers := ([] : List WorkerID) }
               : ObjectDependencies).Empty
             then none
             else some { d with
                dependent_workers := ([] : List WorkerID) }) } : TDM).required_objects ↔
        o'' ∈ s.required_objects := by
      intro o''
      show o'' ∈ s2.required_objects ↔ _
      rw [her.2.2.2.2.1, hdec.2.2.2.2.1]
    constructor
    · rintro ⟨hm, hne | hr⟩
      · exact ⟨(hmem3 o').mp hm, hne⟩
      · exact absurd hr hreq
    · rintro ⟨hm, hne⟩
      exact ⟨(hmem3 o').mpr hm, Or.inl hne⟩

theorem handleObjectMissing_none (s : TDM) (o : ObjectID)
    (hl : o ∈ s.local_objects) (hno : indexGet s o = none) :
    HandleObjectMissing s o =
      some ([],
        (HandleRemoteDependencyRequired
          { s with local_objects := s.local_objects.filter (· ≠ o) } o).2,
        (HandleRemoteDependencyRequired
          { s with local_objects := s.local_objects.filter (· ≠ o) } o).1) := by
  unfold HandleObjectMissing
  rw [if_pos hl]
  unfold indexGet at hno
  cases h1 : alGet s.required_tasks o.taskId with
  | none => simp only [h1]
  | some inner =>
    rw [h1] at hno
    simp only [Option.some_bind] at hno
    simp only [h1, hno]

theorem handleObjectMissing_some (s : TDM) (o : ObjectID) (d : ObjectDependencies)
    (hl : o ∈ s.local_objects) (hd : indexGet s o = some d) :
    HandleObjectMissing s o =
      some ((incrementTasks
          { s with local_objects := s.local_objects.filter (· ≠ o) } []
          d.dependent_tasks).1,
        (HandleRemoteDependencyRequired
          (incrementTasks
            { s with local_objects := s.local_objects.filter (· ≠ o) } []
            d.dependent_tasks).2 o).2,
        (HandleRemoteDependencyRequired
          (incrementTasks
            { s with local_objects := s.local_objects.filter (· ≠ o) } []
            d.dependent_tasks).2 o).1) := by
  unfold HandleObjectMissing
  rw [if_pos hl]
  unfold indexGet at hd
  cases h1 : alGet s.required_tasks o.taskId with
  | none =>
    rw [h1] at hd
    exact absurd hd (by simp)
  | some inner =>
    rw [h1] at hd
    simp only [Option.some_bind] at hd
    simp only [h1, hd]

theorem handleObjectMissing_spec_none (s : TDM) (o : ObjectID)
    (hl : o ∈ s.local_objects) (hno : indexGet s o = none) :
    ∃ r, HandleObjectMissing s o = some r ∧
      r.1 = [] ∧
      r.2.2.local_objects = s.local_objects.filter (· ≠ o) ∧
      r.2.2.pending_tasks = s.pending_tasks ∧
      r.2.2.task_dependencies = s.task_dependencies ∧
      r.2.2.worker_dependencies = s.worker_dependencies ∧
      r.2.2.required_tasks = s.required_tasks ∧
      (∀ o', o' ∈ r.2.2.required_objects ↔ o' ∈ s.required_objects) := by
  have hrf := required_frame { s with local_objects := s.local_objects.filter (· ≠ o) } o
  refine ⟨_, handleObjectMissing_none s o hl hno, rfl,
    hrf.1, hrf.2.2.2.2, hrf.2.1, hrf.2.2.1, hrf.2.2.2.1, ?_⟩
  have hreq : ¬ objectIsRequired
      { s with local_objects := s.local_objects.filter (· ≠ o) } o = true := by
    intro hc
    have h1 := ((objectIsRequired_iff _ _).mp hc).1
    have h2 : indexGet { s with local_objects := s.local_objects.filter (· ≠ o) } o =
        indexGet s o := indexGet_congr _ _ o rfl
    rw [h2, hno] at h1
    exact absurd h1 (by simp)
  intro o'
  rw [mem_required]
  constructor
  · rintro (hm | ⟨_, hr⟩)
    · exact hm
    · exact absurd hr hreq
  · exact fun hm => Or.inl hm

theorem handleObjectMissing_spec_some (s : TDM) (o : ObjectID)
    (d : ObjectDependencies) (W : WFlite s)
    (hl : o ∈ s.local_objects) (hd : indexGet s o = some d) :
    ∃ r, HandleObjectMissing s o = some r ∧
      r.1 = d.dependent_tasks.filter (fun t' =>
        ((alGet s.task_dependencies t').getD ⟨[], 0⟩).num_missing_get_dependencies = 0) ∧
      r.2.2.local_objects = s.local_objects.filter (· ≠ o) ∧
      r.2.2.pending_tasks = s.pending_tasks ∧
      (∀ t', alGet r.2.2.task_dependencies t' =
        if t' ∈ d.dependent_tasks then
          some ⟨((alGet s.task_dependencies t').getD ⟨[], 0⟩).get_dependencies,
                ((alGet s.task_dependencies t').getD ⟨[], 0⟩).num_missing_get_dependencies + 1⟩
        else alGet s.task_dependencies t') ∧
      r.2.2.worker_dependencies = s.worker_dependencies ∧
      r.2.2.required_tasks = s.required_tasks ∧
      (∀ o', o' ∈ r.2.2.required_objects ↔ o' ∈ s.required_objects ∨
        (o' = o ∧ o.taskId ∉ s.pending_tasks)) := by
  have htnd := W.depTasksNodup o d hd
  have hinc := incrementTasks_spec d.dependent_tasks
    { s with local_objects := s.local_objects.filter (· ≠ o) } [] htnd
  have hs0td : ({ s with local_objects := s.local_objects.filter (· ≠ o) } : TDM).task_dependencies =
      s.task_dependencies := rfl
  rw [hs0td] at hinc
  refine ⟨_, handleObjectMissing_some s o d hl hd, ?_, ?_, ?_, ?_, ?_, ?_, ?_⟩
  · rw [hinc.2.2.2.2.2.2]
    simp
  · rw [(required_frame _ _).1, hinc.1]
  · rw [(required_frame _ _).2.2.2.2, hinc.2.2.2.1]
  · intro t'
    rw [(required_frame _ _).2.1]
    exact hinc.2.2.2.2.2.1 t'
  · rw [(required_frame _ _).2.2.1, hinc.2.1]
  · rw [(required_frame _ _).2.2.2.1, hinc.2.2.1]
  · intro o'
    rw [mem_required]
    have hmem0 : ∀ o'', o'' ∈ (incrementTasks
        { s with local_objects := s.local_objects.filter (· ≠ o) } []
        d.dependent_tasks).2.required_objects ↔ o'' ∈ s.required_objects := by
      intro o''
      rw [hinc.2.2.2.2.1]
    have hreq : objectIsRequired (incrementTasks
        { s with local_objects := s.local_objects.filter (· ≠ o) } []
        d.dependent_tasks).2 o = true ↔ o.taskId ∉ s.pending_tasks := by
      rw [objectIsRequired_iff]
      have hi : indexGet (incrementTasks
          { s with local_objects := s.local_objects.filter (· ≠ o) } []
          d.dependent_tasks).2 o = indexGet s o := by
        rw [indexGet_congr _ _ o hinc.2.2.1]
        exact indexGet_congr _ _ o rfl
      rw [hi, hd]
      have hlo : o ∉ (incrementTasks
          { s with local_objects := s.local_objects.filter (· ≠ o) } []
          d.dependent_tasks).2.local_objects := by
        rw [hinc.1]
        intro hc
        rw [List.mem_filter] at hc
        simp at hc
      have hpe : (incrementTasks
          { s with local_objects := s.local_objects.filter (· ≠ o) } []
          d.dependent_tasks).2.pending_tasks = s.pending_tasks := hinc.2.2.2.1
      rw [hpe]
      simp only [Option.isSome_some, true_and]
      constructor
      · exact fun h => h.2
      · exact fun h => ⟨hlo, h⟩
    constructor
    · rintro (hm | ⟨he, hr⟩)
      · exact Or.inl ((hmem0 o').mp hm)
      · exact Or.inr ⟨he, hreq.mp hr⟩
    · rintro (hm | ⟨he, hp⟩)
      · exact Or.inl ((hmem0 o').mpr hm)
      · exact Or.inr ⟨he, hreq.mpr hp⟩

/-- `HandleObjectLocal` preserves `WFlite` whenever it returns. -/
theorem handleObjectLocal_lite (s : TDM) (o : ObjectID)
    (r : List TaskID × List Call × TDM) (W : WFlite s)
    (h : HandleObjectLocal s o = some r) : WFlite r.2.2 := by
  have hnl : o ∉ s.local_objects := by
    intro hc
    unfold HandleObjectLocal at h
    rw [if_pos hc] at h
    exact absurd h (by simp)
  cases hio : indexGet s o with
  | none =>
    obtain ⟨r1, hr1, _, e1, e2, e3, e4, e5, hmem⟩ :=
      handleObjectLocal_spec_none s o hnl hio
    rw [h] at hr1
    injection hr1 with he
    rw [← he] at e1 e2 e3 e4 e5 hmem
    have hidx : ∀ o', indexGet r.2.2 o' = indexGet s o' :=
      fun o' => indexGet_congr _ _ o' e5
    refine ⟨?_, ?_, ?_, ?_, ?_, ?_, ?_, ?_, ?_⟩
    · intro c inner o' d hc hi
      rw [e5] at hc
      exact W.creatorOK c inner o' d hc hi
    · intro o' d hio' t' ht'
      rw [hidx o'] at hio'
      rw [e3]
      exact W.depTasksOK o' d hio' t' ht'
    · intro o' d hio' w' hw'
      rw [hidx o'] at hio'
      rw [e4]
      exact W.depWorkersOK o' d hio' w' hw'
    · intro o' d hio'
      rw [hidx o'] at hio'
      exact W.depTasksNodup o' d hio'
    · intro o' d hio'
      rw [hidx o'] at hio'
      exact W.depWorkersNodup o' d hio'
    · intro t' te hte
      rw [e3] at hte
      exact W.getDepsNodup t' te hte
    · intro w' wd hw'
      rw [e4] at hw'
      exact W.wdNodup w' wd hw'
    · intro o' hm
      rw [hmem o'] at hm
      rw [e1]
      intro hc
      rcases List.mem_cons.mp hc with he2 | hc2
      · exact hm.2 he2
      · exact W.disjointLocal o' hm.1 hc2
    · intro o' d hio' hl hp
      rw [e1] at hl
      have hne : o' ≠ o := fun he2 => hl (he2 ▸ List.mem_cons_self _ _)
      have hl0 : o' ∉ s.local_objects := fun hc => hl (List.mem_cons_of_mem _ hc)
      rw [hidx o'] at hio'
      rw [e2] at hp
      rw [hmem o']
      exact ⟨W.reqComplete o' d hio' hl0 hp, hne⟩
  | some d =>
    obtain ⟨r1, hr1, _, e1, e2, htd, hwd, hidx, hrt, hmem⟩ :=
      handleObjectLocal_spec_some s o d W hnl hio
    rw [h] at hr1
    injection hr1 with he
    rw [← he] at e1 e2 htd hwd hidx hrt hmem
    refine ⟨?_, ?_, ?_, ?_, ?_, ?_, ?_, ?_, ?_⟩
    · intro c inner o' d' hc hi
      rcases hrt with hrt | ⟨od, hrt⟩
      · rw [hrt] at hc
        exact W.creatorOK c inner o' d' hc hi
      · rw [hrt] at hc
        exact rtUpdate_creator s.required_tasks o od W.creatorOK c inner o' d' hc hi
    · intro o' d' hio' t' ht'
      rw [hidx o'] at hio'
      by_cases he2 : o' = o
      · rw [if_pos he2] at hio'
        by_cases hemp : d.dependent_tasks.isEmpty
        · rw [if_pos hemp] at hio'
          exact absurd hio' (by simp)
        · rw [if_neg hemp] at hio'
          injection hio' with hio'
          rw [← hio'] at ht'
          obtain ⟨te, hte, hmo⟩ := W.depTasksOK o d hio t' ht'
          refine ⟨⟨te.get_dependencies, te.num_missing_get_dependencies - 1⟩, ?_, ?_⟩
          · rw [htd t', if_pos ht', hte]
            rfl
          · rw [he2]
            exact hmo
      · rw [if_neg he2] at hio'
        obtain ⟨te, hte, hmo⟩ := W.depTasksOK o' d' hio' t' ht'
        by_cases hm : t' ∈ d.dependent_tasks
        · refine ⟨⟨te.get_dependencies, te.num_missing_get_dependencies - 1⟩, ?_, hmo⟩
          rw [htd t', if_pos hm, hte]
          rfl
        · refine ⟨te, ?_, hmo⟩
          rw [htd t', if_neg hm]
          exact hte
    · intro o' d' hio' w' hw'
      rw [hidx o'] at hio'
      by_cases he2 : o' = o
      · rw [if_pos he2] at hio'
        by_cases hemp : d.dependent_tasks.isEmpty
        · rw [if_pos hemp] at hio'
          exact absurd hio' (by simp)
        · rw [if_neg hemp] at hio'
          injection hio' with hio'
          rw [← hio'] at hw'
          exact absurd hw' (by simp)
      · rw [if_neg he2] at hio'
        obtain ⟨wd, hwdv, hmo⟩ := W.depWorkersOK o' d' hio' w' hw'
        by_cases hm : w' ∈ d.dependent_workers
        · refine ⟨wd.filter (· ≠ o), ?_, ?_⟩
          · rw [hwd w', if_pos hm, hwdv]
            rfl
          · rw [List.mem_filter]
            exact ⟨hmo, by simpa using he2⟩
        · refine ⟨wd, ?_, hmo⟩
          rw [hwd w', if_neg hm]
          exact hwdv
    · intro o' d' hio'
      rw [hidx o'] at hio'
      by_cases he2 : o' = o
      · rw [if_pos he2] at hio'
        by_cases hemp : d.dependent_tasks.isEmpty
        · rw [if_pos hemp] at hio'
          exact absurd hio' (by simp)
        · rw [if_neg hemp] at hio'
          injection hio' with hio'
          rw [← hio']
          exact W.depTasksNodup o d hio
      · rw [if_neg he2] at hio'
        exact W.depTasksNodup o' d' hio'
    · intro o' d' hio'
      rw [hidx o'] at hio'
      by_cases he2 : o' = o
      · rw [if_pos he2] at hio'
        by_cases hemp : d.dependent_tasks.isEmpty
        · rw [if_pos hemp] at hio'
          exact absurd hio' (by simp)
        · rw [if_neg hemp] at hio'
          injection hio' with hio'
          rw [← hio']
          exact List.nodup_nil
      · rw [if_neg he2] at hio'
        exact W.depWorkersNodup o' d' hio'
    · intro t' te hte
      rw [htd t'] at hte
      by_cases hm : t' ∈ d.dependent_tasks
      · rw [if_pos hm] at hte
        injection hte with hte
        rw [← hte]
        cases h0 : alGet s.task_dependencies t' with
        | none => simp [h0]
        | some te0 =>
          simp only [h0, Option.getD_some]
          exact W.getDepsNodup t' te0 h0
      · rw [if_neg hm] at hte
        exact W.getDepsNodup t' te hte
    · intro w' wd hw'
      rw [hwd w'] at hw'
      by_cases hm : w' ∈ d.dependent_workers
      · rw [if_pos hm] at hw'
        injection hw' with hw'
        rw [← hw']
        cases h0 : alGet s.worker_dependencies w' with
        | none => simp [h0]
        | some wd0 =>
          simp only [h0, Option.getD_some]
          exact (W.wdNodup w' wd0 h0).filter _
      · rw [if_neg hm] at hw'
        exact W.wdNodup w' wd hw'
    · intro o' hm
      rw [hmem o'] at hm
      rw [e1]
      intro hc
      rcases List.mem_cons.mp hc with he2 | hc2
      · exact hm.2 he2
      · exact W.disjointLocal o' hm.1 hc2
    · intro o' d' hio' hl hp
      rw [e1] at hl
      have hne : o' ≠ o := fun he2 => hl (he2 ▸ List.mem_cons_self _ _)
      have hl0 : o' ∉ s.local_objects := fun hc => hl (List.mem_cons_of_mem _ hc)
      rw [hidx o', if_neg hne] at hio'
      rw [e2] at hp
      rw [hmem o']
      exact ⟨W.reqComplete o' d' hio' hl0 hp, hne⟩

/-- `HandleObjectMissing` preserves `WFlite` whenever it returns. -/
theorem handleObjectMissing_lite (s : TDM) (o : ObjectID)
    (r : List TaskID × List Call × TDM) (W : WFlite s)
    (h : HandleObjectMissing s o = some r) : WFlite r.2.2 := by
  have hl : o ∈ s.local_objects := by
    by_contra hc
    unfold HandleObjectMissing at h
    rw [if_neg hc] at h
    exact absurd h (by simp)
  cases hio : indexGet s o with
  | none =>
    obtain ⟨r1, hr1, _, e1, e2, e3, e4, e5, hmem⟩ :=
      handleObjectMissing_spec_none s o hl hio
    rw [h] at hr1
    injection hr1 with he
    rw [← he] at e1 e2 e3 e4 e5 hmem
    have hidx : ∀ o', indexGet r.2.2 o' = indexGet s o' :=
      fun o' => indexGet_congr _ _ o' e5
    refine ⟨?_, ?_, ?_, ?_, ?_, ?_, ?_, ?_, ?_⟩
    · intro c inner o' d hc hi
      rw [e5] at hc
      exact W.creatorOK c inner o' d hc hi
    · intro o' d hio' t' ht'
      rw [hidx o'] at hio'
      rw [e3]
      exact W.depTasksOK o' d hio' t' ht'
    · intro o' d hio' w' hw'
      rw [hidx o'] at hio'
      rw [e4]
      exact W.depWorkersOK o' d hio' w' hw'
    · intro o' d hio'
      rw [hidx o'] at hio'
      exact W.depTasksNodup o' d hio'
    · intro o' d hio'
      rw [hidx o'] at hio'
      exact W.depWorkersNodup o' d hio'
    · intro t' te hte
      rw [e3] at hte
      exact W.getDepsNodup t' te hte
    · intro w' wd hw'
      rw [e4] at hw'
      exact W.wdNodup w' wd hw'
    · intro o' hm
      rw [hmem o'] at hm
      rw [e1]
      intro hc
      exact W.disjointLocal o' hm (List.mem_filter.mp hc).1
    · intro o' d hio' hl2 hp
      rw [hidx o'] at hio'
      have hne : o' ≠ o := by
        intro he2
        rw [he2, hio] at hio'
        exact absurd hio' (by simp)
      rw [e1] at hl2
      have hl0 : o' ∉ s.local_objects := by
        intro hc
        exact hl2 (List.mem_filter.mpr ⟨hc, by simpa using hne⟩)
      rw [e2] at hp
      rw [hmem o']
      exact W.reqComplete o' d hio' hl0 hp
  | some d =>
    obtain ⟨r1, hr1, _, e1, e2, htd, e4, e5, hmem⟩ :=
      handleObjectMissing_spec_some s o d W hl hio
    rw [h] at hr1
    injection hr1 with he
    rw [← he] at e1 e2 htd e4 e5 hmem
    have hidx : ∀ o', indexGet r.2.2 o' = indexGet s o' :=
      fun o' => indexGet_congr _ _ o' e5
    refine ⟨?_, ?_, ?_, ?_, ?_, ?_, ?_, ?_, ?_⟩
    · intro c inner o' d' hc hi
      rw [e5] at hc
      exact W.creatorOK c inner o' d' hc hi
    · intro o' d' hio' t' ht'
      rw [hidx o'] at hio'
      obtain ⟨te, hte, hmo⟩ := W.depTasksOK o' d' hio' t' ht'
      by_cases hm : t' ∈ d.dependent_tasks
      · refine ⟨⟨te.get_dependencies, te.num_missing_get_dependencies + 1⟩, ?_, hmo⟩
        rw [htd t', if_pos hm, hte]
        rfl
      · refine ⟨te, ?_, hmo⟩
        rw [htd t', if_neg hm]
        exact hte
    · intro o' d' hio' w' hw'
      rw [hidx o'] at hio'
      rw [e4]
      exact W.depWorkersOK o' d' hio' w' hw'
    · intro o' d' hio'
      rw [hidx o'] at hio'
      exact W.depTasksNodup o' d' hio'
    · intro o' d' hio'
      rw [hidx o'] at hio'
      exact W.depWorkersNodup o' d' hio'
    · intro t' te hte
      rw [htd t'] at hte
      by_cases hm : t' ∈ d.dependent_tasks
      · rw [if_pos hm] at hte
        injection hte with hte
        rw [← hte]
        cases h0 : alGet s.task_dependencies t' with
        | none => simp [h0]
        | some te0 =>
          simp only [h0, Option.getD_some]
          exact W.getDepsNodup t' te0 h0
      · rw [if_neg hm] at hte
        exact W.getDepsNodup t' te hte
    · intro w' wd hw'
      rw [e4] at hw'
      exact W.wdNodup w' wd hw'
    · intro o' hm
      rw [hmem o'] at hm
      rw [e1]
      rcases hm with hm | ⟨he2, _⟩
      · intro hc
        exact W.disjointLocal o' hm (List.mem_filter.mp hc).1
      · intro hc
        rw [he2] at hc
        simp [List.mem_filter] at hc
    · intro o' d' hio' hl2 hp
      rw [hidx o'] at hio'
      rw [e1] at hl2
      rw [e2] at hp
      rw [hmem o']
      by_cases hne : o' = o
      · exact Or.inr ⟨hne, hne ▸ hp⟩
      · have hl0 : o' ∉ s.local_objects := by
          intro hc
          exact hl2 (List.mem_filter.mpr ⟨hc, by simpa using hne⟩)
        exact Or.inl (W.reqComplete o' d' hio' hl0 hp)

theorem alGet_isSome_of_mem_keys {K V : Type} [DecidableEq K]
    (l : List (K × V)) (k : K) (hk : k ∈ l.map (·.1)) :
    (alGet l k).isSome = true := by
  induction l with
  | nil => simp at hk
  | cons p rest ih =>
    obtain ⟨k0, v0⟩ := p
    by_cases he : k0 = k
    · simp [alGet, he]
    · rw [List.map_cons, List.mem_cons] at hk
      rcases hk with hk | hk
      · exact absurd hk.symm he
      · simp only [alGet, if_neg he]
        exact ih hk

theorem alGet_mem_keys {K V : Type} [DecidableEq K]
    (l : List (K × V)) (k : K) (v : V) (h : alGet l k = some v) :
    k ∈ l.map (·.1) := by
  induction l with
  | nil => exact absurd h (by simp [alGet])
  | cons p rest ih =>
    obtain ⟨k0, v0⟩ := p
    by_cases he : k0 = k
    · rw [List.map_cons, List.mem_cons]
      exact Or.inl he.symm
    · simp only [alGet, if_neg he] at h
      rw [List.map_cons, List.mem_cons]
      exact Or.inr (ih h)

/-- `TaskPending` preserves `WFlite`. -/
theorem taskPending_lite (s : TDM) (tk : Task) (W : WFlite s) :
    WFlite (TaskPending s tk).2 := by
  unfold TaskPending
  by_cases htr : tk.tracked = true
  · rw [if_pos htr]
    by_cases hp : tk.task_id ∈ s.pending_tasks
    · rw [if_pos hp]
      exact W
    · rw [if_neg hp]
      cases hin : alGet s.required_tasks tk.task_id with
      | none =>
        simp only [hin]
        refine ⟨W.creatorOK, W.depTasksOK, W.depWorkersOK, W.depTasksNodup,
          W.depWorkersNodup, W.getDepsNodup, W.wdNodup, W.disjointLocal, ?_⟩
        intro o d hio' hl hp2
        exact W.reqComplete o d hio' hl
          (fun hc => hp2 (List.mem_cons_of_mem _ hc))
      | some inner =>
        simp only [hin]
        refine ⟨?_, ?_, ?_, ?_, ?_, ?_, ?_, ?_, ?_⟩
        · intro c inner2 o d hc hi
          rw [(cancelAll_frame _ _).2.2.2.1] at hc
          exact W.creatorOK c inner2 o d hc hi
        · intro o d hio' t' ht'
          rw [indexGet_cancelAll] at hio'
          obtain ⟨te, hte, hmo⟩ := W.depTasksOK o d hio' t' ht'
          refine ⟨te, ?_, hmo⟩
          rw [(cancelAll_frame _ _).2.1]
          exact hte
        · intro o d hio' w' hw'
          rw [indexGet_cancelAll] at hio'
          obtain ⟨wd, hwd, hmo⟩ := W.depWorkersOK o d hio' w' hw'
          refine ⟨wd, ?_, hmo⟩
          rw [(cancelAll_frame _ _).2.2.1]
          exact hwd
        · intro o d hio'
          rw [indexGet_cancelAll] at hio'
          exact W.depTasksNodup o d hio'
        · intro o d hio'
          rw [indexGet_cancelAll] at hio'
          exact W.depWorkersNodup o d hio'
        · intro t' te hte
          rw [(cancelAll_frame _ _).2.1] at hte
          exact W.getDepsNodup t' te hte
        · intro w' wd hw'
          rw [(cancelAll_frame _ _).2.2.1] at hw'
          exact W.wdNodup w' wd hw'
        · intro o hm
          rw [mem_cancelAll] at hm
          rw [(cancelAll_frame _ _).1]
          exact W.disjointLocal o hm.1
        · intro o d hio' hl hp2
          rw [indexGet_cancelAll] at hio'
          rw [(cancelAll_frame _ _).1] at hl
          rw [(cancelAll_frame _ _).2.2.2.2] at hp2
          have hne : o.taskId ≠ tk.task_id := by
            intro he
            exact hp2 (by rw [he]; exact List.mem_cons_self _ _)
          have hp0 : o.taskId ∉ s.pending_tasks :=
            fun hc => hp2 (List.mem_cons_of_mem _ hc)
          rw [mem_cancelAll]
          refine ⟨W.reqComplete o d hio' hl hp0, Or.inl ?_⟩
          intro hos
          have hsome := alGet_isSome_of_mem_keys inner o hos
          obtain ⟨d2, hd2⟩ := Option.isSome_iff_exists.mp hsome
          exact hne (W.creatorOK tk.task_id inner o d2 hin hd2)
  · rw [if_neg htr]
    exact W

/-- `TaskCanceled` preserves `WFlite`. -/
theorem taskCanceled_lite (s : TDM) (t : TaskID) (W : WFlite s) :
    WFlite (TaskCanceled s t).2 := by
  unfold TaskCanceled
  by_cases hp : t ∈ s.pending_tasks
  · rw [if_pos hp]
    cases hin : alGet s.required_tasks t with
    | none =>
      simp only [hin]
      refine ⟨W.creatorOK, W.depTasksOK, W.depWorkersOK, W.depTasksNodup,
        W.depWorkersNodup, W.getDepsNodup, W.wdNodup, W.disjointLocal, ?_⟩
      intro o d hio' hl hp2
      by_cases he : o.taskId = t
      · exfalso
        have hio2 : indexGet s o = some d := hio'
        unfold indexGet at hio2
        rw [he, hin] at hio2
        exact absurd hio2 (by simp)
      · have hp0 : o.taskId ∉ s.pending_tasks := by
          intro hc
          exact hp2 (List.mem_filter.mpr ⟨hc, by simpa using he⟩)
        exact W.reqComplete o d hio' hl hp0
    | some inner =>
      simp only [hin]
      refine ⟨?_, ?_, ?_, ?_, ?_, ?_, ?_, ?_, ?_⟩
      · intro c inner2 o d hc hi
        rw [(requireAll_frame _ _).2.2.2.1] at hc
        exact W.creatorOK c inner2 o d hc hi
      · intro o d hio' t' ht'
        rw [indexGet_requireAll] at hio'
        obtain ⟨te, hte, hmo⟩ := W.depTasksOK o d hio' t' ht'
        refine ⟨te, ?_, hmo⟩
        rw [(requireAll_frame _ _).2.1]
        exact hte
      · intro o d hio' w' hw'
        rw [indexGet_requireAll] at hio'
        obtain ⟨wd, hwd, hmo⟩ := W.depWorkersOK o d hio' w' hw'
        refine ⟨wd, ?_, hmo⟩
        rw [(requireAll_frame _ _).2.2.1]
        exact hwd
      · intro o d hio'
        rw [indexGet_requireAll] at hio'
        exact W.depTasksNodup o d hio'
      · intro o d hio'
        rw [indexGet_requireAll] at hio'
        exact W.depWorkersNodup o d hio'
      · intro t' te hte
        rw [(requireAll_frame _ _).2.1] at hte
        exact W.getDepsNodup t' te hte
      · intro w' wd hw'
        rw [(requireAll_frame _ _).2.2.1] at hw'
        exact W.wdNodup w' wd hw'
      · intro o hm
        rw [mem_requireAll] at hm
        rw [(requireAll_frame _ _).1]
        rcases hm with hm | ⟨_, hreq⟩
        · exact W.disjointLocal o hm
        · exact ((objectIsRequired_iff _ _).mp hreq).2.1
      · intro o d hio' hl hp2
        rw [indexGet_requireAll] at hio'
        rw [(requireAll_frame _ _).1] at hl
        rw [(requireAll_frame _ _).2.2.2.2] at hp2
        rw [mem_requireAll]
        by_cases he : o.taskId = t
        · have hio2 : indexGet s o = some d := hio'
          unfold indexGet at hio2
          rw [he, hin] at hio2
          simp only [Option.some_bind] at hio2
          refine Or.inr ⟨?_, ?_⟩
          · exact alGet_mem_keys inner o d hio2
          · rw [objectIsRequired_iff]
            refine ⟨?_, hl, hp2⟩
            rw [hio']
            rfl
        · have hp0 : o.taskId ∉ s.pending_tasks := by
            intro hc
            exact hp2 (List.mem_filter.mpr ⟨hc, by simpa using he⟩)
          exact Or.inl (W.reqComplete o d hio' hl hp0)
  · rw [if_neg hp]
    exact W

theorem collectPurge_cons_none (s : TDM) (req : List ObjectID) (t : TaskID)
    (rest : List TaskID) (h : alGet s.task_dependencies t = none) :
    collectPurge s req (t :: rest) =
      collectPurge
        { s with task_dependencies := alErase s.task_dependencies t,
                 pending_tasks := s.pending_tasks.filter (· ≠ t) } req rest := by
  unfold collectPurge
  simp only [h]
  cases rest <;> rfl

theorem collectPurge_cons_some (s : TDM) (req : List ObjectID) (t : TaskID)
    (rest : List TaskID) (te : TaskDependencies)
    (h : alGet s.task_dependencies t = some te) :
    collectPurge s req (t :: rest) =
      collectPurge
        { s with task_dependencies := alErase s.task_dependencies t,
                 pending_tasks := s.pending_tasks.filter (· ≠ t) }
        (te.get_dependencies.foldl
          (fun r o => if o ∈ r then r else r ++ [o]) req) rest := by
  unfold collectPurge
  simp only [h]
  cases rest <;> rfl

theorem purgeObjects_cons (s : TDM) (calls : List Call) (o : ObjectID)
    (rest : List ObjectID) :
    purgeObjects s calls (o :: rest) =
      purgeObjects
        (HandleRemoteDependencyCanceled
          { s with required_tasks := alErase s.required_tasks o.taskId } o).1
        (calls ++
          (HandleRemoteDependencyCanceled
            { s with required_tasks := alErase s.required_tasks o.taskId } o).2)
        rest := rfl

theorem mem_foldl_dedup (l req : List ObjectID) (x : ObjectID) :
    x ∈ l.foldl (fun r o => if o ∈ r then r else r ++ [o]) req ↔
      x ∈ req ∨ x ∈ l := by
  induction l generalizing req with
  | nil => simp
  | cons o0 rest ih =>
    rw [List.foldl_cons, ih]
    by_cases h : o0 ∈ req
    · rw [if_pos h]
      simp only [List.mem_cons]
      constructor
      · rintro (hx | hx)
        · exact Or.inl hx
        · exact Or.inr (Or.inr hx)
      · rintro (hx | hx | hx)
        · exact Or.inl hx
        · exact Or.inl (hx ▸ h)
        · exact Or.inr hx
    · rw [if_neg h]
      simp only [List.mem_append, List.mem_cons, List.not_mem_nil, or_false]
      exact or_assoc

theorem collectPurge_mono (ts : List TaskID) (x : ObjectID) :
    ∀ (s : TDM) (req : List ObjectID), x ∈ req →
      x ∈ (collectPurge s req ts).1 := by
  induction ts with
  | nil =>
    intro s req hx
    simpa [collectPurge] using hx
  | cons t rest ih =>
    intro s req hx
    cases halG : alGet s.task_dependencies t with
    | none =>
      rw [collectPurge_cons_none _ _ _ _ halG]
      exact ih _ _ hx
    | some te =>
      rw [collectPurge_cons_some _ _ _ _ _ halG]
      exact ih _ _ ((mem_foldl_dedup _ _ _).mpr (Or.inl hx))

theorem collectPurge_collect (ts : List TaskID) (t : TaskID)
    (te : TaskDependencies) (x : ObjectID) :
    ∀ (s : TDM) (req : List ObjectID), t ∈ ts →
      alGet s.task_dependencies t = some te → x ∈ te.get_dependencies →
      x ∈ (collectPurge s req ts).1 := by
  induction ts with
  | nil =>
    intro s req ht _ _
    simp at ht
  | cons t0 rest ih =>
    intro s req ht hte hx
    by_cases he : t = t0
    · rw [← he]
      rw [collectPurge_cons_some _ _ _ _ _ hte]
      exact collectPurge_mono _ _ _ _ ((mem_foldl_dedup _ _ _).mpr (Or.inr hx))
    · have ht' : t ∈ rest := by
        rcases List.mem_cons.mp ht with h0 | h0
        · exact absurd h0 he
        · exact h0
      have hte' : alGet (alErase s.task_dependencies t0) t = some te := by
        rw [alGet_erase, if_neg he]
        exact hte
      cases halG : alGet s.task_dependencies t0 with
      | none =>
        rw [collectPurge_cons_none _ _ _ _ halG]
        exact ih _ _ ht' hte' hx
      | some te0 =>
        rw [collectPurge_cons_some _ _ _ _ _ halG]
        exact ih _ _ ht' hte' hx

theorem collectPurge_state (ts : List TaskID) :
    ∀ (s : TDM) (req : List ObjectID),
    (collectPurge s req ts).2.local_objects = s.local_objects ∧
    (collectPurge s req ts).2.worker_dependencies = s.worker_dependencies ∧
    (collectPurge s req ts).2.required_tasks = s.required_tasks ∧
    (collectPurge s req ts).2.required_objects = s.required_objects ∧
    (∀ t', alGet (collectPurge s req ts).2.task_dependencies t' =
      if t' ∈ ts then none else alGet s.task_dependencies t') ∧
    (∀ t', t' ∈ (collectPurge s req ts).2.pending_tasks ↔
      t' ∈ s.pending_tasks ∧ t' ∉ ts) := by
  induction ts with
  | nil =>
    intro s req
    refine ⟨rfl, rfl, rfl, rfl, fun t' => by simp [collectPurge],
      fun t' => by simp [collectPurge]⟩
  | cons t rest ih =>
    intro s req
    have key : ∀ req2 : List ObjectID,
        (collectPurge
          { s with task_dependencies := alErase s.task_dependencies t,
                   pending_tasks := s.pending_tasks.filter (· ≠ t) }
          req2 rest).2.local_objects = s.local_objects ∧
        (collectPurge
          { s with task_dependencies := alErase s.task_dependencies t,
                   pending_tasks := s.pending_tasks.filter (· ≠ t) }
          req2 rest).2.worker_dependencies = s.worker_dependencies ∧
        (collectPurge
          { s with task_dependencies := alErase s.task_dependencies t,
                   pending_tasks := s.pending_tasks.filter (· ≠ t) }
          req2 rest).2.required_tasks = s.required_tasks ∧
        (collectPurge
          { s with task_dependencies := alErase s.task_dependencies t,
                   pending_tasks := s.pending_tasks.filter (· ≠ t) }
          req2 rest).2.required_objects = s.required_objects ∧
        (∀ t', alGet (collectPurge
          { s with task_dependencies := alErase s.task_dependencies t,
                   pending_tasks := s.pending_tasks.filter (· ≠ t) }
          req2 rest).2.task_dependencies t' =
          if t' ∈ t :: rest then none else alGet s.task_dependencies t') ∧
        (∀ t', t' ∈ (collectPurge
          { s with task_dependencies := alErase s.task_dependencies t,
                   pending_tasks := s.pending_tasks.filter (· ≠ t) }
          req2 rest).2.pending_tasks ↔
          t' ∈ s.pending_tasks ∧ t' ∉ t :: rest) := by
      intro req2
      obtain ⟨g1, g2, g3, g4, g5, g6⟩ := ih
        { s with task_dependencies := alErase s.task_dependencies t,
                 pending_tasks := s.pending_tasks.filter (· ≠ t) } req2
      refine ⟨g1, g2, g3, g4, ?_, ?_⟩
      · intro t'
        rw [g5 t']
        have hproj : ({ s with task_dependencies := alErase s.task_dependencies t,
                                pending_tasks := s.pending_tasks.filter (· ≠ t) }
            : TDM).task_dependencies = alErase s.task_dependencies t := rfl
        by_cases hr : t' ∈ rest
        · rw [if_pos hr, if_pos (List.mem_cons_of_mem _ hr)]
        · rw [if_neg hr, hproj, alGet_erase]
          by_cases het : t' = t
          · rw [if_pos het, if_pos (by rw [het]; exact List.mem_cons_self _ _)]
          · rw [if_neg het, if_neg (by simp [het, hr])]
      · intro t'
        rw [g6 t']
        have hproj : ({ s with task_dependencies := alErase s.task_dependencies t,
                                pending_tasks := s.pending_tasks.filter (· ≠ t) }
            : TDM).pending_tasks = s.pending_tasks.filter (· ≠ t) := rfl
        rw [hproj]
        constructor
        · rintro ⟨hm, hnr⟩
          have hm2 := List.mem_filter.mp hm
          refine ⟨hm2.1, ?_⟩
          intro hc
          rcases List.mem_cons.mp hc with he | he
          · exact absurd he (by simpa using hm2.2)
          · exact hnr he
        · rintro ⟨hm, hn⟩
          refine ⟨List.mem_filter.mpr ⟨hm, ?_⟩,
            fun hc => hn (List.mem_cons_of_mem _ hc)⟩
          simp only [decide_eq_true_eq]
          exact fun he => hn (by rw [he]; exact List.mem_cons_self _ _)
    cases halG : alGet s.task_dependencies t with
    | none =>
      rw [collectPurge_cons_none _ _ _ _ halG]
      exact key req
    | some te =>
      rw [collectPurge_cons_some _ _ _ _ _ halG]
      exact key _

theorem purgeObjects_state (os : List ObjectID) :
    ∀ (s : TDM) (calls : List Call),
    (purgeObjects s calls os).1.local_objects = s.local_objects ∧
    (purgeObjects s calls os).1.task_dependencies = s.task_dependencies ∧
    (purgeObjects s calls os).1.worker_dependencies = s.worker_dependencies ∧
    (purgeObjects s calls os).1.pending_tasks = s.pending_tasks ∧
    (∀ c, alGet (purgeObjects s calls os).1.required_tasks c =
      if c ∈ os.map (·.taskId) then none else alGet s.required_tasks c) ∧
    (∀ o', o' ∈ (purgeObjects s calls os).1.required_objects ↔
      o' ∈ s.required_objects ∧ o' ∉ os) := by
  induction os with
  | nil =>
    intro s calls
    refine ⟨rfl, rfl, rfl, rfl, fun c => by simp [purgeObjects],
      fun o' => by simp [purgeObjects]⟩
  | cons o rest ih =>
    intro s calls
    rw [purgeObjects_cons]
    have hidx : indexGet
        { s with required_tasks := alErase s.required_tasks o.taskId } o = none := by
      unfold indexGet
      have h0 : ({ s with required_tasks := alErase s.required_tasks o.taskId }
          : TDM).required_tasks = alErase s.required_tasks o.taskId := rfl
      rw [h0, alGet_erase]
      simp
    have hreq : ¬ objectIsRequired
        { s with required_tasks := alErase s.required_tasks o.taskId } o = true := by
      intro hc
      have h1 := ((objectIsRequired_iff _ _).mp hc).1
      rw [hidx] at h1
      exact absurd h1 (by simp)
    obtain ⟨g1, g2, g3, g4, g5, g6⟩ := ih
      (HandleRemoteDependencyCanceled
        { s with required_tasks := alErase s.required_tasks o.taskId } o).1
      (calls ++
        (HandleRemoteDependencyCanceled
          { s with required_tasks := alErase s.required_tasks o.taskId } o).2)
    refine ⟨?_, ?_, ?_, ?_, ?_, ?_⟩
    · rw [g1, (canceled_frame _ _).1]
    · rw [g2, (canceled_frame _ _).2.1]
    · rw [g3, (canceled_frame _ _).2.2.1]
    · rw [g4, (canceled_frame _ _).2.2.2.2]
    · intro c
      rw [g5 c]
      by_cases hr : c ∈ rest.map (·.taskId)
      · rw [if_pos hr,
          if_pos (by rw [List.map_cons]; exact List.mem_cons_of_mem _ hr)]
      · rw [if_neg hr]
        have hq : alGet (HandleRemoteDependencyCanceled
            { s with required_tasks := alErase s.required_tasks o.taskId } o).1.required_tasks c =
            alGet (alErase s.required_tasks o.taskId) c := by
          rw [(canceled_frame _ _).2.2.2.1]
        rw [hq, alGet_erase]
        by_cases he : c = o.taskId
        · rw [if_pos he,
            if_pos (by rw [List.map_cons, he]; exact List.mem_cons_self _ _)]
        · rw [if_neg he, if_neg (by rw [List.map_cons]; simp [he, hr])]
    · intro o'
      rw [g6 o', mem_canceled]
      constructor
      · rintro ⟨⟨hm, hd⟩, hnr⟩
        refine ⟨hm, ?_⟩
        intro hc
        rcases List.mem_cons.mp hc with he | hc2
        · rcases hd with hne | hr2
          · exact hne he
          · exact hreq hr2
        · exact hnr hc2
      · rintro ⟨hm, hn⟩
        exact ⟨⟨hm, Or.inl (fun he => hn (by rw [he]; exact List.mem_cons_self _ _))⟩,
          fun hc => hn (List.mem_cons_of_mem _ hc)⟩

/-- `RemoveTasksAndRelatedObjects` preserves `WFlite` whenever it returns
(no caller-contract assumption). -/
theorem removeTasks_lite (s : TDM) (ts : List TaskID) (r : List Call × TDM)
    (W : WFlite s) (h : RemoveTasksAndRelatedObjects s ts = some r) :
    WFlite r.2 := by
  have heq : RemoveTasksAndRelatedObjects s ts =
      (if ts.all (fun t => (alGet (purgeObjects (collectPurge s [] ts).2 []
          (collectPurge s [] ts).1).1.required_tasks t).isNone)
       then some ((purgeObjects (collectPurge s [] ts).2 []
            (collectPurge s [] ts).1).2,
          (purgeObjects (collectPurge s [] ts).2 []
            (collectPurge s [] ts).1).1)
       else none) := rfl
  rw [heq] at h
  by_cases hall : ts.all (fun t => (alGet (purgeObjects (collectPurge s [] ts).2 []
      (collectPurge s [] ts).1).1.required_tasks t).isNone) = true
  case neg =>
    rw [if_neg hall] at h
    exact absurd h (by simp)
  case pos =>
    rw [if_pos hall] at h
    injection h with h2
    obtain ⟨c1, c2, c3, c4, c5, c6⟩ := collectPurge_state ts s []
    obtain ⟨p1, p2, p3, p4, p5, p6⟩ :=
      purgeObjects_state (collectPurge s [] ts).1 (collectPurge s [] ts).2 []
    have h3 : r.2 =
        (purgeObjects (collectPurge s [] ts).2 [] (collectPurge s [] ts).1).1 := by
      rw [← h2]
    rw [h3]
    have hwdeq : (purgeObjects (collectPurge s [] ts).2 []
        (collectPurge s [] ts).1).1.worker_dependencies = s.worker_dependencies :=
      p3.trans c2
    have hleq : (purgeObjects (collectPurge s [] ts).2 []
        (collectPurge s [] ts).1).1.local_objects = s.local_objects :=
      p1.trans c1
    have hidx : ∀ o2 : ObjectID,
        indexGet (purgeObjects (collectPurge s [] ts).2 []
          (collectPurge s [] ts).1).1 o2 =
        if o2.taskId ∈ (collectPurge s [] ts).1.map (·.taskId) then none
        else indexGet s o2 := by
      intro o2
      unfold indexGet
      rw [p5 o2.taskId, c3]
      by_cases hm : o2.taskId ∈ (collectPurge s [] ts).1.map (·.taskId)
      · rw [if_pos hm, if_pos hm]
        rfl
      · rw [if_neg hm, if_neg hm]
    refine ⟨?_, ?_, ?_, ?_, ?_, ?_, ?_, ?_, ?_⟩
    · intro c inner o d hc hi
      rw [p5 c] at hc
      by_cases hm : c ∈ (collectPurge s [] ts).1.map (·.taskId)
      · rw [if_pos hm] at hc
        exact absurd hc (by simp)
      · rw [if_neg hm, c3] at hc
        exact W.creatorOK c inner o d hc hi
    · intro o d hio t' ht'
      rw [hidx o] at hio
      by_cases hm : o.taskId ∈ (collectPurge s [] ts).1.map (·.taskId)
      · rw [if_pos hm] at hio
        exact absurd hio (by simp)
      · rw [if_neg hm] at hio
        obtain ⟨te, hte, hmo⟩ := W.depTasksOK o d hio t' ht'
        have htn : t' ∉ ts := by
          intro hc
          exact hm (List.mem_map_of_mem _
            (collectPurge_collect ts t' te o s [] hc hte hmo))
        refine ⟨te, ?_, hmo⟩
        rw [p2, c5 t', if_neg htn]
        exact hte
    · intro o d hio w' hw'
      rw [hidx o] at hio
      by_cases hm : o.taskId ∈ (collectPurge s [] ts).1.map (·.taskId)
      · rw [if_pos hm] at hio
        exact absurd hio (by simp)
      · rw [if_neg hm] at hio
        obtain ⟨wd, hwd, hmo⟩ := W.depWorkersOK o d hio w' hw'
        refine ⟨wd, ?_, hmo⟩
        rw [hwdeq]
        exact hwd
    · intro o d hio
      rw [hidx o] at hio
      by_cases hm : o.taskId ∈ (collectPurge s [] ts).1.map (·.taskId)
      · rw [if_pos hm] at hio
        exact absurd hio (by simp)
      · rw [if_neg hm] at hio
        exact W.depTasksNodup o d hio
    · intro o d hio
      rw [hidx o] at hio
      by_cases hm : o.taskId ∈ (collectPurge s [] ts).1.map (·.taskId)
      · rw [if_pos hm] at hio
        exact absurd hio (by simp)
      · rw [if_neg hm] at hio
        exact W.depWorkersNodup o d hio
    · intro t' te hte
      rw [p2, c5 t'] at hte
      by_cases ht : t' ∈ ts
      · rw [if_pos ht] at hte
        exact absurd hte (by simp)
      · rw [if_neg ht] at hte
        exact W.getDepsNodup t' te hte
    · intro w' wd hw'
      rw [hwdeq] at hw'
      exact W.wdNodup w' wd hw'
    · intro o hm
      rw [p6 o, c4] at hm
      rw [hleq]
      exact W.disjointLocal o hm.1
    · intro o d hio hl hp
      rw [hidx o] at hio
      by_cases hm : o.taskId ∈ (collectPurge s [] ts).1.map (·.taskId)
      · rw [if_pos hm] at hio
        exact absurd hio (by simp)
      · rw [if_neg hm] at hio
        rw [hleq] at hl
        have hpend : ¬ (o.taskId ∈ s.pending_tasks ∧ o.taskId ∉ ts) := by
          intro hc
          exact hp (by rw [p4]; exact (c6 o.taskId).mpr hc)
        have hts : o.taskId ∉ ts := by
          intro hc
          have hrc := List.all_eq_true.mp hall o.taskId hc
          rw [Option.isNone_iff_eq_none] at hrc
          have hi2 := hidx o
          rw [if_neg hm, hio] at hi2
          have hnone : indexGet (purgeObjects (collectPurge s [] ts).2 []
              (collectPurge s [] ts).1).1 o = none := by
            unfold indexGet
            rw [hrc]
            rfl
          rw [hnone] at hi2
          exact absurd hi2 (by simp)
        have hp0 : o.taskId ∉ s.pending_tasks := by
          intro hc
          exact hpend ⟨hc, hts⟩
        have hms := W.reqComplete o d hio hl hp0
        rw [p6 o, c4]
        refine ⟨hms, ?_⟩
        intro hc
        exact hm (List.mem_map_of_mem _ hc)

/-- Every public operation preserves `WFlite` whenever it completes. -/
theorem liteStep (s s' : TDM) (op : Op) (W : WFlite s)
    (h : step s op = some s') : WFlite s' := by
  cases op with
  | subGet t refs =>
    injection h with h
    rw [← h]
    exact subscribeGet_lite s t refs W
  | subWait w refs =>
    injection h with h
    rw [← h]
    exact subscribeWait_lite s w refs W
  | unsubGet t =>
    simp only [step] at h
    cases h0 : UnsubscribeGetDependencies s t with
    | none =>
      rw [h0] at h
      exact absurd h (by simp)
    | some r =>
      rw [h0] at h
      injection h with h
      rw [← h]
      exact unsubscribeGet_lite s t r W h0
  | unsubWait w =>
    simp only [step] at h
    cases h0 : UnsubscribeWaitDependencies s w with
    | none =>
      rw [h0] at h
      exact absurd h (by simp)
    | some r =>
      rw [h0] at h
      injection h with h
      rw [← h]
      exact unsubscribeWait_lite s w r W h0
  | objLocal o =>
    simp only [step] at h
    cases h0 : HandleObjectLocal s o with
    | none =>
      rw [h0] at h
      exact absurd h (by simp)
    | some r =>
      rw [h0] at h
      injection h with h
      rw [← h]
      exact handleObjectLocal_lite s o r W h0
  | objMissing o =>
    simp only [step] at h
    cases h0 : HandleObjectMissing s o with
    | none =>
      rw [h0] at h
      exact absurd h (by simp)
    | some r =>
      rw [h0] at h
      injection h with h
      rw [← h]
      exact handleObjectMissing_lite s o r W h0
  | taskPend tk =>
    injection h with h
    rw [← h]
    exact taskPending_lite s tk W
  | taskCancel t =>
    injection h with h
    rw [← h]
    exact taskCanceled_lite s t W
  | removeTasks ts =>
    simp only [step] at h
    cases h0 : RemoveTasksAndRelatedObjects s ts with
    | none =>
      rw [h0] at h
      exact absurd h (by simp)
    | some r =>
      rw [h0] at h
      injection h with h
      rw [← h]
      exact removeTasks_lite s ts r W h0

/-- The empty manager satisfies `WFlite`. -/
theorem emptyTDM_lite : WFlite emptyTDM := by
  have hidx : ∀ o : ObjectID, indexGet emptyTDM o = none := fun o => rfl
  refine ⟨?_, ?_, ?_, ?_, ?_, ?_, ?_, ?_, ?_⟩
  · intro c inner o d hc
    exact absurd hc (by simp [emptyTDM, alGet])
  · intro o d hio
    rw [hidx o] at hio
    exact absurd hio (by simp)
  · intro o d hio
    rw [hidx o] at hio
    exact absurd hio (by simp)
  · intro o d hio
    rw [hidx o] at hio
    exact absurd hio (by simp)
  · intro o d hio
    rw [hidx o] at hio
    exact absurd hio (by simp)
  · intro t' te hte
    exact absurd hte (by simp [emptyTDM, alGet])
  · intro w' wd hw'
    exact absurd hw' (by simp [emptyTDM, alGet])
  · intro o hm
    exact absurd hm (by simp [emptyTDM])
  · intro o d hio
    rw [hidx o] at hio
    exact absurd hio (by simp)

/-- `WFlite` holds along any completed run from a `WFlite` state. -/
theorem liteRunFrom (ops : List Op) :
    ∀ (s s' : TDM), WFlite s → runFrom s ops = some s' → WFlite s' := by
  induction ops with
  | nil =>
    intro s s' W h
    injection h with h
    rw [← h]
    exact W
  | cons op rest ih =>
    intro s s' W h
    unfold runFrom at h
    cases h0 : step s op with
    | none =>
      rw [h0] at h
      exact absurd h (by simp)
    | some s1 =>
      rw [h0] at h
      exact ih s1 s' (liteStep s s1 op W h0) h

/-- Every reachable state satisfies `WFlite`. -/
theorem liteRun (ops : List Op) (s : TDM) (h : run ops = some s) : WFlite s :=
  liteRunFrom ops emptyTDM s emptyTDM_lite h

/-- Every reachable state satisfies `WFlite`. -/
theorem reachable_lite (s : TDM) (h : Reachable s) : WFlite s := by
  obtain ⟨ops, hops⟩ := h
  exact liteRun ops s hops

theorem alGet_mem {K V : Type} [DecidableEq K]
    (l : List (K × V)) (k : K) (v : V) (h : alGet l k = some v) :
    (k, v) ∈ l := by
  induction l with
  | nil => exact absurd h (by simp [alGet])
  | cons p rest ih =>
    obtain ⟨k0, v0⟩ := p
    by_cases he : k0 = k
    · simp only [alGet, if_pos he] at h
      injection h with h
      rw [← he, ← h]
      exact List.mem_cons_self _ _
    · simp only [alGet, if_neg he] at h
      exact List.mem_cons_of_mem _ (ih h)

theorem sInsert_ne_nil {A : Type} [DecidableEq A] (l : List A) (a : A) :
    sInsert l a ≠ [] := by
  unfold sInsert
  by_cases h : a ∈ l
  · rw [if_pos h]
    intro hc
    rw [hc] at h
    exact absurd h (List.not_mem_nil a)
  · rw [if_neg h]
    exact List.cons_ne_nil _ _

theorem filter_drop_notmem (l : List ObjectID) (p : ObjectID → Bool)
    (o : ObjectID) (hnm : o ∉ l) :
    l.filter (fun x => decide (x ≠ o) && p x) = l.filter p := by
  apply List.filter_congr
  intro x hx
  have hne : x ≠ o := fun he => hnm (he ▸ hx)
  simp [hne]

theorem length_filter_drop (l : List ObjectID) (p : ObjectID → Bool)
    (o : ObjectID) (hnd : l.Nodup) (hmem : o ∈ l) (hp : p o = true) :
    (l.filter p).length =
      (l.filter (fun x => decide (x ≠ o) && p x)).length + 1 := by
  induction l with
  | nil => simp at hmem
  | cons a rest ih =>
    have hnd' := List.nodup_cons.mp hnd
    by_cases he : a = o
    · rw [he]
      rw [he] at hnd'
      have hfo : (decide (o ≠ o) && p o) = false := by simp
      rw [List.filter_cons, List.filter_cons, hfo, hp]
      rw [if_pos rfl, if_neg (by simp)]
      rw [List.length_cons, filter_drop_notmem rest p o hnd'.1]
    · have hm' : o ∈ rest := by
        rcases List.mem_cons.mp hmem with h0 | h0
        · exact absurd h0.symm he
        · exact h0
      have hfa : (decide (a ≠ o) && p a) = p a := by simp [he]
      rw [List.filter_cons, List.filter_cons, hfa]
      by_cases hpa : p a = true
      · rw [if_pos hpa, if_pos hpa, List.length_cons, List.length_cons,
          ih hnd'.2 hm']
      · rw [if_neg hpa, if_neg hpa]
        exact ih hnd'.2 hm'

theorem filter_add_notmem (l : List ObjectID) (p : ObjectID → Bool)
    (o : ObjectID) (hnm : o ∉ l) :
    l.filter (fun x => decide (x = o) || p x) = l.filter p := by
  apply List.filter_congr
  intro x hx
  have hne : x ≠ o := fun he => hnm (he ▸ hx)
  simp [hne]

theorem length_filter_add (l : List ObjectID) (p : ObjectID → Bool)
    (o : ObjectID) (hnd : l.Nodup) (hmem : o ∈ l) (hp : p o = false) :
    (l.filter (fun x => decide (x = o) || p x)).length =
      (l.filter p).length + 1 := by
  induction l with
  | nil => simp at hmem
  | cons a rest ih =>
    have hnd' := List.nodup_cons.mp hnd
    by_cases he : a = o
    · rw [he]
      rw [he] at hnd'
      have hfo : (decide (o = o) || p o) = true := by simp
      rw [List.filter_cons, List.filter_cons, hfo, hp]
      rw [if_pos rfl, if_neg (by simp)]
      rw [List.length_cons, filter_add_notmem rest p o hnd'.1]
    · have hm' : o ∈ rest := by
        rcases List.mem_cons.mp hmem with h0 | h0
        · exact absurd h0.symm he
        · exact h0
      have hfa : (decide (a = o) || p a) = p a := by simp [he]
      rw [List.filter_cons, List.filter_cons, hfa]
      by_cases hpa : p a = true
      · rw [if_pos hpa, if_pos hpa, List.length_cons, List.length_cons,
          ih hnd'.2 hm']
      · rw [if_neg hpa, if_neg hpa]
        exact ih hnd'.2 hm'

/-- The recording loop of `SubscribeGetDependencies` keeps the missing
counter equal to the number of non-local get dependencies. -/
theorem recordGetDeps_count (t : TaskID) (refs : List ObjectReference) :
    ∀ (entry : TaskDependencies) (s : TDM),
    entry.num_missing_get_dependencies =
      ((entry.get_dependencies.filter (fun o => o ∉ s.local_objects)).length : Int) →
    (recordGetDeps t entry s refs).1.num_missing_get_dependencies =
      (((recordGetDeps t entry s refs).1.get_dependencies.filter
        (fun o => o ∉ s.local_objects)).length : Int) := by
  induction refs with
  | nil =>
    intro entry s hbase
    exact hbase
  | cons ref rest ih =>
    intro entry s hbase
    rw [recordGetDeps_cons]
    have hloc : (recordGetDep t s entry ref).2.local_objects = s.local_objects :=
      (recordGetDep_frame t s entry ref).1
    have hstep : (recordGetDep t s entry ref).1.num_missing_get_dependencies =
        (((recordGetDep t s entry ref).1.get_dependencies.filter
          (fun o => o ∉ s.local_objects)).length : Int) := by
      rw [recordGetDep_entry]
      by_cases h : ref.object_id ∈ entry.get_dependencies
      · rw [if_pos h]
        exact hbase
      · rw [if_neg h]
        by_cases hl : ref.object_id ∈ s.local_objects
        · show entry.num_missing_get_dependencies +
            (if ref.object_id ∈ s.local_objects then 0 else 1) = _
          rw [if_pos hl, List.filter_cons, if_neg (by simp [hl]), hbase]
          ring
        · show entry.num_missing_get_dependencies +
            (if ref.object_id ∈ s.local_objects then 0 else 1) = _
          rw [if_neg hl, List.filter_cons, if_pos (by simp [hl]), hbase]
          rw [List.length_cons]
          push_cast
          ring
    have hres := ih (recordGetDep t s entry ref).1 (recordGetDep t s entry ref).2
      (by rw [hloc]; exact hstep)
    rw [hloc] at hres
    exact hres

/-- After one non-skipped recording step, the object's reverse-index
record exists and holds the subscriber. -/
theorem recordGetDep_index_self (t : TaskID) (s : TDM)
    (entry : TaskDependencies) (ref : ObjectReference)
    (h : ref.object_id ∉ entry.get_dependencies) :
    indexGet (recordGetDep t s entry ref).2 ref.object_id =
      some { ((indexGet s ref.object_id).getD (freshDeps ref)) with
             dependent_tasks :=
               sInsert ((indexGet s ref.object_id).getD
                 (freshDeps ref)).dependent_tasks t } := by
  unfold recordGetDep
  simp only [if_neg h]
  unfold indexGet
  rw [alGet_set_self]
  simp only [Option.some_bind]
  rw [alGet_set_self]
  cases h1 : alGet s.required_tasks ref.object_id.taskId with
  | none => simp [h1, alGet]
  | some inner => simp [h1]

/-- Along the recording loop, every recorded get dependency of the
subscribing task has a reverse-index record naming it. -/
theorem recordGetDeps_self_indexed (t : TaskID) (refs : List ObjectReference) :
    ∀ (entry : TaskDependencies) (s : TDM),
    (∀ o ∈ entry.get_dependencies, ∃ d, indexGet s o = some d ∧
      t ∈ d.dependent_tasks) →
    ∀ o ∈ (recordGetDeps t entry s refs).1.get_dependencies,
      ∃ d, indexGet (recordGetDeps t entry s refs).2 o = some d ∧
        t ∈ d.dependent_tasks := by
  induction refs with
  | nil =>
    intro entry s h
    exact h
  | cons ref rest ih =>
    intro entry s h
    rw [recordGetDeps_cons]
    apply ih
    intro o ho
    rw [recordGetDep_getDeps_mem] at ho
    by_cases hmem : ref.object_id ∈ entry.get_dependencies
    · rw [recordGetDep_skip t s entry ref hmem]
      rcases ho with he | ho
      · exact h o (he ▸ hmem)
      · exact h o ho
    · rcases ho with he | ho
      · rw [he, recordGetDep_index_self t s entry ref hmem]
        exact ⟨_, rfl, (mem_sInsert _ _ _).mpr (Or.inl rfl)⟩
      · obtain ⟨d, hd, ht⟩ := h o ho
        obtain ⟨d', hd', _, _, hdt⟩ := recordGetDep_index t s entry ref o d hd
        refine ⟨d', hd', ?_⟩
        rcases hdt with h2 | h2
        · rw [h2]
          exact ht
        · rw [h2]
          exact (mem_sInsert _ _ _).mpr (Or.inr ht)

/-- The recording loop of `SubscribeGetDependencies` never leaves an
empty reverse-index record. -/
theorem recordGetDeps_noEmpty (t : TaskID) (refs : List ObjectReference) :
    ∀ (entry : TaskDependencies) (s : TDM),
    (∀ o d, indexGet s o = some d →
      d.dependent_tasks ≠ [] ∨ d.dependent_workers ≠ []) →
    ∀ o d', indexGet (recordGetDeps t entry s refs).2 o = some d' →
      d'.dependent_tasks ≠ [] ∨ d'.dependent_workers ≠ [] := by
  induction refs with
  | nil =>
    intro entry s h
    exact h
  | cons ref rest ih =>
    intro entry s h
    rw [recordGetDeps_cons]
    apply ih
    intro o d' hd
    rcases recordGetDep_index_rev t s entry ref o d' hd with h1 | ⟨_, _, h1⟩
    · exact h o d' h1
    · rw [h1]
      exact Or.inl (sInsert_ne_nil _ _)

/-- After one non-skipped wait-recording step, the object's reverse-index
record exists and holds the waiting worker. -/
theorem recordWaitDep_index_self (w : WorkerID) (s : TDM)
    (wentry : List ObjectID) (ref : ObjectReference)
    (hl : ref.object_id ∉ s.local_objects) (h : ref.object_id ∉ wentry) :
    indexGet (recordWaitDep w s wentry ref).2 ref.object_id =
      some { ((indexGet s ref.object_id).getD (freshDeps ref)) with
             dependent_workers :=
               sInsert ((indexGet s ref.object_id).getD
                 (freshDeps ref)).dependent_workers w } := by
  unfold recordWaitDep
  simp only [if_neg hl, if_neg h]
  unfold indexGet
  rw [alGet_set_self]
  simp only [Option.some_bind]
  rw [alGet_set_self]
  cases h1 : alGet s.required_tasks ref.object_id.taskId with
  | none => simp [h1, alGet]
  | some inner => simp [h1]

/-- Along the wait-recording loop, every recorded wait dependency of the
worker has a reverse-index record naming it. -/
theorem recordWaitDeps_self_indexed (w : WorkerID) (refs : List ObjectReference) :
    ∀ (wentry : List ObjectID) (s : TDM),
    (∀ o ∈ wentry, ∃ d, indexGet s o = some d ∧ w ∈ d.dependent_workers) →
    ∀ o ∈ (recordWaitDeps w wentry s refs).1,
      ∃ d, indexGet (recordWaitDeps w wentry s refs).2 o = some d ∧
        w ∈ d.dependent_workers := by
  induction refs with
  | nil =>
    intro wentry s h
    exact h
  | cons ref rest ih =>
    intro wentry s h
    rw [recordWaitDeps_cons]
    apply ih
    intro o ho
    rw [recordWaitDep_wentry] at ho
    by_cases hl : ref.object_id ∈ s.local_objects
    · rw [if_pos hl] at ho
      have hskip : recordWaitDep w s wentry ref = (wentry, s) := by
        unfold recordWaitDep
        simp [hl]
      rw [hskip]
      exact h o ho
    · by_cases hmem : ref.object_id ∈ wentry
      · rw [if_neg hl, if_pos hmem] at ho
        have hskip : recordWaitDep w s wentry ref = (wentry, s) := by
          unfold recordWaitDep
          simp [hl, hmem]
        rw [hskip]
        exact h o ho
      · rw [if_neg hl, if_neg hmem] at ho
        rcases List.mem_cons.mp ho with he | ho
        · rw [he, recordWaitDep_index_self w s wentry ref hl hmem]
          exact ⟨_, rfl, (mem_sInsert _ _ _).mpr (Or.inl rfl)⟩
        · obtain ⟨d, hd, hw⟩ := h o ho
          obtain ⟨d', hd', _, _, hdw⟩ := recordWaitDep_index w s wentry ref o d hd
          refine ⟨d', hd', ?_⟩
          rcases hdw with h2 | h2
          · rw [h2]
            exact hw
          · rw [h2]
            exact (mem_sInsert _ _ _).mpr (Or.inr hw)

/-- The wait-recording loop never leaves an empty reverse-index record. -/
theorem recordWaitDeps_noEmpty (w : WorkerID) (refs : List ObjectReference) :
    ∀ (wentry : List ObjectID) (s : TDM),
    (∀ o d, indexGet s o = some d →
      d.dependent_tasks ≠ [] ∨ d.dependent_workers ≠ []) →
    ∀ o d', indexGet (recordWaitDeps w wentry s refs).2 o = some d' →
      d'.dependent_tasks ≠ [] ∨ d'.dependent_workers ≠ [] := by
  induction refs with
  | nil =>
    intro wentry s h
    exact h
  | cons ref rest ih =>
    intro wentry s h
    rw [recordWaitDeps_cons]
    apply ih
    intro o d' hd
    rcases recordWaitDep_index_rev w s wentry ref o d' hd with h1 | ⟨_, _, _, h1⟩
    · exact h o d' h1
    · rw [h1]
      exact Or.inr (sInsert_ne_nil _ _)

/-- `SubscribeGetDependencies` preserves the full invariant. -/
theorem subscribeGet_full (s : TDM) (t : TaskID) (refs : List ObjectReference)
    (X : WFx s) : WFx (SubscribeGetDependencies s t refs).2.2 := by
  obtain ⟨hl, hp, hw, hrt, htd⟩ := subGet_state s t refs
  have hframe := recordGetDeps_frame t refs
    ((alGet s.task_dependencies t).getD ⟨[], 0⟩) s
  have hidxS : ∀ o, indexGet (SubscribeGetDependencies s t refs).2.2 o =
      indexGet (recordGetDeps t ((alGet s.task_dependencies t).getD ⟨[], 0⟩)
        s refs).2 o :=
    fun o => indexGet_congr _ _ o hrt
  have hbaseC : ((alGet s.task_dependencies t).getD
        (⟨[], 0⟩ : TaskDependencies)).num_missing_get_dependencies =
      ((((alGet s.task_dependencies t).getD
        (⟨[], 0⟩ : TaskDependencies)).get_dependencies.filter
        (fun o => o ∉ s.local_objects)).length : Int) := by
    cases h0 : alGet s.task_dependencies t with
    | none => simp
    | some te0 =>
      simp only [Option.getD_some]
      exact X.missingCount t te0 h0
  have hbaseI : ∀ o ∈ ((alGet s.task_dependencies t).getD
        (⟨[], 0⟩ : TaskDependencies)).get_dependencies,
      ∃ d, indexGet s o = some d ∧ t ∈ d.dependent_tasks := by
    cases h0 : alGet s.task_dependencies t with
    | none => simp
    | some te0 =>
      simp only [Option.getD_some]
      exact X.getDepsIndexed t te0 h0
  refine ⟨subscribeGet_lite s t refs X.lite, ?_, ?_, ?_, ?_, ?_, ?_⟩
  · intro t' te' hte'
    rw [htd, alGet_set] at hte'
    rw [hl]
    by_cases he : t' = t
    · rw [if_pos he] at hte'
      injection hte' with hte'
      rw [← hte']
      exact recordGetDeps_count t refs _ s hbaseC
    · rw [if_neg he] at hte'
      exact X.missingCount t' te' hte'
  · intro t' te' hte' o ho
    rw [htd, alGet_set] at hte'
    by_cases he : t' = t
    · rw [if_pos he] at hte'
      injection hte' with hte'
      rw [← hte'] at ho
      obtain ⟨d, hd, ht⟩ := recordGetDeps_self_indexed t refs _ s hbaseI o ho
      rw [he]
      exact ⟨d, (hidxS o).trans hd, ht⟩
    · rw [if_neg he] at hte'
      obtain ⟨d, hd, ht⟩ := X.getDepsIndexed t' te' hte' o ho
      obtain ⟨d', hd', _, _, hdt⟩ := recordGetDeps_index t refs _ s o d hd
      refine ⟨d', (hidxS o).trans hd', ?_⟩
      rcases hdt with h2 | h2
      · rw [h2]
        exact ht
      · rw [h2]
        exact (mem_sInsert _ _ _).mpr (Or.inr ht)
  · intro w' wd hw' o ho
    rw [hw] at hw'
    obtain ⟨d, hd, hwm⟩ := X.wdIndexed w' wd hw' o ho
    obtain ⟨d', hd', _, hww, _⟩ := recordGetDeps_index t refs _ s o d hd
    refine ⟨d', (hidxS o).trans hd', ?_⟩
    rw [hww]
    exact hwm
  · intro o hm
    rw [subGet_req_mem] at hm
    rw [hidxS o]
    rcases hm with hm | ⟨_, hreq⟩
    · have h0 := X.reqIndexed o hm
      obtain ⟨d, hd⟩ := Option.isSome_iff_exists.mp h0
      obtain ⟨d', hd', _⟩ := recordGetDeps_index t refs _ s o d hd
      rw [hd']
      rfl
    · have h0 := ((objectIsRequired_iff _ _).mp hreq).1
      have h1 : indexGet (subGetMid s t refs) o =
          indexGet (recordGetDeps t ((alGet s.task_dependencies t).getD ⟨[], 0⟩)
            s refs).2 o := indexGet_congr _ _ o rfl
      rw [h1] at h0
      exact h0
  · intro o hm
    rw [subGet_req_mem] at hm
    rw [hp]
    rcases hm with hm | ⟨_, hreq⟩
    · exact X.reqPend o hm
    · have h0 := ((objectIsRequired_iff _ _).mp hreq).2.2
      have h1 : (subGetMid s t refs).pending_tasks = s.pending_tasks :=
        hframe.2.2.2.1
      rw [h1] at h0
      exact h0
  · intro o d' hd'
    rw [hidxS o] at hd'
    exact recordGetDeps_noEmpty t refs _ s X.noEmpty o d' hd'

/-- `SubscribeWaitDependencies` preserves the full invariant. -/
theorem subscribeWait_full (s : TDM) (w : WorkerID) (refs : List ObjectReference)
    (X : WFx s) : WFx (SubscribeWaitDependencies s w refs).2 := by
  obtain ⟨hl, hp, htd, hrt, hwd⟩ := subWait_state s w refs
  have hframe := recordWaitDeps_frame w refs
    ((alGet s.worker_dependencies w).getD []) s
  have hidxS : ∀ o, indexGet (SubscribeWaitDependencies s w refs).2 o =
      indexGet (recordWaitDeps w ((alGet s.worker_dependencies w).getD [])
        s refs).2 o :=
    fun o => indexGet_congr _ _ o hrt
  have hbaseW : ∀ o ∈ ((alGet s.worker_dependencies w).getD ([] : List ObjectID)),
      ∃ d, indexGet s o = some d ∧ w ∈ d.dependent_workers := by
    cases h0 : alGet s.worker_dependencies w with
    | none => simp
    | some wd0 =>
      simp only [Option.getD_some]
      exact X.wdIndexed w wd0 h0
  refine ⟨subscribeWait_lite s w refs X.lite, ?_, ?_, ?_, ?_, ?_, ?_⟩
  · intro t' te' hte'
    rw [htd] at hte'
    rw [hl]
    exact X.missingCount t' te' hte'
  · intro t' te' hte' o ho
    rw [htd] at hte'
    obtain ⟨d, hd, ht⟩ := X.getDepsIndexed t' te' hte' o ho
    obtain ⟨d', hd', _, hdt, _⟩ := recordWaitDeps_index w refs _ s o d hd
    refine ⟨d', (hidxS o).trans hd', ?_⟩
    rw [hdt]
    exact ht
  · intro w' wd hw' o ho
    rw [hwd, alGet_set] at hw'
    by_cases he : w' = w
    · rw [if_pos he] at hw'
      injection hw' with hw'
      rw [← hw'] at ho
      obtain ⟨d, hd, hwm⟩ := recordWaitDeps_self_indexed w refs _ s hbaseW o ho
      rw [he]
      exact ⟨d, (hidxS o).trans hd, hwm⟩
    · rw [if_neg he] at hw'
      obtain ⟨d, hd, hwm⟩ := X.wdIndexed w' wd hw' o ho
      obtain ⟨d', hd', _, _, hdw⟩ := recordWaitDeps_index w refs _ s o d hd
      refine ⟨d', (hidxS o).trans hd', ?_⟩
      rcases hdw with h2 | h2
      · rw [h2]
        exact hwm
      · rw [h2]
        exact (mem_sInsert _ _ _).mpr (Or.inr hwm)
  · intro o hm
    rw [subWait_req_mem] at hm
    rw [hidxS o]
    rcases hm with hm | ⟨_, hreq⟩
    · have h0 := X.reqIndexed o hm
      obtain ⟨d, hd⟩ := Option.isSome_iff_exists.mp h0
      obtain ⟨d', hd', _⟩ := recordWaitDeps_index w refs _ s o d hd
      rw [hd']
      rfl
    · have h0 := ((objectIsRequired_iff _ _).mp hreq).1
      have h1 : indexGet (subWaitMid s w refs) o =
          indexGet (recordWaitDeps w ((alGet s.worker_dependencies w).getD [])
            s refs).2 o := indexGet_congr _ _ o rfl
      rw [h1] at h0
      exact h0
  · intro o hm
    rw [subWait_req_mem] at hm
    rw [hp]
    rcases hm with hm | ⟨_, hreq⟩
    · exact X.reqPend o hm
    · have h0 := ((objectIsRequired_iff _ _).mp hreq).2.2
      have h1 : (subWaitMid s w refs).pending_tasks = s.pending_tasks :=
        hframe.2.2.2.1
      rw [h1] at h0
      exact h0
  · intro o d' hd'
    rw [hidxS o] at hd'
    exact recordWaitDeps_noEmpty w refs _ s X.noEmpty o d' hd'

theorem empty_eq_true_iff (d : ObjectDependencies) :
    d.Empty = true ↔ d.dependent_tasks = [] ∧ d.dependent_workers = [] := by
  unfold ObjectDependencies.Empty
  simp [List.isEmpty_iff]

theorem empty_false_nonempty (d : ObjectDependencies) (h : d.Empty = false) :
    d.dependent_tasks ≠ [] ∨ d.dependent_workers ≠ [] := by
  by_contra hc
  push_neg at hc
  unfold ObjectDependencies.Empty at h
  rw [hc.1, hc.2] at h
  simp at h

theorem dropTask_eq_some (t : TaskID) (d0 : ObjectDependencies)
    (h : ¬ (ObjectDependencies.Empty
      { d0 with dependent_tasks := d0.dependent_tasks.filter (· ≠ t) }) = true) :
    dropTask t (some d0) =
      some { d0 with dependent_tasks := d0.dependent_tasks.filter (· ≠ t) } := by
  simp only [dropTask]
  rw [if_neg h]

theorem dropWorker_eq_some (w : WorkerID) (d0 : ObjectDependencies)
    (h : ¬ (ObjectDependencies.Empty
      { d0 with dependent_workers := d0.dependent_workers.filter (· ≠ w) }) = true) :
    dropWorker w (some d0) =
      some { d0 with dependent_workers := d0.dependent_workers.filter (· ≠ w) } := by
  simp only [dropWorker]
  rw [if_neg h]

theorem dropTask_kept (t : TaskID) (od : Option ObjectDependencies)
    (d : ObjectDependencies) (h : dropTask t od = some d) : d.Empty = false := by
  cases od with
  | none => exact absurd h (by simp [dropTask])
  | some d0 =>
    simp only [dropTask] at h
    by_cases he : (ObjectDependencies.Empty
        { d0 with dependent_tasks := d0.dependent_tasks.filter (· ≠ t) }) = true
    · rw [if_pos he] at h
      exact absurd h (by simp)
    · rw [if_neg he] at h
      injection h with h
      rw [← h]
      exact Bool.eq_false_iff.mpr he

theorem dropWorker_kept (w : WorkerID) (od : Option ObjectDependencies)
    (d : ObjectDependencies) (h : dropWorker w od = some d) : d.Empty = false := by
  cases od with
  | none => exact absurd h (by simp [dropWorker])
  | some d0 =>
    simp only [dropWorker] at h
    by_cases he : (ObjectDependencies.Empty
        { d0 with dependent_workers := d0.dependent_workers.filter (· ≠ w) }) = true
    · rw [if_pos he] at h
      exact absurd h (by simp)
    · rw [if_neg he] at h
      injection h with h
      rw [← h]
      exact Bool.eq_false_iff.mpr he

/-- `UnsubscribeGetDependencies` preserves the full invariant whenever it
returns. -/
theorem unsubscribeGet_full (s : TDM) (t : TaskID) (r : Bool × List Call × TDM)
    (X : WFx s) (h : UnsubscribeGetDependencies s t = some r) : WFx r.2.2 := by
  have hlite := unsubscribeGet_lite s t r X.lite h
  unfold UnsubscribeGetDependencies at h
  cases h0 : alGet s.task_dependencies t with
  | none =>
    rw [h0] at h
    injection h with h
    rw [← h]
    exact X
  | some entry =>
    simp only [h0] at h
    cases h2 : removeTaskDeps t
        { s with task_dependencies := alErase s.task_dependencies t }
        entry.get_dependencies with
    | none =>
      rw [h2] at h
      exact absurd h (by simp)
    | some s2 =>
      simp only [h2] at h
      injection h with h
      rw [← h] at hlite ⊢
      have hnd : entry.get_dependencies.Nodup := X.lite.getDepsNodup t entry h0
      obtain ⟨f1, f2, f3, f4, f5, hpt⟩ := removeTaskDeps_state t _ _ s2 h2 hnd
      have hidx2 : ∀ o, indexGet s2 o =
          if o ∈ entry.get_dependencies then dropTask t (indexGet s o)
          else indexGet s o := by
        intro o
        rw [hpt o]
        have h3 : indexGet { s with
            task_dependencies := alErase s.task_dependencies t } o =
            indexGet s o := indexGet_congr _ _ o rfl
        rw [h3]
      have hcf := cancelAll_frame s2 entry.get_dependencies
      have hidxf : ∀ o, indexGet (cancelAll s2 entry.get_dependencies).1 o =
          indexGet s2 o := fun o => indexGet_congr _ _ o hcf.2.2.2.1
      have hmemf : ∀ o, o ∈ (cancelAll s2 entry.get_dependencies).1.required_objects ↔
          o ∈ s.required_objects ∧
            (o ∉ entry.get_dependencies ∨ objectIsRequired s2 o = true) := by
        intro o
        rw [mem_cancelAll, f5]
      refine ⟨hlite, ?_, ?_, ?_, ?_, ?_, ?_⟩
      · intro t' te' hte'
        rw [hcf.2.1, f2] at hte'
        have hte2 : alGet (alErase s.task_dependencies t) t' = some te' := hte'
        rw [alGet_erase] at hte2
        by_cases he : t' = t
        · rw [if_pos he] at hte2
          exact absurd hte2 (by simp)
        · rw [if_neg he] at hte2
          rw [hcf.1, f1]
          show te'.num_missing_get_dependencies =
            ((te'.get_dependencies.filter (fun o => o ∉ s.local_objects)).length : Int)
          exact X.missingCount t' te' hte2
      · intro t' te' hte' o ho
        rw [hcf.2.1, f2] at hte'
        have hte2 : alGet (alErase s.task_dependencies t) t' = some te' := hte'
        rw [alGet_erase] at hte2
        by_cases he : t' = t
        · rw [if_pos he] at hte2
          exact absurd hte2 (by simp)
        · rw [if_neg he] at hte2
          obtain ⟨d, hd, htm⟩ := X.getDepsIndexed t' te' hte2 o ho
          rw [hidxf o, hidx2 o]
          by_cases hmem : o ∈ entry.get_dependencies
          · rw [if_pos hmem, hd]
            have hfm : t' ∈ d.dependent_tasks.filter (· ≠ t) :=
              List.mem_filter.mpr ⟨htm, by simpa using he⟩
            have hne : ¬ (ObjectDependencies.Empty
                { d with dependent_tasks :=
                    d.dependent_tasks.filter (· ≠ t) }) = true := by
              rw [empty_eq_true_iff]
              rintro ⟨h1, _⟩
              have h1x : d.dependent_tasks.filter (· ≠ t) = [] := h1
              rw [h1x] at hfm
              exact absurd hfm (List.not_mem_nil t')
            exact ⟨_, dropTask_eq_some t d hne, hfm⟩
          · rw [if_neg hmem]
            exact ⟨d, hd, htm⟩
      · intro w' wd hw' o ho
        rw [hcf.2.2.1, f3] at hw'
        have hw2 : alGet s.worker_dependencies w' = some wd := hw'
        obtain ⟨d, hd, hwm⟩ := X.wdIndexed w' wd hw2 o ho
        rw [hidxf o, hidx2 o]
        by_cases hmem : o ∈ entry.get_dependencies
        · rw [if_pos hmem, hd]
          have hne : ¬ (ObjectDependencies.Empty
              { d with dependent_tasks :=
                  d.dependent_tasks.filter (· ≠ t) }) = true := by
            rw [empty_eq_true_iff]
            rintro ⟨_, h2w⟩
            have h2x : d.dependent_workers = [] := h2w
            rw [h2x] at hwm
            exact absurd hwm (List.not_mem_nil w')
          exact ⟨_, dropTask_eq_some t d hne, hwm⟩
        · rw [if_neg hmem]
          exact ⟨d, hd, hwm⟩
      · intro o hm
        rw [hmemf o] at hm
        rw [hidxf o]
        rcases hm.2 with hnm | hreq
        · rw [hidx2 o, if_neg hnm]
          exact X.reqIndexed o hm.1
        · exact ((objectIsRequired_iff _ _).mp hreq).1
      · intro o hm
        rw [hmemf o] at hm
        rw [hcf.2.2.2.2, f4]
        show o.taskId ∉ s.pending_tasks
        exact X.reqPend o hm.1
      · intro o d' hd'
        rw [hidxf o, hidx2 o] at hd'
        by_cases hmem : o ∈ entry.get_dependencies
        · rw [if_pos hmem] at hd'
          exact empty_false_nonempty d' (dropTask_kept t _ d' hd')
        · rw [if_neg hmem] at hd'
          exact X.noEmpty o d' hd'

/-- `UnsubscribeWaitDependencies` preserves the full invariant whenever it
returns. -/
theorem unsubscribeWait_full (s : TDM) (w : WorkerID) (r : List Call × TDM)
    (X : WFx s) (h : UnsubscribeWaitDependencies s w = some r) : WFx r.2 := by
  have hlite := unsubscribeWait_lite s w r X.lite h
  unfold UnsubscribeWaitDependencies at h
  cases h0 : alGet s.worker_dependencies w with
  | none =>
    rw [h0] at h
    injection h with h
    rw [← h]
    exact X
  | some wentry =>
    simp only [h0] at h
    cases h2 : removeWorkerDeps w
        { s with worker_dependencies := alErase s.worker_dependencies w }
        wentry with
    | none =>
      rw [h2] at h
      exact absurd h (by simp)
    | some s2 =>
      simp only [h2] at h
      injection h with h
      rw [← h] at hlite ⊢
      have hnd : wentry.Nodup := X.lite.wdNodup w wentry h0
      obtain ⟨f1, f2, f3, f4, f5, hpt⟩ := removeWorkerDeps_state w _ _ s2 h2 hnd
      have hidx2 : ∀ o, indexGet s2 o =
          if o ∈ wentry then dropWorker w (indexGet s o)
          else indexGet s o := by
        intro o
        rw [hpt o]
        have h3 : indexGet { s with
            worker_dependencies := alErase s.worker_dependencies w } o =
            indexGet s o := indexGet_congr _ _ o rfl
        rw [h3]
      have hcf := cancelAll_frame s2 wentry
      have hidxf : ∀ o, indexGet (cancelAll s2 wentry).1 o = indexGet s2 o :=
        fun o => indexGet_congr _ _ o hcf.2.2.2.1
      have hmemf : ∀ o, o ∈ (cancelAll s2 wentry).1.required_objects ↔
          o ∈ s.required_objects ∧
            (o ∉ wentry ∨ objectIsRequired s2 o = true) := by
        intro o
        rw [mem_cancelAll, f5]
      refine ⟨hlite, ?_, ?_, ?_, ?_, ?_, ?_⟩
      · intro t' te' hte'
        rw [hcf.2.1, f2] at hte'
        have hte2 : alGet s.task_dependencies t' = some te' := hte'
        rw [hcf.1, f1]
        show te'.num_missing_get_dependencies =
          ((te'.get_dependencies.filter (fun o => o ∉ s.local_objects)).length : Int)
        exact X.missingCount t' te' hte2
      · intro t' te' hte' o ho
        rw [hcf.2.1, f2] at hte'
        have hte2 : alGet s.task_dependencies t' = some te' := hte'
        obtain ⟨d, hd, htm⟩ := X.getDepsIndexed t' te' hte2 o ho
        rw [hidxf o, hidx2 o]
        by_cases hmem : o ∈ wentry
        · rw [if_pos hmem, hd]
          have hne : ¬ (ObjectDependencies.Empty
              { d with dependent_workers :=
                  d.dependent_workers.filter (· ≠ w) }) = true := by
            rw [empty_eq_true_iff]
            rintro ⟨h1, _⟩
            have h1x : d.dependent_tasks = [] := h1
            rw [h1x] at htm
            exact absurd htm (List.not_mem_nil t')
          exact ⟨_, dropWorker_eq_some w d hne, htm⟩
        · rw [if_neg hmem]
          exact ⟨d, hd, htm⟩
      · intro w' wd hw' o ho
        rw [hcf.2.2.1, f3] at hw'
        have hw2 : alGet (alErase s.worker_dependencies w) w' = some wd := hw'
        rw [alGet_erase] at hw2
        by_cases he : w' = w
        · rw [if_pos he] at hw2
          exact absurd hw2 (by simp)
        · rw [if_neg he] at hw2
          obtain ⟨d, hd, hwm⟩ := X.wdIndexed w' wd hw2 o ho
          rw [hidxf o, hidx2 o]
          by_cases hmem : o ∈ wentry
          · rw [if_pos hmem, hd]
            have hfm : w' ∈ d.dependent_workers.filter (· ≠ w) :=
              List.mem_filter.mpr ⟨hwm, by simpa using he⟩
            have hne : ¬ (ObjectDependencies.Empty
                { d with dependent_workers :=
                    d.dependent_workers.filter (· ≠ w) }) = true := by
              rw [empty_eq_true_iff]
              rintro ⟨_, h2w⟩
              have h2x : d.dependent_workers.filter (· ≠ w) = [] := h2w
              rw [h2x] at hfm
              exact absurd hfm (List.not_mem_nil w')
            exact ⟨_, dropWorker_eq_some w d hne, hfm⟩
          · rw [if_neg hmem]
            exact ⟨d, hd, hwm⟩
      · intro o hm
        rw [hmemf o] at hm
        rw [hidxf o]
        rcases hm.2 with hnm | hreq
        · rw [hidx2 o, if_neg hnm]
          exact X.reqIndexed o hm.1
        · exact ((objectIsRequired_iff _ _).mp hreq).1
      · intro o hm
        rw [hmemf o] at hm
        rw [hcf.2.2.2.2, f4]
        show o.taskId ∉ s.pending_tasks
        exact X.reqPend o hm.1
      · intro o d' hd'
        rw [hidxf o, hidx2 o] at hd'
        by_cases hmem : o ∈ wentry
        · rw [if_pos hmem] at hd'
          exact empty_false_nonempty d' (dropWorker_kept w _ d' hd')
        · rw [if_neg hmem] at hd'
          exact X.noEmpty o d' hd'

/-- `HandleObjectLocal` preserves the full invariant whenever it returns. -/
theorem handleObjectLocal_full (s : TDM) (o : ObjectID)
    (r : List TaskID × List Call × TDM) (X : WFx s)
    (h : HandleObjectLocal s o = some r) : WFx r.2.2 := by
  have hlite := handleObjectLocal_lite s o r X.lite h
  have hnl : o ∉ s.local_objects := by
    intro hc
    unfold HandleObjectLocal at h
    rw [if_pos hc] at h
    exact absurd h (by simp)
  cases hio : indexGet s o with
  | none =>
    obtain ⟨r1, hr1, _, e1, e2, e3, e4, e5, hmem⟩ :=
      handleObjectLocal_spec_none s o hnl hio
    rw [h] at hr1
    injection hr1 with he
    rw [← he] at e1 e2 e3 e4 e5 hmem
    have hidx : ∀ o', indexGet r.2.2 o' = indexGet s o' :=
      fun o' => indexGet_congr _ _ o' e5
    have hnogd : ∀ t' te', alGet s.task_dependencies t' = some te' →
        o ∉ te'.get_dependencies := by
      intro t' te' hte' hc
      obtain ⟨d2, hd2, _⟩ := X.getDepsIndexed t' te' hte' o hc
      rw [hio] at hd2
      exact absurd hd2 (by simp)
    refine ⟨hlite, ?_, ?_, ?_, ?_, ?_, ?_⟩
    · intro t' te' hte'
      rw [e3] at hte'
      rw [e1]
      have hcong : te'.get_dependencies.filter
          (fun x => decide (x ∉ o :: s.local_objects)) =
          te'.get_dependencies.filter (fun x => decide (x ∉ s.local_objects)) := by
        apply List.filter_congr
        intro x hx
        have hne : x ≠ o := fun heq => hnogd t' te' hte' (heq ▸ hx)
        simp [List.mem_cons, hne]
      show te'.num_missing_get_dependencies =
        ((te'.get_dependencies.filter
          (fun x => decide (x ∉ o :: s.local_objects))).length : Int)
      rw [hcong]
      exact X.missingCount t' te' hte'
    · intro t' te' hte' o' ho'
      rw [e3] at hte'
      obtain ⟨d2, hd2, ht2⟩ := X.getDepsIndexed t' te' hte' o' ho'
      exact ⟨d2, (hidx o').trans hd2, ht2⟩
    · intro w' wd hw' o' ho'
      rw [e4] at hw'
      obtain ⟨d2, hd2, hwm⟩ := X.wdIndexed w' wd hw' o' ho'
      exact ⟨d2, (hidx o').trans hd2, hwm⟩
    · intro o' hm
      rw [hmem o'] at hm
      rw [hidx o']
      exact X.reqIndexed o' hm.1
    · intro o' hm
      rw [hmem o'] at hm
      rw [e2]
      exact X.reqPend o' hm.1
    · intro o' d' hd'
      rw [hidx o'] at hd'
      exact X.noEmpty o' d' hd'
  | some d =>
    obtain ⟨r1, hr1, _, e1, e2, htd, hwd, hidx, _, hmem⟩ :=
      handleObjectLocal_spec_some s o d X.lite hnl hio
    rw [h] at hr1
    injection hr1 with he
    rw [← he] at e1 e2 htd hwd hidx hmem
    refine ⟨hlite, ?_, ?_, ?_, ?_, ?_, ?_⟩
    · intro t' te' hte'
      rw [htd t'] at hte'
      rw [e1]
      by_cases hm : t' ∈ d.dependent_tasks
      · rw [if_pos hm] at hte'
        obtain ⟨te, hte2, hmo⟩ := X.lite.depTasksOK o d hio t' hm
        rw [hte2] at hte'
        simp only [Option.getD_some] at hte'
        injection hte' with hte'
        rw [← hte']
        have hnd := X.lite.getDepsNodup t' te hte2
        have hbr : te.get_dependencies.filter
            (fun x => decide (x ∉ o :: s.local_objects)) =
            te.get_dependencies.filter
              (fun x => decide (x ≠ o) && decide (x ∉ s.local_objects)) := by
          apply List.filter_congr
          intro x _
          by_cases h1 : x = o <;> by_cases h2 : x ∈ s.local_objects <;>
            simp [List.mem_cons, h1, h2, hnl]
        have hlen := length_filter_drop te.get_dependencies
          (fun x => decide (x ∉ s.local_objects)) o hnd hmo (by simp [hnl])
        show te.num_missing_get_dependencies - 1 =
          ((te.get_dependencies.filter
            (fun x => decide (x ∉ o :: s.local_objects))).length : Int)
        rw [hbr, X.missingCount t' te hte2, hlen]
        push_cast
        ring
      · rw [if_neg hm] at hte'
        have hnogd : o ∉ te'.get_dependencies := by
          intro hc
          obtain ⟨d2, hd2, ht2⟩ := X.getDepsIndexed t' te' hte' o hc
          rw [hio] at hd2
          injection hd2 with hd2
          rw [← hd2] at ht2
          exact hm ht2
        have hcong : te'.get_dependencies.filter
            (fun x => decide (x ∉ o :: s.local_objects)) =
            te'.get_dependencies.filter
              (fun x => decide (x ∉ s.local_objects)) := by
          apply List.filter_congr
          intro x hx
          have hne : x ≠ o := fun heq => hnogd (heq ▸ hx)
          simp [List.mem_cons, hne]
        show te'.num_missing_get_dependencies =
          ((te'.get_dependencies.filter
            (fun x => decide (x ∉ o :: s.local_objects))).length : Int)
        rw [hcong]
        exact X.missingCount t' te' hte'
    · intro t' te' hte' o' ho'
      rw [htd t'] at hte'
      by_cases hm : t' ∈ d.dependent_tasks
      · rw [if_pos hm] at hte'
        obtain ⟨te, hte2, _⟩ := X.lite.depTasksOK o d hio t' hm
        rw [hte2] at hte'
        simp only [Option.getD_some] at hte'
        injection hte' with hte'
        rw [← hte'] at ho'
        by_cases heo : o' = o
        · refine ⟨{ d with dependent_workers := ([] : List WorkerID) }, ?_, hm⟩
          rw [hidx o', if_pos heo]
          rw [if_neg (by
            intro hc
            rw [List.isEmpty_iff] at hc
            rw [hc] at hm
            exact absurd hm (List.not_mem_nil t'))]
        · obtain ⟨d2, hd2, ht2⟩ := X.getDepsIndexed t' te hte2 o' ho'
          refine ⟨d2, ?_, ht2⟩
          rw [hidx o', if_neg heo]
          exact hd2
      · rw [if_neg hm] at hte'
        obtain ⟨d2, hd2, ht2⟩ := X.getDepsIndexed t' te' hte' o' ho'
        have heo : o' ≠ o := by
          intro heq
          rw [heq, hio] at hd2
          injection hd2 with hd2
          rw [← hd2] at ht2
          exact hm ht2
        refine ⟨d2, ?_, ht2⟩
        rw [hidx o', if_neg heo]
        exact hd2
    · intro w' wd' hw' o' ho'
      rw [hwd w'] at hw'
      by_cases hm : w' ∈ d.dependent_workers
      · rw [if_pos hm] at hw'
        obtain ⟨wd0, hwd0, _⟩ := X.lite.depWorkersOK o d hio w' hm
        rw [hwd0] at hw'
        simp only [Option.getD_some] at hw'
        injection hw' with hw'
        rw [← hw'] at ho'
        rw [List.mem_filter] at ho'
        obtain ⟨ho0, hne0⟩ := ho'
        have heo : o' ≠ o := by simpa using hne0
        obtain ⟨d2, hd2, hwm⟩ := X.wdIndexed w' wd0 hwd0 o' ho0
        refine ⟨d2, ?_, hwm⟩
        rw [hidx o', if_neg heo]
        exact hd2
      · rw [if_neg hm] at hw'
        obtain ⟨d2, hd2, hwm⟩ := X.wdIndexed w' wd' hw' o' ho'
        have heo : o' ≠ o := by
          intro heq
          rw [heq, hio] at hd2
          injection hd2 with hd2
          rw [← hd2] at hwm
          exact hm hwm
        refine ⟨d2, ?_, hwm⟩
        rw [hidx o', if_neg heo]
        exact hd2
    · intro o' hm
      rw [hmem o'] at hm
      rw [hidx o', if_neg hm.2]
      exact X.reqIndexed o' hm.1
    · intro o' hm
      rw [hmem o'] at hm
      rw [e2]
      exact X.reqPend o' hm.1
    · intro o' d' hd'
      rw [hidx o'] at hd'
      by_cases heo : o' = o
      · rw [if_pos heo] at hd'
        by_cases hemp : d.dependent_tasks.isEmpty = true
        · rw [if_pos hemp] at hd'
          exact absurd hd' (by simp)
        · rw [if_neg hemp] at hd'
          injection hd' with hd'
          rw [← hd']
          refine Or.inl ?_
          intro hc
          have hc2 : d.dependent_tasks = [] := hc
          rw [← List.isEmpty_iff] at hc2
          exact hemp hc2
      · rw [if_neg heo] at hd'
        exact X.noEmpty o' d' hd'

/-- `HandleObjectMissing` preserves the full invariant whenever it
returns. -/
theorem handleObjectMissing_full (s : TDM) (o : ObjectID)
    (r : List TaskID × List Call × TDM) (X : WFx s)
    (h : HandleObjectMissing s o = some r) : WFx r.2.2 := by
  have hlite := handleObjectMissing_lite s o r X.lite h
  have hl : o ∈ s.local_objects := by
    by_contra hc
    unfold HandleObjectMissing at h
    rw [if_neg hc] at h
    exact absurd h (by simp)
  cases hio : indexGet s o with
  | none =>
    obtain ⟨r1, hr1, _, e1, e2, e3, e4, e5, hmem⟩ :=
      handleObjectMissing_spec_none s o hl hio
    rw [h] at hr1
    injection hr1 with he
    rw [← he] at e1 e2 e3 e4 e5 hmem
    have hidx : ∀ o', indexGet r.2.2 o' = indexGet s o' :=
      fun o' => indexGet_congr _ _ o' e5
    have hnogd : ∀ t' te', alGet s.task_dependencies t' = some te' →
        o ∉ te'.get_dependencies := by
      intro t' te' hte' hc
      obtain ⟨d2, hd2, _⟩ := X.getDepsIndexed t' te' hte' o hc
      rw [hio] at hd2
      exact absurd hd2 (by simp)
    refine ⟨hlite, ?_, ?_, ?_, ?_, ?_, ?_⟩
    · intro t' te' hte'
      rw [e3] at hte'
      rw [e1]
      have hcong : te'.get_dependencies.filter
          (fun x => decide (x ∉ s.local_objects.filter (· ≠ o))) =
          te'.get_dependencies.filter (fun x => decide (x ∉ s.local_objects)) := by
        apply List.filter_congr
        intro x hx
        have hne : x ≠ o := fun heq => hnogd t' te' hte' (heq ▸ hx)
        simp [List.mem_filter, hne]
      show te'.num_missing_get_dependencies =
        ((te'.get_dependencies.filter
          (fun x => decide (x ∉ s.local_objects.filter (· ≠ o)))).length : Int)
      rw [hcong]
      exact X.missingCount t' te' hte'
    · intro t' te' hte' o' ho'
      rw [e3] at hte'
      obtain ⟨d2, hd2, ht2⟩ := X.getDepsIndexed t' te' hte' o' ho'
      exact ⟨d2, (hidx o').trans hd2, ht2⟩
    · intro w' wd hw' o' ho'
      rw [e4] at hw'
      obtain ⟨d2, hd2, hwm⟩ := X.wdIndexed w' wd hw' o' ho'
      exact ⟨d2, (hidx o').trans hd2, hwm⟩
    · intro o' hm
      rw [hmem o'] at hm
      rw [hidx o']
      exact X.reqIndexed o' hm
    · intro o' hm
      rw [hmem o'] at hm
      rw [e2]
      exact X.reqPend o' hm
    · intro o' d' hd'
      rw [hidx o'] at hd'
      exact X.noEmpty o' d' hd'
  | some d =>
    obtain ⟨r1, hr1, _, e1, e2, htd, e4, e5, hmem⟩ :=
      handleObjectMissing_spec_some s o d X.lite hl hio
    rw [h] at hr1
    injection hr1 with he
    rw [← he] at e1 e2 htd e4 e5 hmem
    have hidx : ∀ o', indexGet r.2.2 o' = indexGet s o' :=
      fun o' => indexGet_congr _ _ o' e5
    refine ⟨hlite, ?_, ?_, ?_, ?_, ?_, ?_⟩
    · intro t' te' hte'
      rw [htd t'] at hte'
      rw [e1]
      by_cases hm : t' ∈ d.dependent_tasks
      · rw [if_pos hm] at hte'
        obtain ⟨te, hte2, hmo⟩ := X.lite.depTasksOK o d hio t' hm
        rw [hte2] at hte'
        simp only [Option.getD_some] at hte'
        injection hte' with hte'
        rw [← hte']
        have hnd := X.lite.getDepsNodup t' te hte2
        have hbr : te.get_dependencies.filter
            (fun x => decide (x ∉ s.local_objects.filter (· ≠ o))) =
            te.get_dependencies.filter
              (fun x => decide (x = o) || decide (x ∉ s.local_objects)) := by
          apply List.filter_congr
          intro x _
          by_cases h1 : x = o <;> by_cases h2 : x ∈ s.local_objects <;>
            simp [List.mem_filter, h1, h2, hl]
        have hlen := length_filter_add te.get_dependencies
          (fun x => decide (x ∉ s.local_objects)) o hnd hmo (by simp [hl])
        show te.num_missing_get_dependencies + 1 =
          ((te.get_dependencies.filter
            (fun x => decide (x ∉ s.local_objects.filter (· ≠ o)))).length : Int)
        rw [hbr, X.missingCount t' te hte2, hlen]
        push_cast
        ring
      · rw [if_neg hm] at hte'
        have hnogd : o ∉ te'.get_dependencies := by
          intro hc
          obtain ⟨d2, hd2, ht2⟩ := X.getDepsIndexed t' te' hte' o hc
          rw [hio] at hd2
          injection hd2 with hd2
          rw [← hd2] at ht2
          exact hm ht2
        have hcong : te'.get_dependencies.filter
            (fun x => decide (x ∉ s.local_objects.filter (· ≠ o))) =
            te'.get_dependencies.filter
              (fun x => decide (x ∉ s.local_objects)) := by
          apply List.filter_congr
          intro x hx
          have hne : x ≠ o := fun heq => hnogd (heq ▸ hx)
          simp [List.mem_filter, hne]
        show te'.num_missing_get_dependencies =
          ((te'.get_dependencies.filter
            (fun x => decide (x ∉ s.local_objects.filter (· ≠ o)))).length : Int)
        rw [hcong]
        exact X.missingCount t' te' hte'
    · intro t' te' hte' o' ho'
      rw [htd t'] at hte'
      by_cases hm : t' ∈ d.dependent_tasks
      · rw [if_pos hm] at hte'
        obtain ⟨te, hte2, _⟩ := X.lite.depTasksOK o d hio t' hm
        rw [hte2] at hte'
        simp only [Option.getD_some] at hte'
        injection hte' with hte'
        rw [← hte'] at ho'
        obtain ⟨d2, hd2, ht2⟩ := X.getDepsIndexed t' te hte2 o' ho'
        exact ⟨d2, (hidx o').trans hd2, ht2⟩
      · rw [if_neg hm] at hte'
        obtain ⟨d2, hd2, ht2⟩ := X.getDepsIndexed t' te' hte' o' ho'
        exact ⟨d2, (hidx o').trans hd2, ht2⟩
    · intro w' wd hw' o' ho'
      rw [e4] at hw'
      obtain ⟨d2, hd2, hwm⟩ := X.wdIndexed w' wd hw' o' ho'
      exact ⟨d2, (hidx o').trans hd2, hwm⟩
    · intro o' hm
      rw [hmem o'] at hm
      rw [hidx o']
      rcases hm with hm | ⟨heo, _⟩
      · exact X.reqIndexed o' hm
      · rw [heo, hio]
        rfl
    · intro o' hm
      rw [hmem o'] at hm
      rw [e2]
      rcases hm with hm | ⟨heo, hp⟩
      · exact X.reqPend o' hm
      · rw [heo]
        exact hp
    · intro o' d' hd'
      rw [hidx o'] at hd'
      exact X.noEmpty o' d' hd'

/-- `TaskPending` preserves the full invariant. -/
theorem taskPending_full (s : TDM) (tk : Task) (X : WFx s) :
    WFx (TaskPending s tk).2 := by
  have hlite := taskPending_lite s tk X.lite
  by_cases htr : tk.tracked = true
  · by_cases hp : tk.task_id ∈ s.pending_tasks
    · have hres : (TaskPending s tk).2 = s := by
        unfold TaskPending
        rw [if_pos htr, if_pos hp]
      rw [hres]
      exact X
    · cases hin : alGet s.required_tasks tk.task_id with
      | none =>
        have hres : (TaskPending s tk).2 =
            { s with pending_tasks := tk.task_id :: s.pending_tasks } := by
          unfold TaskPending
          rw [if_pos htr, if_neg hp]
          simp only [hin]
        rw [hres] at hlite ⊢
        refine ⟨hlite, X.missingCount, X.getDepsIndexed, X.wdIndexed,
          X.reqIndexed, ?_, X.noEmpty⟩
        intro o hm
        intro hc
        have hc2 : o.taskId ∈ tk.task_id :: s.pending_tasks := hc
        rcases List.mem_cons.mp hc2 with heq | hc3
        · have h0 := X.reqIndexed o hm
          obtain ⟨d2, hd2⟩ := Option.isSome_iff_exists.mp h0
          have hd3 : indexGet s o = some d2 := hd2
          unfold indexGet at hd3
          rw [heq, hin] at hd3
          exact absurd hd3 (by simp)
        · exact X.reqPend o hm hc3
      | some inner =>
        have hres : (TaskPending s tk).2 =
            (cancelAll { s with pending_tasks := tk.task_id :: s.pending_tasks }
              (inner.map (·.1))).1 := by
          unfold TaskPending
          rw [if_pos htr, if_neg hp]
          simp only [hin]
        rw [hres] at hlite ⊢
        refine ⟨hlite, ?_, ?_, ?_, ?_, ?_, ?_⟩
        · intro t' te' hte'
          rw [(cancelAll_frame _ _).2.1] at hte'
          have hte2 : alGet s.task_dependencies t' = some te' := hte'
          rw [(cancelAll_frame _ _).1]
          show te'.num_missing_get_dependencies =
            ((te'.get_dependencies.filter (fun o => o ∉ s.local_objects)).length : Int)
          exact X.missingCount t' te' hte2
        · intro t' te' hte' o ho
          rw [(cancelAll_frame _ _).2.1] at hte'
          have hte2 : alGet s.task_dependencies t' = some te' := hte'
          obtain ⟨d2, hd2, ht2⟩ := X.getDepsIndexed t' te' hte2 o ho
          refine ⟨d2, ?_, ht2⟩
          rw [indexGet_cancelAll]
          exact hd2
        · intro w' wd hw' o ho
          rw [(cancelAll_frame _ _).2.2.1] at hw'
          have hw2 : alGet s.worker_dependencies w' = some wd := hw'
          obtain ⟨d2, hd2, hwm⟩ := X.wdIndexed w' wd hw2 o ho
          refine ⟨d2, ?_, hwm⟩
          rw [indexGet_cancelAll]
          exact hd2
        · intro o hm
          rw [mem_cancelAll] at hm
          rw [indexGet_cancelAll]
          exact X.reqIndexed o hm.1
        · intro o hm
          rw [mem_cancelAll] at hm
          rw [(cancelAll_frame _ _).2.2.2.2]
          intro hc
          have hc2 : o.taskId ∈ tk.task_id :: s.pending_tasks := hc
          rcases List.mem_cons.mp hc2 with heq | hc3
          · rcases hm.2 with hnos | hreq
            · have h0 := X.reqIndexed o hm.1
              obtain ⟨d2, hd2⟩ := Option.isSome_iff_exists.mp h0
              have hd3 : indexGet s o = some d2 := hd2
              unfold indexGet at hd3
              rw [heq, hin] at hd3
              simp only [Option.some_bind] at hd3
              exact hnos (alGet_mem_keys inner o d2 hd3)
            · have h4 := ((objectIsRequired_iff _ _).mp hreq).2.2
              apply h4
              show o.taskId ∈ tk.task_id :: s.pending_tasks
              rw [heq]
              exact List.mem_cons_self _ _
          · exact X.reqPend o hm.1 hc3
        · intro o d' hd'
          rw [indexGet_cancelAll] at hd'
          exact X.noEmpty o d' hd'
  · have hres : (TaskPending s tk).2 = s := by
      unfold TaskPending
      rw [if_neg htr]
    rw [hres]
    exact X

/-- `TaskCanceled` preserves the full invariant. -/
theorem taskCanceled_full (s : TDM) (t : TaskID) (X : WFx s) :
    WFx (TaskCanceled s t).2 := by
  have hlite := taskCanceled_lite s t X.lite
  by_cases hp : t ∈ s.pending_tasks
  · cases hin : alGet s.required_tasks t with
    | none =>
      have hres : (TaskCanceled s t).2 =
          { s with pending_tasks := s.pending_tasks.filter (· ≠ t) } := by
        unfold TaskCanceled
        rw [if_pos hp]
        simp only [hin]
      rw [hres] at hlite ⊢
      refine ⟨hlite, X.missingCount, X.getDepsIndexed, X.wdIndexed,
        X.reqIndexed, ?_, X.noEmpty⟩
      intro o hm
      intro hc
      have hc2 : o.taskId ∈ s.pending_tasks.filter (· ≠ t) := hc
      exact X.reqPend o hm (List.mem_filter.mp hc2).1
    | some inner =>
      have hres : (TaskCanceled s t).2 =
          (requireAll { s with pending_tasks := s.pending_tasks.filter (· ≠ t) }
            (inner.map (·.1))).1 := by
        unfold TaskCanceled
        rw [if_pos hp]
        simp only [hin]
      rw [hres] at hlite ⊢
      refine ⟨hlite, ?_, ?_, ?_, ?_, ?_, ?_⟩
      · intro t' te' hte'
        rw [(requireAll_frame _ _).2.1] at hte'
        have hte2 : alGet s.task_dependencies t' = some te' := hte'
        rw [(requireAll_frame _ _).1]
        show te'.num_missing_get_dependencies =
          ((te'.get_dependencies.filter (fun o => o ∉ s.local_objects)).length : Int)
        exact X.missingCount t' te' hte2
      · intro t' te' hte' o ho
        rw [(requireAll_frame _ _).2.1] at hte'
        have hte2 : alGet s.task_dependencies t' = some te' := hte'
        obtain ⟨d2, hd2, ht2⟩ := X.getDepsIndexed t' te' hte2 o ho
        refine ⟨d2, ?_, ht2⟩
        rw [indexGet_requireAll]
        exact hd2
      · intro w' wd hw' o ho
        rw [(requireAll_frame _ _).2.2.1] at hw'
        have hw2 : alGet s.worker_dependencies w' = some wd := hw'
        obtain ⟨d2, hd2, hwm⟩ := X.wdIndexed w' wd hw2 o ho
        refine ⟨d2, ?_, hwm⟩
        rw [indexGet_requireAll]
        exact hd2
      · intro o hm
        rw [mem_requireAll] at hm
        rw [indexGet_requireAll]
        rcases hm with hm | ⟨_, hreq⟩
        · exact X.reqIndexed o hm
        · exact ((objectIsRequired_iff _ _).mp hreq).1
      · intro o hm
        rw [mem_requireAll] at hm
        rw [(requireAll_frame _ _).2.2.2.2]
        rcases hm with hm | ⟨_, hreq⟩
        · intro hc
          have hc2 : o.taskId ∈ s.pending_tasks.filter (· ≠ t) := hc
          exact X.reqPend o hm (List.mem_filter.mp hc2).1
        · exact ((objectIsRequired_iff _ _).mp hreq).2.2
      · intro o d' hd'
        rw [indexGet_requireAll] at hd'
        exact X.noEmpty o d' hd'
  · have hres : (TaskCanceled s t).2 = s := by
      unfold TaskCanceled
      rw [if_neg hp]
    rw [hres]
    exact X

/-- Soundness of the collection loop: every collected object was a get
dependency of some purged task (or was already in the accumulator). -/
theorem collectPurge_sound (ts : List TaskID) (x : ObjectID) :
    ∀ (s : TDM) (req : List ObjectID), x ∈ (collectPurge s req ts).1 →
      x ∈ req ∨ ∃ t ∈ ts, ∃ te, alGet s.task_dependencies t = some te ∧
        x ∈ te.get_dependencies := by
  induction ts with
  | nil =>
    intro s req hx
    exact Or.inl (by simpa [collectPurge] using hx)
  | cons t0 rest ih =>
    intro s req hx
    cases halG : alGet s.task_dependencies t0 with
    | none =>
      rw [collectPurge_cons_none _ _ _ _ halG] at hx
      rcases ih _ _ hx with hx | ⟨t, ht, te, hte, hmo⟩
      · exact Or.inl hx
      · have hte2 : alGet (alErase s.task_dependencies t0) t = some te := hte
        rw [alGet_erase] at hte2
        by_cases he : t = t0
        · rw [if_pos he] at hte2
          exact absurd hte2 (by simp)
        · rw [if_neg he] at hte2
          exact Or.inr ⟨t, List.mem_cons_of_mem _ ht, te, hte2, hmo⟩
    | some te0 =>
      rw [collectPurge_cons_some _ _ _ _ _ halG] at hx
      rcases ih _ _ hx with hx | ⟨t, ht, te, hte, hmo⟩
      · rcases (mem_foldl_dedup _ _ _).mp hx with hx | hx
        · exact Or.inl hx
        · exact Or.inr ⟨t0, List.mem_cons_self _ _, te0, halG, hx⟩
      · have hte2 : alGet (alErase s.task_dependencies t0) t = some te := hte
        rw [alGet_erase] at hte2
        by_cases he : t = t0
        · rw [if_pos he] at hte2
          exact absurd hte2 (by simp)
        · rw [if_neg he] at hte2
          exact Or.inr ⟨t, List.mem_cons_of_mem _ ht, te, hte2, hmo⟩

/-- Unfolding of the `RemoveTasksAndRelatedObjects` caller contract. -/
theorem removeContract_spec (s : TDM) (ts : List TaskID)
    (h : removeContract s ts = true) :
    ∀ t ∈ ts, ∀ te, alGet s.task_dependencies t = some te →
    ∀ o ∈ te.get_dependencies, ∀ inner,
      alGet s.required_tasks o.taskId = some inner →
      ∀ p ∈ inner, p.2.dependent_workers = [] ∧
        ∀ t2 ∈ p.2.dependent_tasks, t2 ∈ ts := by
  intro t ht te hte o ho inner hinner p hp
  unfold removeContract at h
  have h1 := List.all_eq_true.mp h t ht
  simp only [hte] at h1
  have h2 := List.all_eq_true.mp h1 o ho
  simp only [hinner] at h2
  have h3 := List.all_eq_true.mp h2 p hp
  rw [Bool.and_eq_true] at h3
  constructor
  · exact List.isEmpty_iff.mp h3.1
  · intro t2 ht2
    have h4 := List.all_eq_true.mp h3.2 t2 ht2
    simpa using h4

/-- `RemoveTasksAndRelatedObjects` preserves the full invariant whenever
it returns and its caller contract holds. -/
theorem removeTasks_full (s : TDM) (ts : List TaskID) (r : List Call × TDM)
    (X : WFx s) (hok : removeContract s ts = true)
    (h : RemoveTasksAndRelatedObjects s ts = some r) : WFx r.2 := by
  have hlite := removeTasks_lite s ts r X.lite h
  have heq : RemoveTasksAndRelatedObjects s ts =
      (if ts.all (fun t => (alGet (purgeObjects (collectPurge s [] ts).2 []
          (collectPurge s [] ts).1).1.required_tasks t).isNone)
       then some ((purgeObjects (collectPurge s [] ts).2 []
            (collectPurge s [] ts).1).2,
          (purgeObjects (collectPurge s [] ts).2 []
            (collectPurge s [] ts).1).1)
       else none) := rfl
  rw [heq] at h
  by_cases hall : ts.all (fun t => (alGet (purgeObjects (collectPurge s [] ts).2 []
      (collectPurge s [] ts).1).1.required_tasks t).isNone) = true
  case neg =>
    rw [if_neg hall] at h
    exact absurd h (by simp)
  case pos =>
    rw [if_pos hall] at h
    injection h with h2
    obtain ⟨c1, c2, c3, c4, c5, c6⟩ := collectPurge_state ts s []
    obtain ⟨p1, p2, p3, p4, p5, p6⟩ :=
      purgeObjects_state (collectPurge s [] ts).1 (collectPurge s [] ts).2 []
    have h3 : r.2 =
        (purgeObjects (collectPurge s [] ts).2 [] (collectPurge s [] ts).1).1 := by
      rw [← h2]
    rw [h3] at hlite ⊢
    have hwdeq : (purgeObjects (collectPurge s [] ts).2 []
        (collectPurge s [] ts).1).1.worker_dependencies = s.worker_dependencies :=
      p3.trans c2
    have hleq : (purgeObjects (collectPurge s [] ts).2 []
        (collectPurge s [] ts).1).1.local_objects = s.local_objects :=
      p1.trans c1
    have hidx : ∀ o2 : ObjectID,
        indexGet (purgeObjects (collectPurge s [] ts).2 []
          (collectPurge s [] ts).1).1 o2 =
        if o2.taskId ∈ (collectPurge s [] ts).1.map (·.taskId) then none
        else indexGet s o2 := by
      intro o2
      unfold indexGet
      rw [p5 o2.taskId, c3]
      by_cases hm : o2.taskId ∈ (collectPurge s [] ts).1.map (·.taskId)
      · rw [if_pos hm, if_pos hm]
        rfl
      · rw [if_neg hm, if_neg hm]
    have hsafe : ∀ (o : ObjectID) (d2 : ObjectDependencies),
        indexGet s o = some d2 →
        (d2.dependent_workers ≠ [] ∨ ∃ t2 ∈ d2.dependent_tasks, t2 ∉ ts) →
        o.taskId ∉ (collectPurge s [] ts).1.map (·.taskId) := by
      intro o d2 hd2 hwit hc
      obtain ⟨o2, ho2c, ho2e⟩ := List.mem_map.mp hc
      rcases collectPurge_sound ts o2 s [] ho2c with hx | ⟨t0, ht0, te0, hte0, hging⟩
      · exact absurd hx (List.not_mem_nil o2)
      · have hd2' := hd2
        unfold indexGet at hd2'
        cases halr : alGet s.required_tasks o.taskId with
        | none =>
          rw [halr] at hd2'
          exact absurd hd2' (by simp)
        | some inner =>
          rw [halr] at hd2'
          simp only [Option.some_bind] at hd2'
          have halr2 : alGet s.required_tasks o2.taskId = some inner := by
            rw [ho2e]
            exact halr
          have hpair : (o, d2) ∈ inner := alGet_mem inner o d2 hd2'
          have hspec := removeContract_spec s ts hok t0 ht0 te0 hte0 o2 hging
            inner halr2 (o, d2) hpair
          rcases hwit with hwne | ⟨t2, htm, hnot⟩
          · exact hwne hspec.1
          · exact hnot (hspec.2 t2 htm)
    refine ⟨hlite, ?_, ?_, ?_, ?_, ?_, ?_⟩
    · intro t' te' hte'
      rw [p2, c5 t'] at hte'
      by_cases ht : t' ∈ ts
      · rw [if_pos ht] at hte'
        exact absurd hte' (by simp)
      · rw [if_neg ht] at hte'
        rw [hleq]
        exact X.missingCount t' te' hte'
    · intro t' te' hte' o ho
      rw [p2, c5 t'] at hte'
      by_cases ht : t' ∈ ts
      · rw [if_pos ht] at hte'
        exact absurd hte' (by simp)
      · rw [if_neg ht] at hte'
        obtain ⟨d2, hd2, ht2⟩ := X.getDepsIndexed t' te' hte' o ho
        have hsf := hsafe o d2 hd2 (Or.inr ⟨t', ht2, ht⟩)
        refine ⟨d2, ?_, ht2⟩
        rw [hidx o, if_neg hsf]
        exact hd2
    · intro w' wd hw' o ho
      rw [hwdeq] at hw'
      obtain ⟨d2, hd2, hwm⟩ := X.wdIndexed w' wd hw' o ho
      have hsf := hsafe o d2 hd2 (Or.inl (by
        intro hcw
        rw [hcw] at hwm
        exact absurd hwm (List.not_mem_nil w')))
      refine ⟨d2, ?_, hwm⟩
      rw [hidx o, if_neg hsf]
      exact hd2
    · intro o hm
      rw [p6 o, c4] at hm
      obtain ⟨hms, hnc⟩ := hm
      have h0 := X.reqIndexed o hms
      obtain ⟨d2, hd2⟩ := Option.isSome_iff_exists.mp h0
      rcases X.noEmpty o d2 hd2 with htne | hwne
      · obtain ⟨t2, ht2⟩ := List.exists_mem_of_ne_nil _ htne
        by_cases hts : t2 ∈ ts
        · obtain ⟨te2, hte2, ho2⟩ := X.lite.depTasksOK o d2 hd2 t2 ht2
          exact absurd (collectPurge_collect ts t2 te2 o s [] hts hte2 ho2) hnc
        · have hsf := hsafe o d2 hd2 (Or.inr ⟨t2, ht2, hts⟩)
          rw [hidx o, if_neg hsf, hd2]
          rfl
      · have hsf := hsafe o d2 hd2 (Or.inl hwne)
        rw [hidx o, if_neg hsf, hd2]
        rfl
    · intro o hm
      rw [p6 o, c4] at hm
      rw [p4]
      intro hc
      exact X.reqPend o hm.1 ((c6 o.taskId).mp hc).1
    · intro o d' hd'
      rw [hidx o] at hd'
      by_cases hmc : o.taskId ∈ (collectPurge s [] ts).1.map (·.taskId)
      · rw [if_pos hmc] at hd'
        exact absurd hd' (by simp)
      · rw [if_neg hmc] at hd'
        exact X.noEmpty o d' hd'

/-- Every public operation that respects its caller contract preserves the
full invariant whenever it completes. -/
theorem fullStep (s s' : TDM) (op : Op) (X : WFx s)
    (hok : stepOK s op = true) (h : step s op = some s') : WFx s' := by
  cases op with
  | subGet t refs =>
    injection h with h
    rw [← h]
    exact subscribeGet_full s t refs X
  | subWait w refs =>
    injection h with h
    rw [← h]
    exact subscribeWait_full s w refs X
  | unsubGet t =>
    simp only [step] at h
    cases h0 : UnsubscribeGetDependencies s t with
    | none =>
      rw [h0] at h
      exact absurd h (by simp)
    | some r =>
      rw [h0] at h
      injection h with h
      rw [← h]
      exact unsubscribeGet_full s t r X h0
  | unsubWait w =>
    simp only [step] at h
    cases h0 : UnsubscribeWaitDependencies s w with
    | none =>
      rw [h0] at h
      exact absurd h (by simp)
    | some r =>
      rw [h0] at h
      injection h with h
      rw [← h]
      exact unsubscribeWait_full s w r X h0
  | objLocal o =>
    simp only [step] at h
    cases h0 : HandleObjectLocal s o with
    | none =>
      rw [h0] at h
      exact absurd h (by simp)
    | some r =>
      rw [h0] at h
      injection h with h
      rw [← h]
      exact handleObjectLocal_full s o r X h0
  | objMissing o =>
    simp only [step] at h
    cases h0 : HandleObjectMissing s o with
    | none =>
      rw [h0] at h
      exact absurd h (by simp)
    | some r =>
      rw [h0] at h
      injection h with h
      rw [← h]
      exact handleObjectMissing_full s o r X h0
  | taskPend tk =>
    injection h with h
    rw [← h]
    exact taskPending_full s tk X
  | taskCancel t =>
    injection h with h
    rw [← h]
    exact taskCanceled_full s t X
  | removeTasks ts =>
    simp only [step] at h
    cases h0 : RemoveTasksAndRelatedObjects s ts with
    | none =>
      rw [h0] at h
      exact absurd h (by simp)
    | some r =>
      rw [h0] at h
      injection h with h
      rw [← h]
      exact removeTasks_full s ts r X hok h0

/-- The empty manager satisfies the full invariant. -/
theorem emptyTDM_full : WFx emptyTDM := by
  have hidx : ∀ o : ObjectID, indexGet emptyTDM o = none := fun o => rfl
  refine ⟨emptyTDM_lite, ?_, ?_, ?_, ?_, ?_, ?_⟩
  · intro t te hte
    exact absurd hte (by simp [emptyTDM, alGet])
  · intro t te hte
    exact absurd hte (by simp [emptyTDM, alGet])
  · intro w wd hw
    exact absurd hw (by simp [emptyTDM, alGet])
  · intro o hm
    exact absurd hm (by simp [emptyTDM])
  · intro o hm
    exact absurd hm (by simp [emptyTDM])
  · intro o d hd
    rw [hidx o] at hd
    exact absurd hd (by simp)

/-- The full invariant holds along any completed contract-respecting run. -/
theorem fullRunFrom (ops : List Op) :
    ∀ (s s' : TDM), WFx s → goodRun s ops = true →
      runFrom s ops = some s' → WFx s' := by
  induction ops with
  | nil =>
    intro s s' X _ h
    injection h with h
    rw [← h]
    exact X
  | cons op rest ih =>
    intro s s' X hg h
    unfold runFrom at h
    unfold goodRun at hg
    rw [Bool.and_eq_true] at hg
    cases h0 : step s op with
    | none =>
      rw [h0] at h
      exact absurd h (by simp)
    | some s1 =>
      rw [h0] at h
      have hg2 := hg.2
      simp only [h0] at hg2
      exact ih s1 s' (fullStep s s1 op X hg.1 h0) hg2 h

/-- The full invariant holds in every state reached by a completed run
whose `RemoveTasksAndRelatedObjects` calls respect the caller contract. -/
theorem fullRun (ops : List Op) (s : TDM) (hg : goodRun emptyTDM ops = true)
    (h : run ops = some s) : WFx s :=
  fullRunFrom ops emptyTDM s emptyTDM_full hg h

/-- C1: after each operation of a completed run from the empty state whose
`RemoveTasksAndRelatedObjects` calls respect the caller contract, an object
id is in the active-pull set (`required_objects_`) if and only if
`objectIsRequired` holds for it: it is in the required-tasks index, not in
the local registry, and its creator task is not pending (invariant I4).
Without the contract the claim fails (see the counterexample). -/
theorem active_pull_iff_contract (ops : List Op) (s : TDM)
    (hg : goodRun emptyTDM ops = true) (hr : run ops = some s) (o : ObjectID) :
    o ∈ s.required_objects ↔ objectIsRequired s o = true := by
  have X := fullRun ops s hg hr
  constructor
  · intro hm
    rw [objectIsRequired_iff]
    exact ⟨X.reqIndexed o hm, X.lite.disjointLocal o hm, X.reqPend o hm⟩
  · intro hreq
    obtain ⟨h1, h2, h3⟩ := (objectIsRequired_iff _ _).mp hreq
    obtain ⟨d, hd⟩ := Option.isSome_iff_exists.mp h1
    exact X.lite.reqComplete o d hd h2 h3

theorem active_pull_iff_contract_witness :
    (⟨0, 0⟩ : ObjectID) ∈
      (⟨[], [(1, ⟨[⟨0, 0⟩], 1⟩)], [],
        [(0, [(⟨0, 0⟩, ⟨⟨"a"⟩, [1], []⟩)])], [], [⟨0, 0⟩]⟩ : TDM).required_objects ↔
      objectIsRequired
        (⟨[], [(1, ⟨[⟨0, 0⟩], 1⟩)], [],
          [(0, [(⟨0, 0⟩, ⟨⟨"a"⟩, [1], []⟩)])], [], [⟨0, 0⟩]⟩ : TDM) ⟨0, 0⟩ = true :=
  active_pull_iff_contract [Op.subGet 1 [⟨⟨0, 0⟩, ⟨"a"⟩⟩]]
    ⟨[], [(1, ⟨[⟨0, 0⟩], 1⟩)], [],
      [(0, [(⟨0, 0⟩, ⟨⟨"a"⟩, [1], []⟩)])], [], [⟨0, 0⟩]⟩
    (by decide) (by decide) ⟨0, 0⟩

/-- C2: after each operation of a completed run from the empty state whose
`RemoveTasksAndRelatedObjects` calls respect the caller contract, every
subscribed task's missing counter equals the number of its get
dependencies not in the local registry (invariant I3).  Without the
contract the claim fails (see the counterexample). -/
theorem missing_count_contract (ops : List Op) (s : TDM)
    (hg : goodRun emptyTDM ops = true) (hr : run ops = some s)
    (t : TaskID) (te : TaskDependencies)
    (ht : alGet s.task_dependencies t = some te) :
    te.num_missing_get_dependencies =
      ((te.get_dependencies.filter (fun o => o ∉ s.local_objects)).length : Int) :=
  (fullRun ops s hg hr).missingCount t te ht

theorem missing_count_contract_witness :
    (⟨[⟨0, 0⟩], 1⟩ : TaskDependencies).num_missing_get_dependencies =
      (((⟨[⟨0, 0⟩], 1⟩ : TaskDependencies).get_dependencies.filter
        (fun o => o ∉ (⟨[], [(1, ⟨[⟨0, 0⟩], 1⟩)], [],
          [(0, [(⟨0, 0⟩, ⟨⟨"a"⟩, [1], []⟩)])], [], [⟨0, 0⟩]⟩ : TDM).local_objects)).length : Int) :=
  missing_count_contract [Op.subGet 1 [⟨⟨0, 0⟩, ⟨"a"⟩⟩]]
    ⟨[], [(1, ⟨[⟨0, 0⟩], 1⟩)], [],
      [(0, [(⟨0, 0⟩, ⟨⟨"a"⟩, [1], []⟩)])], [], [⟨0, 0⟩]⟩
    (by decide) (by decide) 1 ⟨[⟨0, 0⟩], 1⟩ (by decide)

/-- C8: in any reachable state, `HandleObjectLocal` on an already-local
object aborts (the duplicate-insert `RAY_CHECK`), and `HandleObjectMissing`
on a non-local object aborts (the erase `RAY_CHECK`); under the respective
precondition neither check fires and the operation completes. -/
theorem handle_local_missing_fatal (s : TDM) (o : ObjectID) (h : Reachable s) :
    ((o ∈ s.local_objects → HandleObjectLocal s o = none) ∧
     (o ∉ s.local_objects → (HandleObjectLocal s o).isSome = true)) ∧
    ((o ∉ s.local_objects → HandleObjectMissing s o = none) ∧
     (o ∈ s.local_objects → (HandleObjectMissing s o).isSome = true)) := by
  have W := reachable_lite s h
  refine ⟨⟨?_, ?_⟩, ?_, ?_⟩
  · intro hm
    unfold HandleObjectLocal
    rw [if_pos hm]
  · intro hnl
    cases hio : indexGet s o with
    | none =>
      obtain ⟨r, hr, _⟩ := handleObjectLocal_spec_none s o hnl hio
      rw [hr]
      rfl
    | some d =>
      obtain ⟨r, hr, _⟩ := handleObjectLocal_spec_some s o d W hnl hio
      rw [hr]
      rfl
  · intro hnl
    unfold HandleObjectMissing
    rw [if_neg hnl]
  · intro hm
    cases hio : indexGet s o with
    | none =>
      obtain ⟨r, hr, _⟩ := handleObjectMissing_spec_none s o hm hio
      rw [hr]
      rfl
    | some d =>
      obtain ⟨r, hr, _⟩ := handleObjectMissing_spec_some s o d W hm hio
      rw [hr]
      rfl

theorem handle_local_missing_fatal_witness :
    (((⟨0, 0⟩ : ObjectID) ∈ emptyTDM.local_objects →
        HandleObjectLocal emptyTDM ⟨0, 0⟩ = none) ∧
      ((⟨0, 0⟩ : ObjectID) ∉ emptyTDM.local_objects →
        (HandleObjectLocal emptyTDM ⟨0, 0⟩).isSome = true)) ∧
    (((⟨0, 0⟩ : ObjectID) ∉ emptyTDM.local_objects →
        HandleObjectMissing emptyTDM ⟨0, 0⟩ = none) ∧
      ((⟨0, 0⟩ : ObjectID) ∈ emptyTDM.local_objects →
        (HandleObjectMissing emptyTDM ⟨0, 0⟩).isSome = true)) :=
  handle_local_missing_fatal emptyTDM ⟨0, 0⟩ ⟨[], rfl⟩

/-- C5: in any reachable state where `o` is not local and has a
reverse-index record `d`, `HandleObjectLocal o` returns exactly the
dependent tasks whose missing counter reaches zero by the decrement, the
surviving record's dependent workers are cleared in bulk, and `o` is
removed from each dependent worker's wait set. -/
theorem handleObjectLocal_ready (s : TDM) (o : ObjectID)
    (d : ObjectDependencies) (hreach : Reachable s)
    (hnl : o ∉ s.local_objects) (hd : indexGet s o = some d) :
    ∃ r, HandleObjectLocal s o = some r ∧
      r.1 = d.dependent_tasks.filter (fun t' =>
        ((alGet s.task_dependencies t').getD
          ⟨[], 0⟩).num_missing_get_dependencies - 1 = 0) ∧
      indexGet r.2.2 o =
        (if d.dependent_tasks.isEmpty then none
         else some { d with dependent_workers := ([] : List WorkerID) }) ∧
      (∀ w ∈ d.dependent_workers, alGet r.2.2.worker_dependencies w =
        some (((alGet s.worker_dependencies w).getD []).filter (· ≠ o))) := by
  have W := reachable_lite s hreach
  obtain ⟨r, hr, hready, _, _, _, hwd, hidx, _, _⟩ :=
    handleObjectLocal_spec_some s o d W hnl hd
  refine ⟨r, hr, ?_, ?_, ?_⟩
  · rw [hready]
    apply List.filter_congr
    intro t' _
    rcases lt_trichotomy ((alGet s.task_dependencies t').getD
        (⟨[], 0⟩ : TaskDependencies)).num_missing_get_dependencies 1 with h1 | h1 | h1
    · have h2 : ¬ ((alGet s.task_dependencies t').getD
          (⟨[], 0⟩ : TaskDependencies)).num_missing_get_dependencies = 1 := by omega
      have h3 : ¬ ((alGet s.task_dependencies t').getD
          (⟨[], 0⟩ : TaskDependencies)).num_missing_get_dependencies - 1 = 0 := by omega
      simp [h2, h3]
    · have h3 : ((alGet s.task_dependencies t').getD
          (⟨[], 0⟩ : TaskDependencies)).num_missing_get_dependencies - 1 = 0 := by omega
      simp [h1, h3]
    · have h2 : ¬ ((alGet s.task_dependencies t').getD
          (⟨[], 0⟩ : TaskDependencies)).num_missing_get_dependencies = 1 := by omega
      have h3 : ¬ ((alGet s.task_dependencies t').getD
          (⟨[], 0⟩ : TaskDependencies)).num_missing_get_dependencies - 1 = 0 := by omega
      simp [h2, h3]
  · rw [hidx o, if_pos rfl]
  · intro w hw
    rw [hwd w, if_pos hw]

theorem handleObjectLocal_ready_witness :
    ∃ r, HandleObjectLocal
        (⟨[], [(1, ⟨[⟨0, 0⟩], 1⟩)], [],
          [(0, [(⟨0, 0⟩, ⟨⟨"a"⟩, [1], []⟩)])], [], [⟨0, 0⟩]⟩ : TDM) ⟨0, 0⟩ = some r ∧
      r.1 = ([1] : List TaskID).filter (fun t' =>
        ((alGet (⟨[], [(1, ⟨[⟨0, 0⟩], 1⟩)], [],
          [(0, [(⟨0, 0⟩, ⟨⟨"a"⟩, [1], []⟩)])], [], [⟨0, 0⟩]⟩ : TDM).task_dependencies t').getD
          ⟨[], 0⟩).num_missing_get_dependencies - 1 = 0) ∧
      indexGet r.2.2 ⟨0, 0⟩ =
        (if ([1] : List TaskID).isEmpty then none
         else some { (⟨⟨"a"⟩, [1], []⟩ : ObjectDependencies) with
           dependent_workers := ([] : List WorkerID) }) ∧
      (∀ w ∈ ((⟨⟨"a"⟩, [1], []⟩ : ObjectDependencies)).dependent_workers,
        alGet r.2.2.worker_dependencies w =
        some (((alGet (⟨[], [(1, ⟨[⟨0, 0⟩], 1⟩)], [],
          [(0, [(⟨0, 0⟩, ⟨⟨"a"⟩, [1], []⟩)])], [], [⟨0, 0⟩]⟩ : TDM).worker_dependencies
            w).getD []).filter (· ≠ (⟨0, 0⟩ : ObjectID)))) :=
  handleObjectLocal_ready
    ⟨[], [(1, ⟨[⟨0, 0⟩], 1⟩)], [],
      [(0, [(⟨0, 0⟩, ⟨⟨"a"⟩, [1], []⟩)])], [], [⟨0, 0⟩]⟩ ⟨0, 0⟩
    ⟨⟨"a"⟩, [1], []⟩ ⟨[Op.subGet 1 [⟨⟨0, 0⟩, ⟨"a"⟩⟩]], by decide⟩
    (by decide) (by decide)

/-- C3: in any reachable state, `HandleObjectLocal(o)` followed by
`HandleObjectMissing(o)` (for non-local `o`), or `HandleObjectMissing(o)`
followed by `HandleObjectLocal(o)` (for local `o`), completes and restores
the task-readiness projection: every task's dependency record (its
subscribed status, get dependencies and missing counter) is as before the
pair. -/
theorem local_missing_inverse (s : TDM) (o : ObjectID) (hreach : Reachable s) :
    (o ∉ s.local_objects →
      ∃ r r2, HandleObjectLocal s o = some r ∧
        HandleObjectMissing r.2.2 o = some r2 ∧
        ∀ t, alGet r2.2.2.task_dependencies t = alGet s.task_dependencies t) ∧
    (o ∈ s.local_objects →
      ∃ r r2, HandleObjectMissing s o = some r ∧
        HandleObjectLocal r.2.2 o = some r2 ∧
        ∀ t, alGet r2.2.2.task_dependencies t = alGet s.task_dependencies t) := by
  have W := reachable_lite s hreach
  constructor
  · intro hnl
    cases hio : indexGet s o with
    | none =>
      obtain ⟨r, hr, _, e1, e2, e3, e4, e5, _⟩ :=
        handleObjectLocal_spec_none s o hnl hio
      have hl2 : o ∈ r.2.2.local_objects := by
        rw [e1]
        exact List.mem_cons_self _ _
      have hio2 : indexGet r.2.2 o = none := by
        rw [indexGet_congr _ _ o e5]
        exact hio
      obtain ⟨r2, hr2, _, f1, f2, f3, f4, f5, _⟩ :=
        handleObjectMissing_spec_none r.2.2 o hl2 hio2
      refine ⟨r, r2, hr, hr2, ?_⟩
      intro t
      rw [f3, e3]
    | some d =>
      obtain ⟨r, hr, _, e1, e2, htd, hwd, hidx, hrt, hmem⟩ :=
        handleObjectLocal_spec_some s o d W hnl hio
      have Wr : WFlite r.2.2 := handleObjectLocal_lite s o r W hr
      have hl2 : o ∈ r.2.2.local_objects := by
        rw [e1]
        exact List.mem_cons_self _ _
      by_cases hemp : d.dependent_tasks.isEmpty = true
      · have hio2 : indexGet r.2.2 o = none := by
          rw [hidx o, if_pos rfl, if_pos hemp]
        obtain ⟨r2, hr2, _, f1, f2, f3, f4, f5, _⟩ :=
          handleObjectMissing_spec_none r.2.2 o hl2 hio2
        refine ⟨r, r2, hr, hr2, ?_⟩
        intro t
        have hnil : d.dependent_tasks = [] := List.isEmpty_iff.mp hemp
        rw [f3, htd t, if_neg (by rw [hnil]; exact List.not_mem_nil t)]
      · have hio2 : indexGet r.2.2 o =
            some { d with dependent_workers := ([] : List WorkerID) } := by
          rw [hidx o, if_pos rfl, if_neg hemp]
        obtain ⟨r2, hr2, _, g1, g2, gtd, g4, g5, _⟩ :=
          handleObjectMissing_spec_some r.2.2 o _ Wr hl2 hio2
        refine ⟨r, r2, hr, hr2, ?_⟩
        intro t
        rw [gtd t]
        by_cases hm : t ∈ d.dependent_tasks
        · rw [if_pos hm]
          obtain ⟨te, hte, _⟩ := W.depTasksOK o d hio t hm
          have h1 : alGet r.2.2.task_dependencies t =
              some ⟨te.get_dependencies, te.num_missing_get_dependencies - 1⟩ := by
            rw [htd t, if_pos hm, hte]
            rfl
          rw [h1]
          simp only [Option.getD_some]
          rw [hte]
          have harith : te.num_missing_get_dependencies - 1 + 1 =
              te.num_missing_get_dependencies := by ring
          rw [harith]
        · rw [if_neg hm, htd t, if_neg hm]
  · intro hl
    cases hio : indexGet s o with
    | none =>
      obtain ⟨r, hr, _, e1, e2, e3, e4, e5, _⟩ :=
        handleObjectMissing_spec_none s o hl hio
      have hnl2 : o ∉ r.2.2.local_objects := by
        rw [e1]
        intro hc
        have := (List.mem_filter.mp hc).2
        simp at this
      have hio2 : indexGet r.2.2 o = none := by
        rw [indexGet_congr _ _ o e5]
        exact hio
      obtain ⟨r2, hr2, _, f1, f2, f3, f4, f5, _⟩ :=
        handleObjectLocal_spec_none r.2.2 o hnl2 hio2
      refine ⟨r, r2, hr, hr2, ?_⟩
      intro t
      rw [f3, e3]
    | some d =>
      obtain ⟨r, hr, _, e1, e2, htd, e4, e5, _⟩ :=
        handleObjectMissing_spec_some s o d W hl hio
      have Wr : WFlite r.2.2 := handleObjectMissing_lite s o r W hr
      have hnl2 : o ∉ r.2.2.local_objects := by
        rw [e1]
        intro hc
        have := (List.mem_filter.mp hc).2
        simp at this
      have hio2 : indexGet r.2.2 o = some d := by
        rw [indexGet_congr _ _ o e5]
        exact hio
      obtain ⟨r2, hr2, _, g1, g2, gtd, gwd, gidx, grt, gmem⟩ :=
        handleObjectLocal_spec_some r.2.2 o d Wr hnl2 hio2
      refine ⟨r, r2, hr, hr2, ?_⟩
      intro t
      rw [gtd t]
      by_cases hm : t ∈ d.dependent_tasks
      · rw [if_pos hm]
        obtain ⟨te, hte, _⟩ := W.depTasksOK o d hio t hm
        have h1 : alGet r.2.2.task_dependencies t =
            some ⟨te.get_dependencies, te.num_missing_get_dependencies + 1⟩ := by
          rw [htd t, if_pos hm, hte]
          rfl
        rw [h1]
        simp only [Option.getD_some]
        rw [hte]
        have harith : te.num_missing_get_dependencies + 1 - 1 =
            te.num_missing_get_dependencies := by ring
        rw [harith]
      · rw [if_neg hm, htd t, if_neg hm]

theorem local_missing_inverse_witness :
    ∃ r r2, HandleObjectLocal emptyTDM ⟨0, 0⟩ = some r ∧
      HandleObjectMissing r.2.2 ⟨0, 0⟩ = some r2 ∧
      ∀ t, alGet r2.2.2.task_dependencies t =
        alGet emptyTDM.task_dependencies t :=
  (local_missing_inverse emptyTDM ⟨0, 0⟩ ⟨[], rfl⟩).1 (by simp [emptyTDM])

/-- C6: in any reachable state, for a tracked task whose id is not already
pending, `TaskPending` followed by `TaskCanceled` restores the active-pull
set (as a set of object ids) to exactly its prior contents.  For an
already-pending task the claim fails (see the counterexample). -/
theorem pend_cancel_restores (s : TDM) (tk : Task) (hreach : Reachable s)
    (htr : tk.tracked = true) (hp : tk.task_id ∉ s.pending_tasks) :
    ∀ o, o ∈ (TaskCanceled (TaskPending s tk).2 tk.task_id).2.required_objects ↔
      o ∈ s.required_objects := by
  have W := reachable_lite s hreach
  have hfp : s.pending_tasks.filter (· ≠ tk.task_id) = s.pending_tasks := by
    apply List.filter_eq_self.mpr
    intro x hx
    simp only [decide_eq_true_eq]
    exact fun he => hp (he ▸ hx)
  cases hin : alGet s.required_tasks tk.task_id with
  | none =>
    have hpend : (TaskPending s tk).2 =
        { s with pending_tasks := tk.task_id :: s.pending_tasks } := by
      unfold TaskPending
      rw [if_pos htr, if_neg hp]
      simp only [hin]
    rw [hpend]
    have hmemP : tk.task_id ∈ ({ s with
        pending_tasks := tk.task_id :: s.pending_tasks } : TDM).pending_tasks :=
      List.mem_cons_self _ _
    have hcan : (TaskCanceled { s with
        pending_tasks := tk.task_id :: s.pending_tasks } tk.task_id).2 =
        { s with pending_tasks :=
            (tk.task_id :: s.pending_tasks).filter (· ≠ tk.task_id) } := by
      unfold TaskCanceled
      rw [if_pos hmemP]
      simp only [hin]
    rw [hcan]
    intro o
    exact Iff.rfl
  | some inner =>
    have hpend : (TaskPending s tk).2 =
        (cancelAll { s with pending_tasks := tk.task_id :: s.pending_tasks }
          (inner.map (·.1))).1 := by
      unfold TaskPending
      rw [if_pos htr, if_neg hp]
      simp only [hin]
    rw [hpend]
    set P := (cancelAll { s with pending_tasks := tk.task_id :: s.pending_tasks }
      (inner.map (·.1))).1 with hPdef
    have hPp : P.pending_tasks = tk.task_id :: s.pending_tasks :=
      (cancelAll_frame _ _).2.2.2.2
    have hPrtEq : P.required_tasks = s.required_tasks :=
      (cancelAll_frame _ _).2.2.2.1
    have hPl : P.local_objects = s.local_objects := (cancelAll_frame _ _).1
    have hmemPd : tk.task_id ∈ P.pending_tasks := by
      rw [hPp]
      exact List.mem_cons_self _ _
    have hPrt : alGet P.required_tasks tk.task_id = some inner := by
      rw [hPrtEq]
      exact hin
    have hPrt2 : alGet ({ P with
          pending_tasks := P.pending_tasks.filter (· ≠ tk.task_id) }
        : TDM).required_tasks tk.task_id = some inner := hPrt
    have hcan : (TaskCanceled P tk.task_id).2 =
        (requireAll { P with
            pending_tasks := P.pending_tasks.filter (· ≠ tk.task_id) }
          (inner.map (·.1))).1 := by
      unfold TaskCanceled
      rw [if_pos hmemPd]
      simp only [hPrt2]
    rw [hcan]
    have h3 : ({ P with
        pending_tasks := P.pending_tasks.filter (· ≠ tk.task_id) }
        : TDM).pending_tasks = s.pending_tasks := by
      show P.pending_tasks.filter (· ≠ tk.task_id) = s.pending_tasks
      rw [hPp, List.filter_cons_of_neg (by simp)]
      exact hfp
    have h1 : ({ P with
        pending_tasks := P.pending_tasks.filter (· ≠ tk.task_id) }
        : TDM).required_tasks = s.required_tasks := hPrtEq
    have h2 : ({ P with
        pending_tasks := P.pending_tasks.filter (· ≠ tk.task_id) }
        : TDM).local_objects = s.local_objects := hPl
    have hrs : ∀ o2, objectIsRequired { P with
        pending_tasks := P.pending_tasks.filter (· ≠ tk.task_id) } o2 =
        objectIsRequired s o2 := by
      intro o2
      unfold objectIsRequired
      rw [checkRequired_congr s _ o2 h1 h2 h3]
    intro o
    rw [mem_requireAll]
    have hPm : o ∈ ({ P with
        pending_tasks := P.pending_tasks.filter (· ≠ tk.task_id) }
        : TDM).required_objects ↔
        o ∈ s.required_objects ∧ (o ∉ inner.map (·.1) ∨
          objectIsRequired { s with pending_tasks :=
            tk.task_id :: s.pending_tasks } o = true) := by
      show o ∈ P.required_objects ↔ _
      rw [hPdef]
      exact mem_cancelAll _ _ o
    rw [hPm, hrs o]
    constructor
    · rintro (⟨hm, _⟩ | ⟨_, hreq⟩)
      · exact hm
      · obtain ⟨hi, hloc, hpd⟩ := (objectIsRequired_iff s o).mp hreq
        obtain ⟨d, hd⟩ := Option.isSome_iff_exists.mp hi
        exact W.reqComplete o d hd hloc hpd
    · intro hm
      by_cases hos : o ∈ inner.map (·.1)
      · refine Or.inr ⟨hos, ?_⟩
        obtain ⟨d, hd⟩ := Option.isSome_iff_exists.mp
          (alGet_isSome_of_mem_keys inner o hos)
        have hct : o.taskId = tk.task_id := W.creatorOK tk.task_id inner o d hin hd
        rw [objectIsRequired_iff]
        refine ⟨?_, W.disjointLocal o hm, ?_⟩
        · unfold indexGet
          rw [hct, hin]
          simp [hd]
        · rw [hct]
          exact hp
      · exact Or.inl ⟨hm, Or.inl hos⟩

theorem pend_cancel_restores_witness :
    (⟨0, 0⟩ : ObjectID) ∈ (TaskCanceled (TaskPending
        (⟨[], [(1, ⟨[⟨0, 0⟩], 1⟩)], [],
          [(0, [(⟨0, 0⟩, ⟨⟨"a"⟩, [1], []⟩)])], [], [⟨0, 0⟩]⟩ : TDM)
        ⟨0, true, false⟩).2 (Task.task_id ⟨0, true, false⟩)).2.required_objects ↔
      (⟨0, 0⟩ : ObjectID) ∈ (⟨[], [(1, ⟨[⟨0, 0⟩], 1⟩)], [],
        [(0, [(⟨0, 0⟩, ⟨⟨"a"⟩, [1], []⟩)])], [], [⟨0, 0⟩]⟩ : TDM).required_objects :=
  pend_cancel_restores
    ⟨[], [(1, ⟨[⟨0, 0⟩], 1⟩)], [],
      [(0, [(⟨0, 0⟩, ⟨⟨"a"⟩, [1], []⟩)])], [], [⟨0, 0⟩]⟩
    ⟨0, true, false⟩ ⟨[Op.subGet 1 [⟨⟨0, 0⟩, ⟨"a"⟩⟩]], by decide⟩
    (by decide) (by decide) ⟨0, 0⟩

end RayTDM
